import Mathlib

/-!
# Verification of the KeyHub key-tree synchronization engine

Shallow embedding of the translation-catalog engine:
`flattenJson`, `setNestedValue`, `removeNestedKey`, `sortDeep`,
`ensureFile`, the IPC handlers (`addKey`, `removeKey`, `readAll`,
`importFolder`), the HTTP key-intake endpoint (`handleRequest`) and the
UI tree helpers (`sortTree`).

Modelling conventions:
* JSON documents are the inductive `Json` below.  A JavaScript object is a
  list of key/value pairs in insertion order (JS objects preserve
  insertion order for string keys and cannot hold duplicate keys; the
  well-formedness predicates used by the theorems assume key uniqueness).
* JSON numbers are modelled as integers; floating-point formatting is out
  of scope for every claim considered here.
* The source descends into arrays where JavaScript's
  `typeof x === "object"` is true for arrays.  A named property written
  on (or deleted from) an array does not survive `JSON.stringify`, which
  is applied on every disk write immediately after the mutation, so the
  model lets `setNestedValue`/`removeNestedKey` leave arrays unchanged.
  Paths that select array elements by numeric index (and the pruning of
  an already-empty array by `removeNestedKey`) are outside the modelled
  fragment; all theorems below restrict to paths that never cross an
  array or a `null`, and no concrete example uses arrays.
* `localeCompare(..., { sensitivity: "base" })` (used by `sortDeep` and
  `readAll`) is modelled, on the ASCII data all claims exercise, as
  comparison of the lowercased strings; the default `localeCompare`
  (used by `sortTree`) is modelled as the lowercased comparison refined
  by a lowercase-before-uppercase tie-break, matching ICU's tertiary
  strength for ASCII.
* `JSON.parse` of an HTTP request body is a platform primitive; the
  model receives an `Option Json` (`none` = the body is not valid JSON).
-/

namespace KeyHub

/-- A JSON value, as manipulated by the engine. -/
inductive Json where
  | str (s : String)
  | num (n : Int)
  | bool (b : Bool)
  | null
  | arr (elems : List Json)
  | obj (fields : List (String × Json))

/-- Fields of a JSON object (a JS `Record<string, unknown>`). -/
abbrev Obj := List (String × Json)

/-- JS property read on an object modelled as an association list in
insertion order (`none` = `undefined`). -/
def alistGet {α : Type} (l : List (String × α)) (k : String) : Option α :=
  match l.find? (fun e => e.1 = k) with
  | some e => some e.2
  | none => none

/-- JS property write `l[k] = v`: replaces the value in place if the key
exists, otherwise appends the new key at the end (JS insertion order). -/
def alistPut {α : Type} : List (String × α) → String → α → List (String × α)
  | [], k, v => [(k, v)]
  | (k', v') :: rest, k, v =>
    if k' = k then (k', v) :: rest else (k', v') :: alistPut rest k v

/-- JS `delete l[k]`: drops the binding, preserving the order of the rest. -/
def alistDel {α : Type} (l : List (String × α)) (k : String) : List (String × α) :=
  l.filter (fun e => ¬ e.1 = k)

namespace Json

mutual

/-- JS `String(x)` for an element of an array being stringified
(`Array.prototype.toString` maps `null` to the empty string). -/
def jsArrElemStr : Json → String
  | .str s => s
  | .num n => toString n
  | .bool b => if b then "true" else "false"
  | .null => ""
  | .arr es => jsArrJoin es
  | .obj _ => "[object Object]"

/-- Comma-join of stringified array elements (`Array.prototype.toString`). -/
def jsArrJoin : List Json → String
  | [] => ""
  | [e] => jsArrElemStr e
  | e :: e' :: rest => jsArrElemStr e ++ "," ++ jsArrJoin (e' :: rest)

end

/-- The leaf coercion `String(v ?? "")` performed by `flattenJson`. -/
def jsLeafString : Json → String
  | .str s => s
  | .num n => toString n
  | .bool b => if b then "true" else "false"
  | .null => ""
  | .arr es => jsArrJoin es
  | .obj _ => "[object Object]"

end Json

open Json

/-- JS `key.split(".")` (single-character separator): splits on every `'.'`;
the result always has at least one element (`"".split(".")` is `[""]`). -/
def jsSplitDotAux : List Char → List Char → List String
  | [], acc => [String.mk acc.reverse]
  | c :: rest, acc =>
    if c = '.' then String.mk acc.reverse :: jsSplitDotAux rest []
    else jsSplitDotAux rest (c :: acc)

/-- JS `key.split(".")`. -/
def jsSplitDot (s : String) : List String := jsSplitDotAux s.data []

/-- ASCII lowering of one character, modelling JS `toLowerCase()` on the
ASCII data all claims exercise. -/
def asciiLowerChar (c : Char) : Char :=
  if c.isUpper then Char.ofNat (c.toNat + 32) else c

/-- ASCII `toLowerCase()`. -/
def asciiLower (s : String) : String := String.mk (s.data.map asciiLowerChar)

/-- A flat map of dot-notated keys to string values (`FlatJson` in the source).
Built only through `upsertS`, so its keys are unique. -/
abbrev FlatJson := List (String × String)

/-- `Object.assign(acc, extra)`: each binding of `extra` written into `acc`
in order (existing keys keep their position, new keys are appended). -/
def objAssignS (acc extra : FlatJson) : FlatJson :=
  extra.foldl (fun a e => alistPut a e.1 e.2) acc

/-- The dot-joined key built by `flattenJson`:
`prefix ? prefix + "." + k : k` (note: the empty prefix is falsy). -/
def fullKey (pre k : String) : String :=
  if pre = "" then k else pre ++ "." ++ k

/-- `flattenJson` on the fields of an object: values that are plain non-array
non-null objects are recursed into, everything else becomes a string leaf. -/
def flattenFields : Obj → String → FlatJson
  | [], _ => []
  | (k, v) :: rest, pre =>
    let fk := fullKey pre k
    let contrib : FlatJson :=
      match v with
      | .obj fs => flattenFields fs fk
      | _ => [(fk, jsLeafString v)]
    objAssignS contrib (flattenFields rest pre)

/-- `flattenJson(obj, prefix)`: non-object (or array) inputs flatten to `{}`. -/
def flattenJson : Json → String → FlatJson
  | .obj fields, pre => flattenFields fields pre
  | _, _ => []

/-- Keys of a flat map. -/
def flatKeys (l : FlatJson) : List String := l.map Prod.fst

/-- Lookup in a flat map (keys of a flat map built by flattening are unique). -/
def flatLookup (l : FlatJson) (k : String) : Option String := alistGet l k

/-- The descending/creating loop of `setNestedValue`, on the key split into
path segments.  At each non-final segment: a missing, non-object, or `null`
binding is replaced by a fresh `{}`; a plain object is descended into; an
array is left unchanged (see the array modelling note in the header). -/
def setParts : Obj → List String → String → Obj
  | fields, [], _ => fields
  | fields, [p], v => alistPut fields p (.str v)
  | fields, p :: q :: rest, v =>
    match alistGet fields p with
    | some (.obj sub) => alistPut fields p (.obj (setParts sub (q :: rest) v))
    | some (.arr _) => fields
    | _ => alistPut fields p (.obj (setParts [] (q :: rest) v))

/-- `setNestedValue(obj, dottedKey, value)` from the source. -/
def setNestedValue (fields : Obj) (dottedKey value : String) : Obj :=
  setParts fields (jsSplitDot dottedKey) value

/-- The delete-then-prune loop of `removeNestedKey`, on the split key.
Walking stops (document unchanged) at a missing or non-`typeof "object"`
binding; after the delete, every ancestor object that has become empty is
removed, bottom-up, stopping at the first non-empty ancestor — here realised
by the recursive `if (removeParts sub …).isEmpty` check.  Arrays and `null`
on the path are left unchanged (see the array modelling note; on a `null`
binding the source itself throws a `TypeError`). -/
def removeParts : Obj → List String → Obj
  | fields, [] => fields
  | fields, [p] => alistDel fields p
  | fields, p :: q :: rest =>
    match alistGet fields p with
    | some (.obj sub) =>
      let sub' := removeParts sub (q :: rest)
      if sub'.isEmpty then alistDel fields p else alistPut fields p (.obj sub')
    | _ => fields

/-- `removeNestedKey(obj, dottedKey)` from the source. -/
def removeNestedKey (fields : Obj) (dottedKey : String) : Obj :=
  removeParts fields (jsSplitDot dottedKey)

/-- Model of `a.localeCompare(b, undefined, { sensitivity: "base" }) <= 0`:
case-insensitive alphabetical order (ASCII fragment of ICU base strength). -/
def baseLe (a b : String) : Prop := asciiLower a ≤ asciiLower b

instance : DecidableRel baseLe := fun a b =>
  inferInstanceAs (Decidable (asciiLower a ≤ asciiLower b))

instance : IsTotal String baseLe := ⟨fun a b => le_total (asciiLower a) (asciiLower b)⟩

instance : IsTrans String baseLe := ⟨fun _ _ _ h h' => le_trans h h'⟩

/-- The per-character case key used to model ICU's lowercase-first tertiary
tie-break of the default `localeCompare`. -/
def caseKey (s : String) : String :=
  String.mk (s.data.map (fun c => if c.isUpper then 'B' else 'A'))

/-- Model of `a.localeCompare(b) <= 0` (default collation): primary strength
compares the lowercased strings, ties are broken lowercase-first. -/
def jsDefaultLe (a b : String) : Prop :=
  asciiLower a < asciiLower b ∨ (asciiLower a = asciiLower b ∧ caseKey a ≤ caseKey b)

instance : DecidableRel jsDefaultLe := fun _ _ =>
  inferInstanceAs (Decidable (_ ∨ _))

instance : IsTotal String jsDefaultLe := by
  constructor
  intro a b
  rcases lt_trichotomy (asciiLower a) (asciiLower b) with h | h | h
  · exact Or.inl (Or.inl h)
  · rcases le_total (caseKey a) (caseKey b) with h' | h'
    · exact Or.inl (Or.inr ⟨h, h'⟩)
    · exact Or.inr (Or.inr ⟨h.symm, h'⟩)
  · exact Or.inr (Or.inl h)

instance : IsTrans String jsDefaultLe := by
  constructor
  rintro a b c (h | ⟨h, h'⟩) (g | ⟨g, g'⟩)
  · exact Or.inl (lt_trans h g)
  · exact Or.inl (g ▸ h)
  · exact Or.inl (h ▸ g)
  · exact Or.inr ⟨h.trans g, h'.trans g'⟩

/-- Field comparison used by `sortDeep`: base-sensitivity `localeCompare`
on the keys. -/
def fieldLe (a b : String × Json) : Prop := baseLe a.1 b.1

instance : DecidableRel fieldLe := fun a b =>
  inferInstanceAs (Decidable (baseLe a.1 b.1))

instance : IsTotal (String × Json) fieldLe :=
  ⟨fun a b => IsTotal.total (r := baseLe) a.1 b.1⟩

instance : IsTrans (String × Json) fieldLe :=
  ⟨fun _ _ _ h h' => Trans.trans (r := baseLe) (s := baseLe) h h'⟩

mutual

/-- Recursive part of `sortDeep`: values that are plain objects are sorted
deeply, everything else (arrays included) is kept as-is.  The source sorts
the keys of the current object before recursing into the values; since the
comparator looks only at the keys, which the recursion leaves unchanged,
recursing first and then sorting (as written here, to satisfy structural
recursion) denotes the same function. -/
def sortDeepVal : Json → Json
  | .obj fs => .obj (List.insertionSort fieldLe (sortDeepEach fs))
  | v => v

/-- Apply `sortDeepVal` to every field value. -/
def sortDeepEach : Obj → Obj
  | [] => []
  | (k, v) :: rest => (k, sortDeepVal v) :: sortDeepEach rest

end

/-- `sortDeep` on the fields of an object: keys sorted alphabetically with
the base-sensitivity comparator (stable sort, like `Array.prototype.sort`),
plain-object values recursed into. -/
def sortDeepF (fields : Obj) : Obj :=
  List.insertionSort fieldLe (sortDeepEach fields)

/-- `sortDeep(doc)` from the source. -/
def sortDeep : Json → Json
  | .obj fields => .obj (sortDeepF fields)
  | v => v

/-! ## Settings, file system, and the file-set resolver -/

/-- A `TranslationFile` record: one JSON document on disk for one
(language, namespace) pair. -/
structure TranslationFile where
  absolutePath : String
  «namespace» : String
deriving DecidableEq

/-- A configured language. -/
structure Language where
  code : String
  files : List TranslationFile
deriving DecidableEq

/-- The folder-structure mode (`settings.folderStructure`). -/
inductive FolderStructure where
  | namespaced
  | flat
deriving DecidableEq

/-- The fields of the settings document used by the engine (`serverPort`,
`serverAutoStart` and `deeplApiKey` play no role in any claim). -/
structure AppSettings where
  rootFolder : Option String
  folderStructure : FolderStructure
  languages : List Language

/-- The file system: absolute path to the parsed object content of the JSON
file stored there.  `readJsonFile` yields `{}` both for a missing file and
for a malformed one, so a malformed file is represented as content `[]`;
a path is "existing" when it is bound here. -/
abbrev FileSys := List (String × Obj)

/-- `path.join(a, b)`. -/
def pathJoin (a b : String) : String := a ++ "/" ++ b

/-- `readJsonFile(filePath)`: parse failures (including a missing file)
yield `{}`. -/
def readJsonFile (fs : FileSys) (path : String) : Obj :=
  (alistGet fs path).getD []

/-- `fs.existsSync`. -/
def existsSync (fs : FileSys) (path : String) : Bool :=
  (alistGet fs path).isSome

/-- `writeJsonFile(filePath, json)`: writes the document with deeply sorted
keys. -/
def writeJsonFile (fs : FileSys) (path : String) (json : Obj) : FileSys :=
  alistPut fs path (sortDeepF json)

/-- The whole mutable state: the settings document plus the on-disk tree.
`saveSettings` persists the settings value threaded through here. -/
structure Store where
  settings : AppSettings
  fs : FileSys

/-- Replace the first language whose code is `code` (the source mutates the
`Language` object found by `find`, which is the first match). -/
def updateFirstLang : List Language → String → (Language → Language) → List Language
  | [], _, _ => []
  | l :: rest, code, f =>
    if l.code = code then f l :: rest else l :: updateFirstLang rest code f

/-- `ensureFile(settings, langCode, namespace)` from the source: returns the
existing `File` record if present; otherwise, when a root folder is set,
synthesizes the path for the current folder-structure mode, creates an empty
JSON file there unless one exists, appends the record to the language's file
list and persists the settings. -/
def ensureFile (st : Store) (langCode nsp : String) : Store × Option TranslationFile :=
  match st.settings.languages.find? (fun l => l.code = langCode) with
  | none => (st, none)
  | some lang =>
    match lang.files.find? (fun f => f.«namespace» = nsp) with
    | some file => (st, some file)
    | none =>
      match st.settings.rootFolder with
      | none => (st, none)
      | some root =>
        let filePath :=
          if st.settings.folderStructure = .flat then pathJoin root (langCode ++ ".json")
          else pathJoin (pathJoin root langCode) (nsp ++ ".json")
        let fs' := if existsSync st.fs filePath then st.fs else alistPut st.fs filePath []
        let file : TranslationFile := ⟨filePath, nsp⟩
        let langs' := updateFirstLang st.settings.languages langCode
          (fun l => { l with files := l.files ++ [file] })
        ({ settings := { st.settings with languages := langs' }, fs := fs' }, some file)

/-! ## Mutation engine: `translations:addKey` -/

/-- One iteration of the `translations:addKey` loop for the language with
code `code`: ensure the file, and set the key to the empty string only when
the flattened document does not already contain it. -/
def addKeyStep (nsp key : String) (st : Store) (code : String) : Store :=
  match ensureFile st code nsp with
  | (st', none) => st'
  | (st', some file) =>
    let json := readJsonFile st'.fs file.absolutePath
    let flat := flattenFields json ""
    if key ∈ flatKeys flat then st'
    else { st' with fs := writeJsonFile st'.fs file.absolutePath (setNestedValue json key "") }

/-- The `translations:addKey` handler: iterates over the configured
languages (the language list itself is not changed by `ensureFile`, only
file lists are extended, so iterating over the initial codes is faithful;
note that `ensureFile` re-finds the language by code, i.e. always the first
match). -/
def addKey (st : Store) (nsp key : String) : Store :=
  (st.settings.languages.map (fun l => l.code)).foldl (fun s c => addKeyStep nsp key s c) st

/-! ## Catalog merge engine: `translations:readAll` -/

/-- One aggregated key row. -/
structure KeyEntry where
  key : String
  values : List (String × Option String)

/-- One namespace aggregate. -/
structure NamespaceData where
  «namespace» : String
  keys : List KeyEntry

/-- Insertion-order deduplication (a JS `Set` iterated in insertion order). -/
def dedupFirst (l : List String) : List String :=
  l.foldl (fun acc x => if x ∈ acc then acc else acc ++ [x]) []

/-- Add the keys of `ks` to the insertion-ordered set `acc`. -/
def addKeysTo (acc : List String) (ks : List String) : List String :=
  ks.foldl (fun a k => if k ∈ a then a else a ++ [k]) acc

/-- The per-namespace language loop of `readAll`: builds `langMaps` (an
object keyed by language code) and the insertion-ordered `allKeys` set. -/
def readAllMaps (st : Store) (n : String) :
    List (String × FlatJson) × List String :=
  st.settings.languages.foldl
    (fun acc lang =>
      match lang.files.find? (fun f => f.«namespace» = n) with
      | some f =>
        let flat := flattenFields (readJsonFile st.fs f.absolutePath) ""
        (alistPut acc.1 lang.code flat, addKeysTo acc.2 (flatKeys flat))
      | none => (alistPut acc.1 lang.code [], acc.2))
    ([], [])

/-- The `translations:readAll` handler.  `values` is modelled as the list of
entries fed to `Object.fromEntries` in `langCodes` order (the theorems below
assume the configured codes are distinct, as a JS object would collapse
duplicates). -/
def readAll (st : Store) : List NamespaceData :=
  let langCodes := st.settings.languages.map (fun l => l.code)
  let allNs := dedupFirst (st.settings.languages.flatMap (fun l => l.files.map (fun f => f.«namespace»)))
  (List.insertionSort baseLe allNs).map (fun n =>
    let maps := readAllMaps st n
    let keys := (List.insertionSort baseLe maps.2).map (fun k =>
      { key := k
        values := langCodes.map (fun c =>
          (c, match alistGet maps.1 c with
              | some fl => flatLookup fl k
              | none => none)) })
    { «namespace» := n, keys := keys })

/-! ## Import: `translations:importFolder` -/

/-- One entry of the root directory as returned by
`readdirSync(rootPath, {withFileTypes: true})`. -/
structure RootEntry where
  name : String
  isDir : Bool

/-- `name.endsWith(".json")`. -/
def endsWithJson (s : String) : Bool :=
  match s.data.reverse with
  | 'n' :: 'o' :: 's' :: 'j' :: '.' :: _ => true
  | _ => false

/-- `path.basename(name, ".json")` for a name already known to end in
`".json"`: Node keeps the name unchanged when it equals the extension. -/
def stripJsonExt (s : String) : String :=
  if s = ".json" then s else String.mk (s.data.take (s.data.length - 5))

/-- `LOCALE_REGEX`: `^[a-z]{2}-[A-Z]{2}$` (ASCII classes). -/
def isLocaleName (s : String) : Bool :=
  match s.data with
  | [a, b, '-', c, d] => a.isLower && b.isLower && c.isUpper && d.isUpper
  | _ => false

/-- `LOCALE_JSON_REGEX`: `^[a-z]{2}-[A-Z]{2}\.json$`. -/
def isLocaleJsonName (s : String) : Bool :=
  match s.data with
  | [a, b, '-', c, d, '.', 'j', 's', 'o', 'n'] => a.isLower && b.isLower && c.isUpper && d.isUpper
  | _ => false

/-- `scanJsonFiles(dirPath)` from the source, with the directory listing
supplied as the list of entry names (the source does not check that an
entry is a regular file). -/
def scanJsonFiles (dirPath : String) (names : List String) : List TranslationFile :=
  (names.filter (fun n => endsWithJson n)).map
    (fun n => ⟨pathJoin dirPath n, stripJsonExt n⟩)

/-- The `translations:importFolder` handler after the user has picked
`rootPath`; `entries` is the root listing and `dirListing` maps a
subdirectory name to its entry names. -/
def importFolder (settings : AppSettings) (rootPath : String) (entries : List RootEntry)
    (dirListing : List (String × List String)) : AppSettings :=
  let s0 : AppSettings := { settings with rootFolder := some rootPath, languages := [] }
  let langs1 := entries.foldl
    (fun acc e =>
      if e.isDir && isLocaleName e.name then
        let files := scanJsonFiles (pathJoin rootPath e.name)
          ((alistGet dirListing e.name).getD [])
        if files.isEmpty then acc else acc ++ [⟨e.name, files⟩]
      else acc)
    ([] : List Language)
  if langs1.isEmpty then
    let langs2 := entries.foldl
      (fun acc e =>
        if (!e.isDir) && isLocaleJsonName e.name then
          acc ++ [⟨stripJsonExt e.name, [⟨pathJoin rootPath e.name, "default"⟩]⟩]
        else acc)
      ([] : List Language)
    { s0 with
      languages := langs2
      folderStructure := if langs2.isEmpty then FolderStructure.namespaced else FolderStructure.flat }
  else
    { s0 with languages := langs1, folderStructure := FolderStructure.namespaced }

/-! ## Key-intake HTTP endpoint (`handleRequest`) -/

/-- An incoming request; `body` is the result of `JSON.parse` on the
received body text (`none` = the text is not valid JSON). -/
structure HttpRequest where
  method : String
  url : String
  body : Option Json

/-- The response payloads the handler can produce. -/
inductive RespBody where
  /-- `res.end()` with no payload. -/
  | empty
  /-- The serialized `{ok: true}`. -/
  | okTrue
  /-- The serialized `{error: "Not found. Use POST /locales/:lng/:ns"}`. -/
  | errNotFound
  /-- The serialized `{error: "Invalid JSON body"}`. -/
  | errInvalidJson
deriving DecidableEq

/-- Status code and body of the response (the CORS headers are attached to
every response unconditionally and are not modelled). -/
structure HttpResponse where
  status : Nat
  body : RespBody
deriving DecidableEq

/-- Split on `'/'`, for the route match. -/
def jsSplitSlashAux : List Char → List Char → List String
  | [], acc => [String.mk acc.reverse]
  | c :: rest, acc =>
    if c = '/' then String.mk acc.reverse :: jsSplitSlashAux rest []
    else jsSplitSlashAux rest (c :: acc)

/-- The route regex `^\/locales\/([^/]+)\/([^/]+)$`. -/
def matchLocalesPath (url : String) : Option (String × String) :=
  match jsSplitSlashAux url.data [] with
  | ["", "locales", lng, nsp] =>
    if lng = "" ∨ nsp = "" then none else some (lng, nsp)
  | _ => none

/-- JS property access on the parsed body (`undefined` = `none`;
primitives and arrays have none of the accessed properties). -/
def getProp (j : Json) (k : String) : Option Json :=
  match j with
  | .obj fs => alistGet fs k
  | _ => none

/-- `ToPropertyKey` coercion applied by the `in` operator when the `key`
field of the body is missing or not a string. -/
def toPropKey : Option Json → String
  | none => "undefined"
  | some (.str s) => s
  | some (.num n) => toString n
  | some (.bool b) => if b then "true" else "false"
  | some .null => "null"
  | some (.arr es) => jsArrJoin es
  | some (.obj _) => "[object Object]"

/-- The ensure-and-insert loop of `handleRequest` over the configured
language codes.  The `Bool` is `addedKeys.length > 0` (the single reported
key is recorded at most once).  A non-string `key` reaching
`setNestedValue` makes `key.split` throw: the `.error` carries the state at
the moment of the throw (all file writes performed before it persist). -/
def intakeLoop (nsp : String) (keyVal : Option Json) :
    Store → List String → Bool → Except Store (Store × Bool)
  | st, [], added => .ok (st, added)
  | st, code :: rest, added =>
    match ensureFile st code nsp with
    | (st', none) => intakeLoop nsp keyVal st' rest added
    | (st', some file) =>
      let json := readJsonFile st'.fs file.absolutePath
      if toPropKey keyVal ∈ flatKeys (flattenFields json "") then
        intakeLoop nsp keyVal st' rest added
      else
        match keyVal with
        | some (.str s) =>
          intakeLoop nsp keyVal
            { st' with fs := writeJsonFile st'.fs file.absolutePath (setNestedValue json s "") }
            rest true
        | _ => .error st'

/-- The default-value step: runs only when `defaultValue` is a non-empty
string (`defaultValue && typeof defaultValue === "string"`), and writes it
at `key` in the requesting language's file. -/
def applyDefault (st : Store) (langCode nsp : String) (keyVal defVal : Option Json) :
    Except Store Store :=
  match defVal with
  | some (.str s) =>
    if s = "" then .ok st
    else
      match ensureFile st langCode nsp with
      | (st', none) => .ok st'
      | (st', some file) =>
        match keyVal with
        | some (.str k) =>
          .ok { st' with
                fs := writeJsonFile st'.fs file.absolutePath
                  (setNestedValue (readJsonFile st'.fs file.absolutePath) k s) }
        | _ => .error st'
  | _ => .ok st

/-- The body of the `try` block of `handleRequest` after `JSON.parse`
succeeded: destructuring `null` throws immediately; otherwise the intake
loop runs, then the default-value write, then the notification is emitted
if any key was added.  `.error` carries the state at the throw (the catch
block sends `400` without undoing completed writes and without notifying). -/
def processBody (st : Store) (lng nsp : String) (parsed : Json) :
    Except Store (Store × List (String × List String)) :=
  match parsed with
  | .null => .error st
  | _ =>
    let keyVal := getProp parsed "key"
    let defVal := getProp parsed "defaultValue"
    match intakeLoop nsp keyVal st (st.settings.languages.map (fun l => l.code)) false with
    | .error stE => .error stE
    | .ok (st1, added) =>
      match applyDefault st1 lng nsp keyVal defVal with
      | .error stE => .error stE
      | .ok st2 =>
        let notes :=
          if added then
            match keyVal with
            | some (.str s) => [(nsp, [s])]
            | _ => []
          else []
        .ok (st2, notes)

/-- `handleRequest` from the source: `OPTIONS` short-circuits to `204`;
a non-matching path or non-`POST` method yields `404`; an unparsable body
yields `400`; any throw inside the `try` block yields `400` (keeping the
writes performed up to the throw); otherwise `200 {ok: true}` with the
"keys received" notifications emitted to the renderer. -/
def handleRequest (st : Store) (req : HttpRequest) :
    Store × List (String × List String) × HttpResponse :=
  if req.method = "OPTIONS" then (st, [], ⟨204, .empty⟩)
  else
    match matchLocalesPath req.url with
    | none => (st, [], ⟨404, .errNotFound⟩)
    | some (lng, nsp) =>
      if req.method ≠ "POST" then (st, [], ⟨404, .errNotFound⟩)
      else
        match req.body with
        | none => (st, [], ⟨400, .errInvalidJson⟩)
        | some parsed =>
          match processBody st lng nsp parsed with
          | .error stE => (stE, [], ⟨400, .errInvalidJson⟩)
          | .ok (st', notes) => (st', notes, ⟨200, .okTrue⟩)

/-! ## UI tree helpers (`tree-utils.ts`) -/

/-- A `TreeNode` of the UI projection. -/
inductive TreeNode where
  | mk (segment fullKey : String) (children : List TreeNode)
       (values : Option (List (String × Option String)))

/-- The segment of a node. -/
def TreeNode.segment : TreeNode → String
  | .mk s _ _ _ => s

/-- The children of a node. -/
def TreeNode.children : TreeNode → List TreeNode
  | .mk _ _ c _ => c

/-- The comparator of `sortTree`: default-collation `localeCompare` on the
segments. -/
def nodeLe (a b : TreeNode) : Prop := jsDefaultLe a.segment b.segment

instance : DecidableRel nodeLe := fun a b =>
  inferInstanceAs (Decidable (jsDefaultLe a.segment b.segment))

instance : IsTotal TreeNode nodeLe :=
  ⟨fun a b => IsTotal.total (r := jsDefaultLe) a.segment b.segment⟩

instance : IsTrans TreeNode nodeLe :=
  ⟨fun _ _ _ h h' => Trans.trans (r := jsDefaultLe) (s := jsDefaultLe) h h'⟩

mutual

/-- `sortTree` on one node: the source sorts a sibling array in place and
then recurses into each node's children; the comparator reads only the
segments, which the recursion leaves untouched, so recursing first and
sorting afterwards (as needed for structural recursion) denotes the same
function. -/
def sortTreeNode : TreeNode → TreeNode
  | .mk s f c v => .mk s f (List.insertionSort nodeLe (sortTreeEach c)) v

/-- Apply `sortTreeNode` to every node of a sibling list. -/
def sortTreeEach : List TreeNode → List TreeNode
  | [] => []
  | n :: rest => sortTreeNode n :: sortTreeEach rest

end

/-- `sortTree(nodes)` from the source. -/
def sortTree (nodes : List TreeNode) : List TreeNode :=
  List.insertionSort nodeLe (sortTreeEach nodes)

/-- A dot-free string: the form every path segment produced by
`key.split(".")` has. -/
def dotFree (s : String) : Prop := '.' ∉ s.data

/-- A well-formed object key: nonempty and dot-free. -/
def goodKey (s : String) : Prop := s ≠ "" ∧ '.' ∉ s.data

/-- `x` is the key `base` itself or a dot-extension of it: the shape of every
flattened key contributed by the subtree rooted at `base`. -/
def keyMatches (base x : String) : Prop :=
  x = base ∨ ∃ r, x = base ++ "." ++ r

/-! ## Join/split lemmas -/

/-- Dot-join of a segment list (the inverse of `split(".")` on dot-free
segments). -/
def joinDots : List String → String
  | [] => ""
  | [p] => p
  | p :: q :: rest => p ++ "." ++ joinDots (q :: rest)

/-- The key accumulated by `flattenJson` along a path: iterated `fullKey`. -/
def joinKey (pre : String) : List String → String
  | [] => pre
  | p :: rest => joinKey (fullKey pre p) rest

/-! ## Well-formedness of documents -/

mutual

/-- A well-formed value: objects have good (nonempty, dot-free) and
pairwise-distinct keys at every level.  Real JS objects cannot have
duplicate keys; dot-free keys exclude the ambiguity between a literal
`"a.b"` property and a nested `a.b` path. -/
def goodVal : Json → Prop
  | .obj fs => goodFields fs
  | _ => True

/-- Well-formed object fields. -/
def goodFields : Obj → Prop
  | [] => True
  | (k, v) :: rest => goodKey k ∧ goodVal v ∧ (¬ k ∈ rest.map Prod.fst) ∧ goodFields rest

end

/-! ## Structure of the flattened map -/

/-- The contribution of one field to the flattened map (the `contrib`
computed per entry by `flattenFields`). -/
def contribOf (pre k : String) (v : Json) : FlatJson :=
  match v with
  | .obj fs => flattenFields fs (fullKey pre k)
  | _ => [(fullKey pre k, jsLeafString v)]

/-! ## Removal: `removeNestedKey` deletes the leaf and prunes -/

/-- The split key denotes a leaf of the document: every intermediate
segment binds a plain object and the final segment binds a non-object value
(exactly the keys that appear in the flattened map of a well-formed
document). -/
def leafAt : Obj → List String → Prop
  | _, [] => False
  | fields, [p] =>
    match alistGet fields p with
    | some (.obj _) => False
    | some _ => True
    | none => False
  | fields, p :: q :: rest =>
    match alistGet fields p with
    | some (.obj sub) => leafAt sub (q :: rest)
    | _ => False

mutual

/-- No empty object occurs strictly inside the value. -/
def noEmptyVal : Json → Prop
  | .obj fs => fs ≠ [] ∧ noEmptyFields fs
  | _ => True

/-- No empty object occurs strictly inside the document (the root object
itself may be empty). -/
def noEmptyFields : Obj → Prop
  | [] => True
  | (_, v) :: rest => noEmptyVal v ∧ noEmptyFields rest

end

/-! ## Insertion: `setNestedValue` -/

/-- The walk of `setNestedValue` is not captured by an array: at every
non-final segment the current binding is a plain object, or missing /
non-object / `null` (then replaced by a fresh `{}`), but not an array. -/
def setClear : Obj → List String → Prop
  | _, [] => True
  | _, [_] => True
  | fields, p :: q :: rest =>
    match alistGet fields p with
    | some (.obj sub) => setClear sub (q :: rest)
    | some (.arr _) => False
    | _ => True

/-! ## Round-trip: nesting a flattened document -/

/-- Re-nest a flat map by inserting every entry into an empty document with
`setNestedValue`, in order. -/
def nestFlat (l : FlatJson) : Obj :=
  l.foldl (fun acc e => setNestedValue acc e.1 e.2) []

mutual

/-- A value with only string/number/boolean leaves (no `null`, no arrays,
and no empty nested object — an empty object is a leaf that is none of
string/number/boolean). -/
def primVal : Json → Prop
  | .str _ => True
  | .num _ => True
  | .bool _ => True
  | .null => False
  | .arr _ => False
  | .obj fs => fs ≠ [] ∧ primFields fs

/-- Fields with only string/number/boolean leaves. -/
def primFields : Obj → Prop
  | [] => True
  | (_, v) :: rest => primVal v ∧ primFields rest

end

mutual

/-- Coerce every leaf to its string form (the normalization the round-trip
claim allows). -/
def coerceVal : Json → Json
  | .obj fs => .obj (coerceFields fs)
  | v => .str (jsLeafString v)

/-- `coerceVal` on every field. -/
def coerceFields : Obj → Obj
  | [] => []
  | (k, v) :: rest => (k, coerceVal v) :: coerceFields rest

end

/-- The relative leaf paths of a document with their (coerced) values, in
document order. -/
def pathsFields : Obj → List (List String × String)
  | [] => []
  | (k, v) :: rest =>
    (match v with
     | .obj fs => (pathsFields fs).map (fun e => (k :: e.1, e.2))
     | _ => [([k], jsLeafString v)]) ++ pathsFields rest

/-- Equality of JSON values up to the order of object keys: objects may
list their bindings in any order (congruence, adjacent swap, and
transitivity on object field lists), with values compared recursively;
everything else (array element order included) is compared exactly. -/
inductive JsonSim : Json → Json → Prop where
  | str (s : String) : JsonSim (.str s) (.str s)
  | num (n : Int) : JsonSim (.num n) (.num n)
  | bool (b : Bool) : JsonSim (.bool b) (.bool b)
  | null : JsonSim .null .null
  | arr (es : List Json) : JsonSim (.arr es) (.arr es)
  | objNil : JsonSim (.obj []) (.obj [])
  | objCons {v v' : Json} {t t' : Obj} (k : String) :
      JsonSim v v' → JsonSim (.obj t) (.obj t') →
      JsonSim (.obj ((k, v) :: t)) (.obj ((k, v') :: t'))
  | objSwap (e₁ e₂ : String × Json) (t : Obj) :
      JsonSim (.obj (e₁ :: e₂ :: t)) (.obj (e₂ :: e₁ :: t))
  | objTrans {a b c : Obj} :
      JsonSim (.obj a) (.obj b) → JsonSim (.obj b) (.obj c) →
      JsonSim (.obj a) (.obj c)

mutual

/-- `JsonSim` is reflexive. -/
def jsonSimRefl : ∀ (j : Json), JsonSim j j
  | .str s => .str s
  | .num n => .num n
  | .bool b => .bool b
  | .null => .null
  | .arr es => .arr es
  | .obj fs => fieldsSimRefl fs

/-- Reflexivity on object field lists. -/
def fieldsSimRefl : ∀ (fs : Obj), JsonSim (.obj fs) (.obj fs)
  | [] => .objNil
  | (k, v) :: t => .objCons k (jsonSimRefl v) (fieldsSimRefl t)

end

/-- The namespaced-mode scan result, in root-listing order: one language per
locale-named subdirectory that contains at least one `.json` file. -/
def nsScan (rootPath : String) (entries : List RootEntry)
    (dirListing : List (String × List String)) : List Language :=
  (entries.filter (fun e => e.isDir && isLocaleName e.name
      && !(scanJsonFiles (pathJoin rootPath e.name) ((alistGet dirListing e.name).getD [])).isEmpty)).map
    (fun e => ⟨e.name, scanJsonFiles (pathJoin rootPath e.name) ((alistGet dirListing e.name).getD [])⟩)

/-- The flat-mode scan result: one single-`default`-namespace language per
top-level file named `<locale>.json`. -/
def flatScan (rootPath : String) (entries : List RootEntry) : List Language :=
  (entries.filter (fun e => !e.isDir && isLocaleJsonName e.name)).map
    (fun e => ⟨stripJsonExt e.name, [⟨pathJoin rootPath e.name, "default"⟩]⟩)

/-- The flat map `readAll` uses for one language under one namespace: the
flattened content of the first file with that namespace, or `{}` when the
language has no such file. -/
def langFlat (fs : FileSys) (n : String) (l : Language) : FlatJson :=
  match l.files.find? (fun f => f.«namespace» = n) with
  | some f => flattenFields (readJsonFile fs f.absolutePath) ""
  | none => []

/-- Structural restatement of the language loop of `readAll`. -/
def raFold (fs : FileSys) (n : String) :
    List Language → List (String × FlatJson) × List String →
      List (String × FlatJson) × List String
  | [], acc => acc
  | l :: rest, acc =>
    raFold fs n rest
      (alistPut acc.1 l.code (langFlat fs n l), addKeysTo acc.2 (flatKeys (langFlat fs n l)))

mutual

/-- A document whose every plain object (at every depth reached by
`sortDeep`) has its keys in base-comparator order. -/
def deepSortedVal : Json → Prop
  | .obj fs => List.Pairwise fieldLe fs ∧ deepSortedEach fs
  | _ => True

/-- `deepSortedVal` at every field value. -/
def deepSortedEach : Obj → Prop
  | [] => True
  | (_, v) :: rest => deepSortedVal v ∧ deepSortedEach rest

end

mutual

/-- A tree node whose children (at every depth) are in `localeCompare`
order by segment. -/
def nodeDeepSorted : TreeNode → Prop
  | .mk _ _ children _ => List.Pairwise nodeLe children ∧ forestDeepSorted children

/-- `nodeDeepSorted` at every node of a sibling list. -/
def forestDeepSorted : List TreeNode → Prop
  | [] => True
  | n :: rest => nodeDeepSorted n ∧ forestDeepSorted rest

end

/-- Two sibling forests equal up to reordering (at every depth). -/
inductive TreeSim : List TreeNode → List TreeNode → Prop where
  | nil : TreeSim [] []
  | cons (s f : String) (v : Option (List (String × Option String)))
      {c c' t t' : List TreeNode} :
      TreeSim c c' → TreeSim t t' →
      TreeSim (.mk s f c v :: t) (.mk s f c' v :: t')
  | swap (a b : TreeNode) (t : List TreeNode) : TreeSim (a :: b :: t) (b :: a :: t)
  | trans {a b c : List TreeNode} : TreeSim a b → TreeSim b c → TreeSim a c

/-- `TreeSim` is reflexive. -/
def treeSimRefl : ∀ (l : List TreeNode), TreeSim l l
  | [] => .nil
  | .mk s f c v :: t => .cons s f v (treeSimRefl c) (treeSimRefl t)

/-! ## Theorems -/

/-! ## Association-list lemmas -/

theorem alistGet_nil {α : Type} (k : String) : alistGet ([] : List (String × α)) k = none := rfl

theorem alistGet_cons {α : Type} (k' : String) (v' : α) (t : List (String × α)) (k : String) :
    alistGet ((k', v') :: t) k = if k' = k then some v' else alistGet t k := by
  by_cases h : k' = k <;> simp [alistGet, List.find?, h]

theorem alistPut_nil {α : Type} (k : String) (v : α) : alistPut ([] : List (String × α)) k v = [(k, v)] := rfl

theorem alistPut_cons {α : Type} (k' : String) (v' : α) (t : List (String × α)) (k : String) (v : α) :
    alistPut ((k', v') :: t) k v =
      if k' = k then (k', v) :: t else (k', v') :: alistPut t k v := rfl

theorem alistGet_put_self {α : Type} (l : List (String × α)) (k : String) (v : α) :
    alistGet (alistPut l k v) k = some v := by
  induction l with
  | nil => simp [alistPut, alistGet_cons]
  | cons e t ih =>
    obtain ⟨k', v'⟩ := e
    rw [alistPut_cons]
    by_cases h : k' = k
    · simp [h, alistGet_cons]
    · simp [h, alistGet_cons, ih]

theorem alistGet_put_ne {α : Type} (l : List (String × α)) {k k' : String} (h : k' ≠ k) (v : α) :
    alistGet (alistPut l k v) k' = alistGet l k' := by
  induction l with
  | nil => rw [alistPut_nil, alistGet_cons, if_neg (Ne.symm h), alistGet_nil]
  | cons e t ih =>
    obtain ⟨k₀, v₀⟩ := e
    rw [alistPut_cons]
    by_cases h₀ : k₀ = k
    · subst h₀
      simp [alistGet_cons, Ne.symm h]
    · simp [h₀, alistGet_cons, ih]

theorem alistPut_eq_self {α : Type} {l : List (String × α)} {k : String} {v : α}
    (h : alistGet l k = some v) : alistPut l k v = l := by
  induction l with
  | nil => simp [alistGet_nil] at h
  | cons e t ih =>
    obtain ⟨k₀, v₀⟩ := e
    rw [alistGet_cons] at h
    rw [alistPut_cons]
    by_cases h₀ : k₀ = k
    · simp only [h₀, if_true] at h ⊢
      simp at h
      simp [h]
    · simp only [h₀, if_false, if_neg h₀] at h ⊢
      simp [ih h]

theorem alistPut_of_get_none {α : Type} {l : List (String × α)} {k : String}
    (h : alistGet l k = none) (v : α) : alistPut l k v = l ++ [(k, v)] := by
  induction l with
  | nil => rfl
  | cons e t ih =>
    obtain ⟨k₀, v₀⟩ := e
    rw [alistGet_cons] at h
    by_cases h₀ : k₀ = k
    · simp [h₀] at h
    · rw [alistPut_cons, if_neg h₀, ih (by simpa [h₀] using h)]
      simp

theorem alistGet_eq_none_iff {α : Type} {l : List (String × α)} {k : String} :
    alistGet l k = none ↔ k ∉ l.map Prod.fst := by
  induction l with
  | nil => simp [alistGet_nil]
  | cons e t ih =>
    obtain ⟨k₀, v₀⟩ := e
    rw [alistGet_cons]
    by_cases h₀ : k₀ = k
    · subst h₀
      simp
    · simp only [if_neg h₀, ih, List.map_cons, List.mem_cons, not_or]
      constructor
      · exact fun hk => ⟨fun hh => h₀ hh.symm, hk⟩
      · exact fun hk => hk.2

theorem alistGet_isSome_iff {α : Type} {l : List (String × α)} {k : String} :
    (alistGet l k).isSome = true ↔ k ∈ l.map Prod.fst := by
  rcases h : alistGet l k with _ | v
  · simpa [h] using alistGet_eq_none_iff.mp h
  · simp only [Option.isSome_some, true_iff]
    by_contra hk
    rw [alistGet_eq_none_iff.mpr hk] at h
    cases h

theorem alistGet_append {α : Type} (a b : List (String × α)) (k : String) :
    alistGet (a ++ b) k = ((alistGet a k).or (alistGet b k)) := by
  induction a with
  | nil => simp [alistGet_nil]
  | cons e t ih =>
    obtain ⟨k₀, v₀⟩ := e
    by_cases h₀ : k₀ = k <;> simp [alistGet_cons, h₀, ih]

theorem keys_alistPut_of_mem {α : Type} {l : List (String × α)} {k : String}
    (h : k ∈ l.map Prod.fst) (v : α) :
    (alistPut l k v).map Prod.fst = l.map Prod.fst := by
  induction l with
  | nil => simp at h
  | cons e t ih =>
    obtain ⟨k₀, v₀⟩ := e
    rw [alistPut_cons]
    by_cases h₀ : k₀ = k
    · simp [h₀]
    · simp only [List.map_cons, List.mem_cons] at h
      rcases h with h | h
      · exact absurd h.symm h₀
      · rw [if_neg h₀]
        simp [ih h]

theorem keys_alistPut_of_not_mem {α : Type} {l : List (String × α)} {k : String}
    (h : ¬ k ∈ l.map Prod.fst) (v : α) :
    (alistPut l k v).map Prod.fst = l.map Prod.fst ++ [k] := by
  rw [alistPut_of_get_none (alistGet_eq_none_iff.mpr h)]
  simp

theorem mem_keys_alistPut {α : Type} (l : List (String × α)) (k : String) (v : α) (x : String) :
    x ∈ (alistPut l k v).map Prod.fst ↔ x ∈ l.map Prod.fst ∨ x = k := by
  by_cases h : k ∈ l.map Prod.fst
  · rw [keys_alistPut_of_mem h]
    constructor
    · exact fun hx => Or.inl hx
    · rintro (hx | rfl) <;> [exact hx; exact h]
  · rw [keys_alistPut_of_not_mem h]
    simp

theorem alistDel_nil {α : Type} (k : String) : alistDel ([] : List (String × α)) k = [] := rfl

theorem alistDel_cons {α : Type} (k₀ : String) (v₀ : α) (t : List (String × α)) (k : String) :
    alistDel ((k₀, v₀) :: t) k = if k₀ = k then alistDel t k else (k₀, v₀) :: alistDel t k := by
  by_cases h : k₀ = k <;> simp [alistDel, h]

theorem alistDel_append {α : Type} (a b : List (String × α)) (k : String) :
    alistDel (a ++ b) k = alistDel a k ++ alistDel b k := by
  simp [alistDel, List.filter_append]

theorem alistDel_eq_self {α : Type} {l : List (String × α)} {k : String}
    (h : ¬ k ∈ l.map Prod.fst) : alistDel l k = l := by
  induction l with
  | nil => rfl
  | cons e t ih =>
    obtain ⟨k₀, v₀⟩ := e
    simp only [List.map_cons, List.mem_cons] at h
    push_neg at h
    rw [alistDel_cons, if_neg (fun hh => h.1 hh.symm), ih h.2]

/-! ## String and path lemmas -/

theorem str_ext {a b : String} (h : a.data = b.data) : a = b := by
  cases a; cases b; exact congrArg String.mk h

theorem str_data_ne {a : String} (h : a ≠ "") : a.data ≠ [] := by
  intro hd
  exact h (str_ext (by simpa using hd))

theorem str_mk_data (s : String) : String.mk s.data = s := by cases s; rfl

theorem append_dot_ne_empty (pre p : String) : pre ++ "." ++ p ≠ "" := by
  intro h
  have := congrArg String.data h
  simp [String.data_append] at this

theorem fullKey_of_empty (k : String) : fullKey "" k = k := rfl

theorem fullKey_of_ne {pre : String} (h : pre ≠ "") (k : String) :
    fullKey pre k = pre ++ "." ++ k := by
  simp [fullKey, h]

theorem fullKey_data {pre k : String} (h : pre ≠ "") :
    (fullKey pre k).data = pre.data ++ '.' :: k.data := by
  rw [fullKey_of_ne h]
  simp [String.data_append]

theorem fullKey_ne_empty {pre k : String} (hk : k ≠ "") : fullKey pre k ≠ "" := by
  by_cases hp : pre = ""
  · subst hp; simpa [fullKey_of_empty]
  · intro h
    have := congrArg String.data h
    rw [fullKey_data hp] at this
    simp at this

theorem dotfree_sep : ∀ (pd qd : List Char) (r s : List Char),
    '.' ∉ pd → '.' ∉ qd → pd ++ '.' :: r = qd ++ '.' :: s → pd = qd ∧ r = s := by
  intro pd
  induction pd with
  | nil =>
    intro qd r s _ hq h
    cases qd with
    | nil => simpa using h
    | cons c qt =>
      simp only [List.nil_append, List.cons_append, List.cons.injEq] at h
      exact absurd (by rw [← h.1]; exact List.mem_cons_self _ _ : '.' ∈ c :: qt) hq
  | cons c pt ih =>
    intro qd r s hp hq h
    cases qd with
    | nil =>
      simp only [List.cons_append, List.nil_append, List.cons.injEq] at h
      exact absurd (by rw [h.1]; exact List.mem_cons_self _ _ : '.' ∈ c :: pt) hp
    | cons d qt =>
      simp only [List.cons_append, List.cons.injEq] at h
      obtain ⟨rfl, h2⟩ := h
      have := ih qt r s (fun hm => hp (List.mem_cons_of_mem _ hm))
        (fun hm => hq (List.mem_cons_of_mem _ hm)) h2
      exact ⟨by rw [this.1], this.2⟩

theorem keyMatches_self (base : String) : keyMatches base base := Or.inl rfl

theorem keyMatches_ext (base r : String) : keyMatches base (base ++ "." ++ r) := Or.inr ⟨r, rfl⟩

theorem keyMatches_trans_ext {base x : String} (r : String)
    (h : keyMatches (base ++ "." ++ r) x) : keyMatches base x := by
  rcases h with rfl | ⟨t, rfl⟩
  · exact Or.inr ⟨r, rfl⟩
  · exact Or.inr ⟨r ++ "." ++ t, by simp [String.append_assoc]⟩

theorem append_dot_inj {a x y : String} (h : a ++ "." ++ x = a ++ "." ++ y) : x = y := by
  have := congrArg String.data h
  simp only [String.data_append] at this
  exact str_ext (by simpa using this)

/-- The two ways a key can match two distinct good sibling keys are
contradictory (`pre = ""` case). -/
theorem keyMatches_core {p q y : String} (hp : goodKey p) (hq : goodKey q)
    (hne : p ≠ q) (h1 : keyMatches p y) (h2 : keyMatches q y) : False := by
  rcases h1 with rfl | ⟨r, rfl⟩
  · rcases h2 with h | ⟨s, h⟩
    · exact hne h
    · have hd := congrArg String.data h
      simp only [String.data_append] at hd
      exact hp.2 (by rw [hd]; simp)
  · rcases h2 with h | ⟨s, h⟩
    · have hd := congrArg String.data h.symm
      simp only [String.data_append] at hd
      exact hq.2 (by rw [hd]; simp)
    · have hd := congrArg String.data h
      simp only [String.data_append] at hd
      have hsep := dotfree_sep p.data q.data r.data s.data hp.2 hq.2 (by simpa using hd)
      exact hne (str_ext hsep.1)

theorem keyMatches_fullKey_iff {pre : String} (hpre : pre ≠ "") (k x : String) :
    keyMatches (fullKey pre k) x ↔ ∃ y, x = pre ++ "." ++ y ∧ keyMatches k y := by
  constructor
  · intro h
    rcases h with rfl | ⟨r, rfl⟩
    · exact ⟨k, by rw [fullKey_of_ne hpre], keyMatches_self k⟩
    · exact ⟨k ++ "." ++ r, by rw [fullKey_of_ne hpre]; simp [String.append_assoc],
        keyMatches_ext k r⟩
  · rintro ⟨y, rfl, hy⟩
    rcases hy with rfl | ⟨r, rfl⟩
    · rw [fullKey_of_ne hpre]
      exact keyMatches_self _
    · rw [fullKey_of_ne hpre]
      have : pre ++ "." ++ (k ++ "." ++ r) = (pre ++ "." ++ k) ++ "." ++ r := by
        simp [String.append_assoc]
      rw [this]
      exact keyMatches_ext _ r

/-- Two distinct good sibling keys generate disjoint flattened-key families. -/
theorem keyMatches_disjoint {p q x : String} (hp : goodKey p) (hq : goodKey q)
    (hne : p ≠ q) (pre : String)
    (h1 : keyMatches (fullKey pre p) x) (h2 : keyMatches (fullKey pre q) x) : False := by
  by_cases hpre : pre = ""
  · subst hpre
    exact keyMatches_core hp hq hne h1 h2
  · obtain ⟨y1, hy1, hm1⟩ := (keyMatches_fullKey_iff hpre p x).mp h1
    obtain ⟨y2, hy2, hm2⟩ := (keyMatches_fullKey_iff hpre q x).mp h2
    have : y1 = y2 := append_dot_inj (hy1 ▸ hy2)
    exact keyMatches_core hp hq hne hm1 (this ▸ hm2)

theorem joinKey_nil (pre : String) : joinKey pre [] = pre := rfl

theorem joinKey_cons (pre p : String) (rest : List String) :
    joinKey pre (p :: rest) = joinKey (fullKey pre p) rest := rfl

theorem jsSplitDotAux_ne_nil (cs acc : List Char) : jsSplitDotAux cs acc ≠ [] := by
  induction cs generalizing acc with
  | nil => simp [jsSplitDotAux]
  | cons c rest ih =>
    by_cases h : c = '.' <;> simp [jsSplitDotAux, h, ih]

theorem joinDots_cons_of_ne_nil (p : String) {rest : List String} (h : rest ≠ []) :
    joinDots (p :: rest) = p ++ "." ++ joinDots rest := by
  cases rest with
  | nil => exact absurd rfl h
  | cons q t => rfl

theorem joinDots_jsSplitDotAux (cs acc : List Char) :
    (joinDots (jsSplitDotAux cs acc)).data = acc.reverse ++ cs := by
  induction cs generalizing acc with
  | nil => simp [jsSplitDotAux, joinDots]
  | cons c rest ih =>
    by_cases h : c = '.'
    · subst h
      rw [jsSplitDotAux, if_pos rfl,
        joinDots_cons_of_ne_nil _ (jsSplitDotAux_ne_nil rest []),
        String.data_append, String.data_append, ih []]
      simp
    · rw [jsSplitDotAux, if_neg h, ih (c :: acc)]
      simp

/-- `split` then `join` restores the original key, for every key. -/
theorem joinDots_jsSplitDot (s : String) : joinDots (jsSplitDot s) = s := by
  apply str_ext
  rw [jsSplitDot, joinDots_jsSplitDotAux]
  simp

theorem jsSplitDotAux_dotFree {cs acc : List Char} (hacc : '.' ∉ acc) :
    ∀ p ∈ jsSplitDotAux cs acc, dotFree p := by
  induction cs generalizing acc with
  | nil =>
    intro p hp
    simp only [jsSplitDotAux, List.mem_singleton] at hp
    subst hp
    simpa [dotFree] using fun h => hacc (List.mem_reverse.mp h)
  | cons c rest ih =>
    intro p hp
    by_cases h : c = '.'
    · subst h
      rw [jsSplitDotAux, if_pos rfl] at hp
      rcases List.mem_cons.mp hp with rfl | hp
      · simpa [dotFree] using fun h => hacc (List.mem_reverse.mp h)
      · exact ih (by simp) p hp
    · rw [jsSplitDotAux, if_neg h] at hp
      refine ih ?_ p hp
      intro hm
      rcases List.mem_cons.mp hm with hm | hm
      · exact h hm.symm
      · exact hacc hm

/-- Every segment produced by `split(".")` is dot-free. -/
theorem jsSplitDot_dotFree (s : String) : ∀ p ∈ jsSplitDot s, dotFree p :=
  jsSplitDotAux_dotFree (by simp)

theorem jsSplitDot_ne_nil (s : String) : jsSplitDot s ≠ [] := jsSplitDotAux_ne_nil _ _

theorem jsSplitDotAux_append_dotFree {pd : List Char} (h : '.' ∉ pd) (cs acc : List Char) :
    jsSplitDotAux (pd ++ cs) acc = jsSplitDotAux cs (pd.reverse ++ acc) := by
  induction pd generalizing acc with
  | nil => simp
  | cons c pt ih =>
    have hc : ¬ c = '.' := fun hh => h (by rw [hh]; exact List.mem_cons_self _ _)
    rw [List.cons_append, jsSplitDotAux, if_neg hc,
      ih (fun hm => h (List.mem_cons_of_mem _ hm)) (c :: acc)]
    simp

/-- `join` then `split` restores the segment list, when the segments are
dot-free. -/
theorem jsSplitDot_joinDots : ∀ (parts : List String), parts ≠ [] →
    (∀ p ∈ parts, dotFree p) → jsSplitDot (joinDots parts) = parts := by
  intro parts
  induction parts with
  | nil => intro h; exact absurd rfl h
  | cons p rest ih =>
    intro _ hdf
    cases rest with
    | nil =>
      show jsSplitDotAux (joinDots [p]).data [] = [p]
      have : (joinDots [p]).data = p.data ++ [] := by simp [joinDots]
      rw [this, jsSplitDotAux_append_dotFree (hdf p (by simp)) [] []]
      simp [jsSplitDotAux]
    | cons q t =>
      rw [joinDots_cons_of_ne_nil _ (by simp)]
      show jsSplitDotAux (p ++ "." ++ joinDots (q :: t)).data [] = p :: q :: t
      rw [String.data_append, String.data_append]
      have hstep : p.data ++ ".".data ++ (joinDots (q :: t)).data =
          p.data ++ ('.' :: (joinDots (q :: t)).data) := by simp
      rw [hstep, jsSplitDotAux_append_dotFree (hdf p (by simp)) _ []]
      have := ih (by simp) (fun x hx => hdf x (List.mem_cons_of_mem _ hx))
      rw [jsSplitDot] at this
      simp [jsSplitDotAux, this, str_mk_data]

theorem joinDots_shift (a b : String) (rest : List String) :
    joinDots ((a ++ "." ++ b) :: rest) = a ++ "." ++ joinDots (b :: rest) := by
  cases rest with
  | nil => rfl
  | cons q t =>
    rw [joinDots_cons_of_ne_nil (a ++ "." ++ b) (List.cons_ne_nil q t),
      joinDots_cons_of_ne_nil b (List.cons_ne_nil q t)]
    simp [String.append_assoc]

theorem joinKey_of_ne_empty {pre : String} (h : pre ≠ "") :
    ∀ parts, joinKey pre parts = joinDots (pre :: parts) := by
  intro parts
  induction parts generalizing pre with
  | nil => rfl
  | cons p rest ih =>
    rw [joinKey_cons, fullKey_of_ne h, ih (append_dot_ne_empty pre p), joinDots_shift,
      joinDots_cons_of_ne_nil pre (List.cons_ne_nil p rest)]

/-- On a path whose first segment is nonempty, `flattenJson`'s incremental
key building agrees with the plain dot-join. -/
theorem joinKey_empty_eq_joinDots {p : String} (hp : p ≠ "") (rest : List String) :
    joinKey "" (p :: rest) = joinDots (p :: rest) := by
  rw [joinKey_cons, fullKey_of_empty, joinKey_of_ne_empty hp]

theorem goodFields_nil : goodFields [] := by simp [goodFields]

theorem goodFields_cons_iff {k : String} {v : Json} {rest : Obj} :
    goodFields ((k, v) :: rest) ↔
      goodKey k ∧ goodVal v ∧ (¬ k ∈ rest.map Prod.fst) ∧ goodFields rest := by
  simp [goodFields]

theorem goodFields_key_mem {l : Obj} (h : goodFields l) {kv : String × Json}
    (hm : kv ∈ l) : goodKey kv.1 := by
  induction l with
  | nil => cases hm
  | cons e t ih =>
    obtain ⟨k, v⟩ := e
    rw [goodFields_cons_iff] at h
    rcases List.mem_cons.mp hm with rfl | hm
    · exact h.1
    · exact ih h.2.2.2 hm

theorem goodFields_val_mem {l : Obj} (h : goodFields l) {kv : String × Json}
    (hm : kv ∈ l) : goodVal kv.2 := by
  induction l with
  | nil => cases hm
  | cons e t ih =>
    obtain ⟨k, v⟩ := e
    rw [goodFields_cons_iff] at h
    rcases List.mem_cons.mp hm with rfl | hm
    · exact h.2.1
    · exact ih h.2.2.2 hm

theorem flattenFields_nil (pre : String) : flattenFields [] pre = [] := by
  simp [flattenFields]

theorem flattenFields_cons (k : String) (v : Json) (rest : Obj) (pre : String) :
    flattenFields ((k, v) :: rest) pre =
      objAssignS (contribOf pre k v) (flattenFields rest pre) := by
  cases v <;> simp [flattenFields, contribOf]

theorem objAssignS_nil (acc : FlatJson) : objAssignS acc [] = acc := rfl

theorem objAssignS_cons (acc : FlatJson) (e : String × String) (extra : FlatJson) :
    objAssignS acc (e :: extra) = objAssignS (alistPut acc e.1 e.2) extra := rfl

theorem mem_keys_objAssign {acc extra : FlatJson} {x : String} :
    x ∈ (objAssignS acc extra).map Prod.fst ↔
      x ∈ acc.map Prod.fst ∨ x ∈ extra.map Prod.fst := by
  induction extra generalizing acc with
  | nil => simp [objAssignS_nil]
  | cons e t ih =>
    rw [objAssignS_cons, ih]
    rw [mem_keys_alistPut]
    obtain ⟨k, v⟩ := e
    simp only [List.map_cons, List.mem_cons]
    tauto

theorem objAssignS_eq_append {acc extra : FlatJson}
    (hnd : (extra.map Prod.fst).Nodup)
    (hdisj : ∀ x ∈ extra.map Prod.fst, ¬ x ∈ acc.map Prod.fst) :
    objAssignS acc extra = acc ++ extra := by
  induction extra generalizing acc with
  | nil => simp [objAssignS_nil]
  | cons e t ih =>
    obtain ⟨k, v⟩ := e
    simp only [List.map_cons, List.nodup_cons] at hnd
    rw [objAssignS_cons]
    have hput : alistPut acc k v = acc ++ [(k, v)] :=
      alistPut_of_get_none (alistGet_eq_none_iff.mpr (hdisj k (by simp))) v
    rw [hput, ih hnd.2 ?_]
    · simp
    · intro x hx hmem
      simp only [List.map_append, List.mem_append, List.map_cons, List.map_nil,
        List.mem_singleton] at hmem
      rcases hmem with hmem | hmem
      · exact hdisj x (List.mem_cons_of_mem _ hx) hmem
      · subst hmem
        exact hnd.1 hx

theorem keys_objAssign_nodup {acc extra : FlatJson}
    (h : (acc.map Prod.fst).Nodup) : ((objAssignS acc extra).map Prod.fst).Nodup := by
  induction extra generalizing acc with
  | nil => simpa [objAssignS_nil]
  | cons e t ih =>
    rw [objAssignS_cons]
    apply ih
    by_cases hm : e.1 ∈ acc.map Prod.fst
    · rwa [keys_alistPut_of_mem hm]
    · rw [keys_alistPut_of_not_mem hm]
      simp only [List.nodup_append, List.nodup_cons, List.not_mem_nil, not_false_iff,
        List.nodup_nil, and_true, true_and]
      constructor
      · exact h
      · intro x hx
        simp only [List.mem_singleton]
        intro hxe
        subst hxe
        exact hm hx

/-- The flattened map always has pairwise-distinct keys (it is built by
property writes into one result object). -/
theorem flatten_keys_nodup : ∀ (fields : Obj) (pre : String),
    ((flattenFields fields pre).map Prod.fst).Nodup := by
  intro fields pre
  induction fields, pre using flattenFields.induct with
  | case1 pre => simp [flattenFields_nil]
  | case2 k v rest pre fk ihv ihrest =>
    rw [flattenFields_cons]
    apply keys_objAssign_nodup
    cases v with
    | obj fs => exact ihv
    | _ => simp only [contribOf]; simp

theorem flatten_key_ext : ∀ (fields : Obj) (pre : String), pre ≠ "" →
    ∀ x ∈ (flattenFields fields pre).map Prod.fst, ∃ r, x = pre ++ "." ++ r := by
  intro fields pre
  induction fields, pre using flattenFields.induct with
  | case1 pre => simp [flattenFields_nil]
  | case2 k v rest pre fk ihv ihrest =>
    intro hpre x hx
    rw [flattenFields_cons] at hx
    rcases mem_keys_objAssign.mp hx with hx | hx
    · cases v with
      | obj fs =>
        simp only [contribOf] at hx
        have hfk : fullKey pre k ≠ "" := by
          rw [fullKey_of_ne hpre]
          exact append_dot_ne_empty pre k
        obtain ⟨r, hr⟩ := ihv hfk x hx
        have hr' : x = fullKey pre k ++ "." ++ r := hr
        rw [fullKey_of_ne hpre] at hr'
        exact ⟨k ++ "." ++ r, by rw [hr']; simp [String.append_assoc]⟩
      | _ =>
        simp only [contribOf, List.map_cons, List.map_nil, List.mem_singleton] at hx
        rw [hx, fullKey_of_ne hpre]
        exact ⟨k, rfl⟩
    · exact ihrest hpre x hx

/-- Every key of the flattened map belongs to the family of one field. -/
theorem flatten_keys_match {fields : Obj} (h : goodFields fields) (pre : String) :
    ∀ x ∈ (flattenFields fields pre).map Prod.fst,
      ∃ kv ∈ fields, keyMatches (fullKey pre kv.1) x := by
  induction fields with
  | nil => simp [flattenFields_nil]
  | cons e rest ih =>
    obtain ⟨k, v⟩ := e
    rw [goodFields_cons_iff] at h
    intro x hx
    rw [flattenFields_cons] at hx
    rcases mem_keys_objAssign.mp hx with hx | hx
    · refine ⟨(k, v), by simp, ?_⟩
      cases v with
      | obj fs =>
        simp only [contribOf] at hx
        have hfk : fullKey pre k ≠ "" := fullKey_ne_empty h.1.1
        obtain ⟨r, hr⟩ := flatten_key_ext fs (fullKey pre k) hfk x hx
        rw [hr]
        exact keyMatches_ext _ r
      | _ =>
        simp only [contribOf, List.map_cons, List.map_nil, List.mem_singleton] at hx
        rw [hx]
        exact keyMatches_self _
    · obtain ⟨kv, hkv, hm⟩ := ih h.2.2.2 x hx
      exact ⟨kv, List.mem_cons_of_mem _ hkv, hm⟩

/-- Every key contributed by one field belongs to that field's family. -/
theorem contrib_keys_match {k : String} (hk : goodKey k) (pre : String) (v : Json) :
    ∀ x ∈ (contribOf pre k v).map Prod.fst, keyMatches (fullKey pre k) x := by
  intro x hxc
  cases v with
  | obj fs =>
    simp only [contribOf] at hxc
    have hfk : fullKey pre k ≠ "" := fullKey_ne_empty hk.1
    obtain ⟨r, hr⟩ := flatten_key_ext fs (fullKey pre k) hfk x hxc
    rw [hr]
    exact keyMatches_ext _ r
  | _ =>
    simp only [contribOf, List.map_cons, List.map_nil, List.mem_singleton] at hxc
    rw [hxc]
    exact keyMatches_self _

/-- Under well-formedness, `Object.assign` merging in `flattenFields` is a
plain concatenation: distinct sibling keys contribute disjoint families. -/
theorem flattenFields_cons_good {k : String} {v : Json} {rest : Obj} (pre : String)
    (h : goodFields ((k, v) :: rest)) :
    flattenFields ((k, v) :: rest) pre =
      contribOf pre k v ++ flattenFields rest pre := by
  rw [goodFields_cons_iff] at h
  rw [flattenFields_cons]
  apply objAssignS_eq_append
  · exact flatten_keys_nodup rest pre
  · intro x hx hxc
    obtain ⟨kv, hkv, hm⟩ := flatten_keys_match h.2.2.2 pre x hx
    have hmatchc : keyMatches (fullKey pre k) x := contrib_keys_match h.1 pre v x hxc
    have hk2 : goodKey kv.1 := goodFields_key_mem h.2.2.2 hkv
    have hne : kv.1 ≠ k := by
      intro hh
      exact h.2.2.1 (hh ▸ List.mem_map_of_mem Prod.fst hkv)
    exact keyMatches_disjoint hk2 h.1 hne pre hm hmatchc

theorem goodFields_keys_sub_del {l : Obj} (k x : String)
    (h : x ∈ (alistDel l k).map Prod.fst) : x ∈ l.map Prod.fst := by
  obtain ⟨e, he, rfl⟩ := List.mem_map.mp h
  exact List.mem_map_of_mem _ (List.mem_of_mem_filter he)

theorem goodFields_alistDel {l : Obj} (h : goodFields l) (k : String) :
    goodFields (alistDel l k) := by
  induction l with
  | nil => exact h
  | cons e t ih =>
    obtain ⟨k₀, v₀⟩ := e
    rw [goodFields_cons_iff] at h
    rw [alistDel_cons]
    by_cases h₀ : k₀ = k
    · rw [if_pos h₀]
      exact ih h.2.2.2
    · rw [if_neg h₀, goodFields_cons_iff]
      exact ⟨h.1, h.2.1, fun hm => h.2.2.1 (goodFields_keys_sub_del k k₀ hm), ih h.2.2.2⟩

theorem goodFields_alistPut {l : Obj} (h : goodFields l) {k : String}
    (hmem : k ∈ l.map Prod.fst) {v : Json} (hv : goodVal v) :
    goodFields (alistPut l k v) := by
  induction l with
  | nil => simp at hmem
  | cons e t ih =>
    obtain ⟨k₀, v₀⟩ := e
    rw [goodFields_cons_iff] at h
    rw [alistPut_cons]
    by_cases h₀ : k₀ = k
    · rw [if_pos h₀, goodFields_cons_iff]
      exact ⟨h.1, hv, h.2.2.1, h.2.2.2⟩
    · rw [if_neg h₀, goodFields_cons_iff]
      have hmem' : k ∈ t.map Prod.fst := by
        simp only [List.map_cons, List.mem_cons] at hmem
        rcases hmem with hm | hm
        · exact absurd hm.symm h₀
        · exact hm
      refine ⟨h.1, h.2.1, ?_, ih h.2.2.2 hmem'⟩
      rw [keys_alistPut_of_mem hmem']
      exact h.2.2.1

theorem removeParts_goodFields : ∀ (parts : List String) {fields : Obj},
    goodFields fields → goodFields (removeParts fields parts) := by
  intro parts
  induction parts with
  | nil => intro fields h; exact h
  | cons p rest ih =>
    intro fields h
    cases rest with
    | nil =>
      show goodFields (removeParts fields [p])
      rw [show removeParts fields [p] = alistDel fields p from by simp [removeParts]]
      exact goodFields_alistDel h p
    | cons q t =>
      show goodFields (removeParts fields (p :: q :: t))
      rcases hg : alistGet fields p with _ | v
      · simpa [removeParts, hg] using h
      · cases v with
        | obj sub =>
          have hsubgood : goodVal (Json.obj sub) := by
            obtain ⟨e, he, he2⟩ : ∃ e ∈ fields, e.1 = p ∧ e.2 = Json.obj sub := by
              unfold alistGet at hg
              rcases hfind : fields.find? (fun e => e.1 = p) with _ | e
              · rw [hfind] at hg; cases hg
              · rw [hfind] at hg
                refine ⟨e, List.mem_of_find?_eq_some hfind, ?_, by
                  simpa using hg⟩
                have := List.find?_some hfind
                simpa using this
            exact he2.2 ▸ goodFields_val_mem h he
          have ihsub : goodFields (removeParts sub (q :: t)) := ih (by simpa [goodVal] using hsubgood)
          by_cases hemp : (removeParts sub (q :: t)).isEmpty
          · simpa [removeParts, hg, hemp] using goodFields_alistDel h p
          · have hmem : p ∈ fields.map Prod.fst := by
              by_contra hc
              rw [alistGet_eq_none_iff.mpr hc] at hg
              cases hg
            have := goodFields_alistPut h hmem (v := Json.obj (removeParts sub (q :: t)))
              (by simpa [goodVal] using ihsub)
            simpa [removeParts, hg, hemp] using this
        | str s => simpa [removeParts, hg] using h
        | num n => simpa [removeParts, hg] using h
        | bool b => simpa [removeParts, hg] using h
        | null => simpa [removeParts, hg] using h
        | arr es => simpa [removeParts, hg] using h

theorem alistGet_mem {α : Type} {l : List (String × α)} {k : String} {v : α}
    (h : alistGet l k = some v) : (k, v) ∈ l := by
  induction l with
  | nil => cases h
  | cons e t ih =>
    obtain ⟨k₀, v₀⟩ := e
    rw [alistGet_cons] at h
    by_cases h₀ : k₀ = k
    · rw [if_pos h₀] at h
      injection h with h2
      subst h₀
      subst h2
      exact List.mem_cons_self _ _
    · rw [if_neg h₀] at h
      exact List.mem_cons_of_mem _ (ih h)

/-- Deleting a key whose family is foreign to a flat map is a no-op. -/
theorem flatten_del_foreign {l : Obj} (h : goodFields l) {p : String} (hp : goodKey p)
    (hnm : ¬ p ∈ l.map Prod.fst) (pre : String) {x : String}
    (hx : keyMatches (fullKey pre p) x) :
    alistDel (flattenFields l pre) x = flattenFields l pre := by
  apply alistDel_eq_self
  intro hmem
  obtain ⟨kv, hkv, hm⟩ := flatten_keys_match h pre x hmem
  have hk2 : goodKey kv.1 := goodFields_key_mem h hkv
  have hne : kv.1 ≠ p := fun hh => hnm (hh ▸ List.mem_map_of_mem Prod.fst hkv)
  exact keyMatches_disjoint hk2 hp hne pre hm hx

/-- Deleting a key of a sibling family from one field's contribution is a
no-op. -/
theorem contrib_del_foreign {k p : String} (hk : goodKey k) (hp : goodKey p)
    (hne : k ≠ p) (pre : String) (v : Json) {x : String}
    (hx : keyMatches (fullKey pre p) x) :
    alistDel (contribOf pre k v) x = contribOf pre k v := by
  apply alistDel_eq_self
  intro hmem
  exact keyMatches_disjoint hk hp hne pre (contrib_keys_match hk pre v x hmem) hx

theorem joinKey_matches : ∀ (parts : List String) {base : String}, base ≠ "" →
    keyMatches base (joinKey base parts) := by
  intro parts
  induction parts with
  | nil => intro base _; exact keyMatches_self base
  | cons p rest ih =>
    intro base hbase
    rw [joinKey_cons, fullKey_of_ne hbase]
    exact keyMatches_trans_ext p (ih (append_dot_ne_empty base p))

theorem removeParts_single (fields : Obj) (p : String) :
    removeParts fields [p] = alistDel fields p := by
  simp [removeParts]

/-- Removing a leaf key removes exactly that entry of the flattened map:
the deletion together with the bottom-up pruning of emptied ancestors
leaves the flat semantics of every other key untouched. -/
theorem remove_flatten : ∀ (parts : List String) (fields : Obj) (pre : String),
    goodFields fields → (∀ q ∈ parts, goodKey q) → leafAt fields parts →
    flattenFields (removeParts fields parts) pre =
      alistDel (flattenFields fields pre) (joinKey pre parts) := by
  intro parts
  induction parts with
  | nil => intro fields pre _ _ hleaf; exact absurd hleaf (by simp [leafAt])
  | cons p rest ih =>
    intro fields pre hgood hgk hleaf
    have hpgood : goodKey p := hgk p (List.mem_cons_self _ _)
    cases rest with
    | nil =>
      -- base: delete the final segment
      rw [removeParts_single, joinKey_cons, joinKey_nil]
      induction fields with
      | nil => simp [flattenFields_nil, alistDel_nil]
      | cons e t ihf =>
        obtain ⟨k, v⟩ := e
        have hg := goodFields_cons_iff.mp hgood
        by_cases hk : k = p
        · subst hk
          have hvleaf : ∀ fs, v ≠ Json.obj fs := by
            intro fs hv
            subst hv
            simp [leafAt, alistGet_cons] at hleaf
          rw [alistDel_cons, if_pos rfl, alistDel_eq_self hg.2.2.1,
            flattenFields_cons_good pre hgood, alistDel_append]
          have hcontrib : contribOf pre k v = [(fullKey pre k, jsLeafString v)] := by
            cases v with
            | obj fs => exact absurd rfl (hvleaf fs)
            | _ => simp [contribOf]
          rw [hcontrib]
          rw [show alistDel [(fullKey pre k, jsLeafString v)] (fullKey pre k) = [] from by
            simp [alistDel_cons, alistDel_nil]]
          rw [flatten_del_foreign hg.2.2.2 hpgood hg.2.2.1 pre (keyMatches_self _)]
          simp
        · have hleaf' : leafAt t [p] := by
            simpa [leafAt, alistGet_cons, Ne.symm, hk] using hleaf
          rw [alistDel_cons, if_neg hk, flattenFields_cons_good pre hgood]
          have htgood := hg.2.2.2
          have hgood' : goodFields ((k, v) :: alistDel t p) := by
            rw [goodFields_cons_iff]
            exact ⟨hg.1, hg.2.1, fun hm => hg.2.2.1 (goodFields_keys_sub_del p k hm),
              goodFields_alistDel htgood p⟩
          rw [flattenFields_cons_good pre hgood', alistDel_append,
            contrib_del_foreign hg.1 hpgood hk pre v (keyMatches_self _)]
          have := ihf htgood hleaf'
          rw [this]
    | cons q t =>
      -- step: descend into the object at `p`
      have hrestgk : ∀ x ∈ q :: t, goodKey x := fun x hx => hgk x (List.mem_cons_of_mem _ hx)
      have hkm : keyMatches (fullKey pre p) (joinKey pre (p :: q :: t)) := by
        rw [joinKey_cons]
        exact joinKey_matches (q :: t) (fullKey_ne_empty hpgood.1)
      induction fields with
      | nil => exact absurd hleaf (by simp [leafAt, alistGet_nil])
      | cons e tl ihf =>
        obtain ⟨k, v⟩ := e
        have hg := goodFields_cons_iff.mp hgood
        by_cases hk : k = p
        · subst hk
          obtain ⟨sub, rfl⟩ : ∃ sub, v = Json.obj sub := by
            cases v with
            | obj sub => exact ⟨sub, rfl⟩
            | _ => simp [leafAt, alistGet_cons] at hleaf
          have hsub_leaf : leafAt sub (q :: t) := by
            simpa [leafAt, alistGet_cons] using hleaf
          have hsubgood : goodFields sub := by simpa [goodVal] using hg.2.1
          have hget : alistGet ((k, Json.obj sub) :: tl) k = some (Json.obj sub) := by
            simp [alistGet_cons]
          have hIH := ih sub (fullKey pre k) hsubgood hrestgk hsub_leaf
          rw [show removeParts ((k, Json.obj sub) :: tl) (k :: q :: t) =
              (if (removeParts sub (q :: t)).isEmpty
                then alistDel ((k, Json.obj sub) :: tl) k
                else alistPut ((k, Json.obj sub) :: tl) k (Json.obj (removeParts sub (q :: t))))
            from by simp [removeParts, hget]]
          rw [flattenFields_cons_good pre hgood, alistDel_append]
          have hcontrib : contribOf pre k (Json.obj sub) = flattenFields sub (fullKey pre k) := by
            simp [contribOf]
          rw [hcontrib]
          rw [flatten_del_foreign hg.2.2.2 hpgood hg.2.2.1 pre hkm]
          rw [show joinKey pre (k :: q :: t) = joinKey (fullKey pre k) (q :: t) from rfl]
          rw [← hIH]
          by_cases hemp : (removeParts sub (q :: t)).isEmpty
          · rw [if_pos hemp, alistDel_cons, if_pos rfl, alistDel_eq_self hg.2.2.1]
            rw [List.isEmpty_iff] at hemp
            rw [hemp, flattenFields_nil]
            simp
          · rw [if_neg hemp, alistPut_cons, if_pos rfl]
            have hgood'' : goodFields ((k, Json.obj (removeParts sub (q :: t))) :: tl) := by
              rw [goodFields_cons_iff]
              exact ⟨hg.1, by simpa [goodVal] using removeParts_goodFields (q :: t) hsubgood,
                hg.2.2.1, hg.2.2.2⟩
            rw [flattenFields_cons_good pre hgood'']
            simp [contribOf]
        · have hleaf' : leafAt tl (p :: q :: t) := by
            simpa [leafAt, alistGet_cons, hk] using hleaf
          have htgood := hg.2.2.2
          rw [show removeParts ((k, v) :: tl) (p :: q :: t) =
              (match alistGet ((k, v) :: tl) p with
               | some (.obj sub) =>
                 if (removeParts sub (q :: t)).isEmpty then alistDel ((k, v) :: tl) p
                 else alistPut ((k, v) :: tl) p (Json.obj (removeParts sub (q :: t)))
               | _ => (k, v) :: tl) from by simp [removeParts]]
          rw [alistGet_cons, if_neg hk]
          have hIHf := ihf htgood hleaf'
          rcases hget : alistGet tl p with _ | w
          · simp [leafAt, hget] at hleaf'
          · cases w with
            | obj sub =>
              by_cases hemp : (removeParts sub (q :: t)).isEmpty
              · simp only [hemp, if_true]
                rw [alistDel_cons, if_neg hk,
                  flattenFields_cons_good pre hgood, alistDel_append,
                  contrib_del_foreign hg.1 hpgood hk pre v hkm]
                have hgood' : goodFields ((k, v) :: alistDel tl p) := by
                  rw [goodFields_cons_iff]
                  exact ⟨hg.1, hg.2.1, fun hm => hg.2.2.1 (goodFields_keys_sub_del p k hm),
                    goodFields_alistDel htgood p⟩
                rw [flattenFields_cons_good pre hgood']
                rw [show removeParts tl (p :: q :: t) = alistDel tl p from by
                  simp [removeParts, hget, hemp]] at hIHf
                rw [hIHf]
              · simp only [hemp, if_false]
                rw [alistPut_cons, if_neg hk,
                  flattenFields_cons_good pre hgood, alistDel_append,
                  contrib_del_foreign hg.1 hpgood hk pre v hkm]
                have hmem : p ∈ tl.map Prod.fst := by
                  by_contra hc
                  rw [alistGet_eq_none_iff.mpr hc] at hget
                  cases hget
                have hgood' : goodFields ((k, v) :: alistPut tl p (Json.obj (removeParts sub (q :: t)))) := by
                  rw [goodFields_cons_iff]
                  refine ⟨hg.1, hg.2.1, ?_, ?_⟩
                  · rw [keys_alistPut_of_mem hmem]
                    exact hg.2.2.1
                  · refine goodFields_alistPut htgood hmem ?_
                    have hsubgood : goodFields sub := by
                      simpa [goodVal] using goodFields_val_mem htgood (alistGet_mem hget)
                    simpa [goodVal] using removeParts_goodFields (q :: t) hsubgood
                rw [if_neg (by simp), flattenFields_cons_good pre hgood']
                rw [show removeParts tl (p :: q :: t) =
                    alistPut tl p (Json.obj (removeParts sub (q :: t))) from by
                  simp [removeParts, hget, hemp]] at hIHf
                rw [hIHf]
            | str s2 =>
              simp [leafAt, hget] at hleaf'
            | num n2 =>
              simp [leafAt, hget] at hleaf'
            | bool b2 =>
              simp [leafAt, hget] at hleaf'
            | null =>
              simp [leafAt, hget] at hleaf'
            | arr es2 =>
              simp [leafAt, hget] at hleaf'

theorem noEmptyFields_nil : noEmptyFields [] := by simp [noEmptyFields]

theorem noEmptyFields_cons_iff {k : String} {v : Json} {rest : Obj} :
    noEmptyFields ((k, v) :: rest) ↔ noEmptyVal v ∧ noEmptyFields rest := by
  simp [noEmptyFields]

theorem noEmptyFields_alistDel {l : Obj} (h : noEmptyFields l) (k : String) :
    noEmptyFields (alistDel l k) := by
  induction l with
  | nil => exact h
  | cons e t ih =>
    obtain ⟨k₀, v₀⟩ := e
    rw [noEmptyFields_cons_iff] at h
    rw [alistDel_cons]
    by_cases h₀ : k₀ = k
    · rw [if_pos h₀]; exact ih h.2
    · rw [if_neg h₀, noEmptyFields_cons_iff]; exact ⟨h.1, ih h.2⟩

theorem noEmptyFields_alistPut {l : Obj} (h : noEmptyFields l) (k : String) {v : Json}
    (hv : noEmptyVal v) : noEmptyFields (alistPut l k v) := by
  induction l with
  | nil => rw [alistPut_nil, noEmptyFields_cons_iff]; exact ⟨hv, noEmptyFields_nil⟩
  | cons e t ih =>
    obtain ⟨k₀, v₀⟩ := e
    rw [noEmptyFields_cons_iff] at h
    rw [alistPut_cons]
    by_cases h₀ : k₀ = k
    · rw [if_pos h₀, noEmptyFields_cons_iff]; exact ⟨hv, h.2⟩
    · rw [if_neg h₀, noEmptyFields_cons_iff]; exact ⟨h.1, ih h.2⟩

theorem noEmptyFields_val_mem {l : Obj} (h : noEmptyFields l) {kv : String × Json}
    (hm : kv ∈ l) : noEmptyVal kv.2 := by
  induction l with
  | nil => cases hm
  | cons e t ih =>
    obtain ⟨k, v⟩ := e
    rw [noEmptyFields_cons_iff] at h
    rcases List.mem_cons.mp hm with rfl | hm
    · exact h.1
    · exact ih h.2 hm

/-- The pruning pass of `removeNestedKey` never leaves an empty object
behind: an ancestor emptied by the removal is itself removed. -/
theorem removeParts_noEmpty : ∀ (parts : List String) {fields : Obj},
    noEmptyFields fields → noEmptyFields (removeParts fields parts) := by
  intro parts
  induction parts with
  | nil => intro fields h; exact h
  | cons p rest ih =>
    intro fields h
    cases rest with
    | nil =>
      rw [removeParts_single]
      exact noEmptyFields_alistDel h p
    | cons q t =>
      rcases hget : alistGet fields p with _ | w
      · simpa [removeParts, hget] using h
      · cases w with
        | obj sub =>
          have hsub : noEmptyFields sub := by
            have := noEmptyFields_val_mem h (alistGet_mem hget)
            simpa [noEmptyVal] using this.2
          by_cases hemp : (removeParts sub (q :: t)).isEmpty
          · simpa [removeParts, hget, hemp] using noEmptyFields_alistDel h p
          · have : noEmptyVal (Json.obj (removeParts sub (q :: t))) := by
              refine ⟨?_, ih hsub⟩
              intro hnil
              rw [hnil] at hemp
              exact hemp rfl
            simpa [removeParts, hget, hemp] using noEmptyFields_alistPut h p this
        | str s2 => simpa [removeParts, hget] using h
        | num n2 => simpa [removeParts, hget] using h
        | bool b2 => simpa [removeParts, hget] using h
        | null => simpa [removeParts, hget] using h
        | arr es2 => simpa [removeParts, hget] using h

/-- C1: on a well-formed document (distinct, nonempty, dot-free keys at
every level), removing a dot-notated key that denotes a leaf (i) removes
exactly that entry from the flattened semantics — every other key keeps its
value, so pruning stops at the first ancestor with remaining entries — and
(ii) prunes every object emptied by the removal, so a document with no
empty nested object stays that way; in particular removing `a.b.c` from
`{"a":{"b":{"c":"x"}}}` yields `{}` and removing `a.b.c` from
`{"a":{"b":{"c":"x"},"d":"y"}}` yields `{"a":{"d":"y"}}`. -/
theorem C1_removeKey_deletes_leaf_and_prunes
    (fields : Obj) (key : String) (hgood : goodFields fields)
    (hsegs : ∀ q ∈ jsSplitDot key, q ≠ "")
    (hleaf : leafAt fields (jsSplitDot key)) :
    (flattenFields (removeNestedKey fields key) "" =
      alistDel (flattenFields fields "") key)
    ∧ (noEmptyFields fields → noEmptyFields (removeNestedKey fields key))
    ∧ removeNestedKey [("a", .obj [("b", .obj [("c", .str "x")])])] "a.b.c" = []
    ∧ removeNestedKey [("a", .obj [("b", .obj [("c", .str "x")]), ("d", .str "y")])] "a.b.c" =
        [("a", .obj [("d", .str "y")])] := by
  have hgk : ∀ q ∈ jsSplitDot key, goodKey q := fun q hq =>
    ⟨hsegs q hq, jsSplitDot_dotFree key q hq⟩
  refine ⟨?_, fun hne => removeParts_noEmpty _ hne, ?_, ?_⟩
  · have hmain := remove_flatten (jsSplitDot key) fields "" hgood hgk hleaf
    have hjoin : joinKey "" (jsSplitDot key) = key := by
      rcases hsplit : jsSplitDot key with _ | ⟨p, rest⟩
      · exact absurd hsplit (jsSplitDot_ne_nil key)
      · rw [joinKey_empty_eq_joinDots (hsegs p (by rw [hsplit]; simp)) rest, ← hsplit,
          joinDots_jsSplitDot]
    rw [removeNestedKey, hmain, hjoin]
  · simp [removeNestedKey, jsSplitDot, jsSplitDotAux, removeParts, alistGet_cons, alistDel_cons,
      alistDel_nil, alistPut_cons]
  · simp [removeNestedKey, jsSplitDot, jsSplitDotAux, removeParts, alistGet_cons, alistDel_cons,
      alistDel_nil, alistPut_cons]

/-- Witness for C1 at a concrete document and key. -/
theorem C1_witness :
    (flattenFields (removeNestedKey
        [("a", .obj [("b", .obj [("c", .str "x")]), ("d", .str "y")])] "a.b.c") "" =
      alistDel (flattenFields
        [("a", .obj [("b", .obj [("c", .str "x")]), ("d", .str "y")])] "") "a.b.c") := by
  have := C1_removeKey_deletes_leaf_and_prunes
    [("a", .obj [("b", .obj [("c", .str "x")]), ("d", .str "y")])] "a.b.c"
    (by simp [goodFields, goodVal, goodKey])
    (by intro q hq; simp [jsSplitDot, jsSplitDotAux] at hq; rcases hq with rfl | rfl | rfl <;> decide)
    (by simp [leafAt, jsSplitDot, jsSplitDotAux, alistGet_cons])
  exact this.1

theorem setClear_nil_fields : ∀ (parts : List String), setClear [] parts := by
  intro parts
  cases parts with
  | nil => simp [setClear]
  | cons p rest =>
    cases rest with
    | nil => simp [setClear]
    | cons q t => simp [setClear, alistGet_nil]

theorem goodFields_append_fresh {l : Obj} (h : goodFields l) {k : String}
    (hk : goodKey k) {v : Json} (hv : goodVal v) (hnm : ¬ k ∈ l.map Prod.fst) :
    goodFields (l ++ [(k, v)]) := by
  induction l with
  | nil =>
    rw [List.nil_append, goodFields_cons_iff]
    exact ⟨hk, hv, by simp, goodFields_nil⟩
  | cons e t ih =>
    obtain ⟨k₀, v₀⟩ := e
    rw [goodFields_cons_iff] at h
    rw [List.cons_append, goodFields_cons_iff]
    refine ⟨h.1, h.2.1, ?_, ih h.2.2.2 (by
      intro hm
      exact hnm (by simp only [List.map_cons, List.mem_cons]; exact Or.inr hm))⟩
    simp only [List.map_append, List.mem_append, List.map_cons, List.map_nil,
      List.mem_singleton]
    rintro (hm | rfl)
    · exact h.2.2.1 hm
    · exact hnm (by simp)

theorem goodFields_alistPut_any {l : Obj} (h : goodFields l) {k : String}
    (hk : goodKey k) {v : Json} (hv : goodVal v) : goodFields (alistPut l k v) := by
  by_cases hm : k ∈ l.map Prod.fst
  · exact goodFields_alistPut h hm hv
  · rw [alistPut_of_get_none (alistGet_eq_none_iff.mpr hm)]
    exact goodFields_append_fresh h hk hv hm

theorem setParts_goodFields : ∀ (parts : List String) {fields : Obj} (v : String),
    goodFields fields → (∀ q ∈ parts, goodKey q) →
    goodFields (setParts fields parts v) := by
  intro parts
  induction parts with
  | nil => intro fields v h _; exact h
  | cons p rest ih =>
    intro fields v h hgk
    have hp : goodKey p := hgk p (List.mem_cons_self _ _)
    cases rest with
    | nil =>
      rw [show setParts fields [p] v = alistPut fields p (.str v) from by simp [setParts]]
      exact goodFields_alistPut_any h hp (by simp [goodVal])
    | cons q t =>
      have hgk' : ∀ x ∈ q :: t, goodKey x := fun x hx => hgk x (List.mem_cons_of_mem _ hx)
      rcases hget : alistGet fields p with _ | w
      · have := ih v goodFields_nil hgk'
        simpa [setParts, hget] using
          goodFields_alistPut_any h hp (by simpa [goodVal] using this)
      · cases w with
        | obj sub =>
          have hsub : goodFields sub := by
            simpa [goodVal] using goodFields_val_mem h (alistGet_mem hget)
          simpa [setParts, hget] using
            goodFields_alistPut_any h hp (by simpa [goodVal] using ih v hsub hgk')
        | arr es => simpa [setParts, hget] using h
        | str s2 =>
          simpa [setParts, hget] using
            goodFields_alistPut_any h hp (by simpa [goodVal] using ih v goodFields_nil hgk')
        | num n2 =>
          simpa [setParts, hget] using
            goodFields_alistPut_any h hp (by simpa [goodVal] using ih v goodFields_nil hgk')
        | bool b2 =>
          simpa [setParts, hget] using
            goodFields_alistPut_any h hp (by simpa [goodVal] using ih v goodFields_nil hgk')
        | null =>
          simpa [setParts, hget] using
            goodFields_alistPut_any h hp (by simpa [goodVal] using ih v goodFields_nil hgk')

theorem ne_append_dot (base r : String) : base ≠ base ++ "." ++ r := by
  intro h
  have := congrArg (fun s => s.data.length) h
  simp [String.data_append] at this

theorem keyMatches_append {base x : String} (h : keyMatches base x) (r : String) :
    keyMatches base (x ++ "." ++ r) := by
  rcases h with rfl | ⟨t, rfl⟩
  · exact keyMatches_ext _ r
  · exact Or.inr ⟨t ++ "." ++ r, by simp [String.append_assoc]⟩

/-- Inside the family of `p`, the flat semantics of `alistPut fields p v'`
is exactly the contribution of the new value. -/
theorem flatten_put_family {fields : Obj} (h : goodFields fields) {p : String}
    (hp : goodKey p) {v' : Json} (hv : goodVal v') (pre : String) {x : String}
    (hx : keyMatches (fullKey pre p) x) :
    flatLookup (flattenFields (alistPut fields p v') pre) x =
      flatLookup (contribOf pre p v') x
    ∧ (x ∈ flatKeys (flattenFields (alistPut fields p v') pre) ↔
        x ∈ flatKeys (contribOf pre p v')) := by
  induction fields with
  | nil =>
    rw [alistPut_nil, flattenFields_cons, flattenFields_nil, objAssignS_nil]
    exact ⟨rfl, Iff.rfl⟩
  | cons e t ih =>
    obtain ⟨k, w⟩ := e
    have hg := goodFields_cons_iff.mp h
    rw [alistPut_cons]
    by_cases hk : k = p
    · subst hk
      rw [if_pos rfl]
      have hgood' : goodFields ((k, v') :: t) := by
        rw [goodFields_cons_iff]
        exact ⟨hg.1, hv, hg.2.2.1, hg.2.2.2⟩
      rw [flattenFields_cons_good pre hgood']
      have hrest : ¬ x ∈ flatKeys (flattenFields t pre) := by
        intro hmem
        obtain ⟨kv, hkv, hm⟩ := flatten_keys_match hg.2.2.2 pre x hmem
        have hne : kv.1 ≠ k := fun hh => hg.2.2.1 (hh ▸ List.mem_map_of_mem Prod.fst hkv)
        exact keyMatches_disjoint (goodFields_key_mem hg.2.2.2 hkv) hp hne pre hm hx
      constructor
      · rw [show flatLookup (contribOf pre k v' ++ flattenFields t pre) x =
            ((alistGet (contribOf pre k v') x).or (alistGet (flattenFields t pre) x)) from
          alistGet_append _ _ x]
        rw [alistGet_eq_none_iff.mpr hrest]
        rcases hc : alistGet (contribOf pre k v') x with _ | cv <;> simp [flatLookup, hc]
      · rw [flatKeys, List.map_append, List.mem_append]
        constructor
        · rintro (hm | hm)
          · exact hm
          · exact absurd hm hrest
        · exact Or.inl
    · rw [if_neg hk]
      have hgood' : goodFields ((k, w) :: alistPut t p v') := by
        rw [goodFields_cons_iff]
        refine ⟨hg.1, hg.2.1, ?_, goodFields_alistPut_any hg.2.2.2 hp hv⟩
        intro hm
        rcases (mem_keys_alistPut t p v' k).mp hm with hm | hm
        · exact hg.2.2.1 hm
        · exact hk hm
      rw [flattenFields_cons_good pre hgood']
      have hcontrib : ¬ x ∈ flatKeys (contribOf pre k w) := by
        intro hmem
        exact keyMatches_disjoint hg.1 hp hk pre (contrib_keys_match hg.1 pre w x hmem) hx
      have := ih hg.2.2.2
      constructor
      · rw [show flatLookup (contribOf pre k w ++ flattenFields (alistPut t p v') pre) x =
            ((alistGet (contribOf pre k w) x).or
              (alistGet (flattenFields (alistPut t p v') pre) x)) from
          alistGet_append _ _ x]
        rw [alistGet_eq_none_iff.mpr hcontrib]
        simpa [flatLookup] using this.1
      · rw [flatKeys, List.map_append, List.mem_append]
        constructor
        · rintro (hm | hm)
          · exact absurd hm hcontrib
          · exact this.2.mp hm
        · intro hm
          exact Or.inr (this.2.mpr hm)

theorem setParts_single (fields : Obj) (p v : String) :
    setParts fields [p] v = alistPut fields p (.str v) := by
  simp [setParts]

/-- After `setNestedValue`, the written key holds the written value in the
flattened semantics. -/
theorem set_flatten_lookup : ∀ (parts : List String) (fields : Obj) (pre v : String),
    goodFields fields → (∀ q ∈ parts, goodKey q) → parts ≠ [] → setClear fields parts →
    flatLookup (flattenFields (setParts fields parts v) pre) (joinKey pre parts) = some v := by
  intro parts
  induction parts with
  | nil => intro fields pre v _ _ hne _; exact absurd rfl hne
  | cons p rest ih =>
    intro fields pre v hgood hgk _ hclear
    have hp : goodKey p := hgk p (List.mem_cons_self _ _)
    cases rest with
    | nil =>
      rw [setParts_single, joinKey_cons, joinKey_nil]
      have := (flatten_put_family hgood hp (show goodVal (Json.str v) by simp [goodVal]) pre
        (keyMatches_self (fullKey pre p))).1
      rw [this]
      simp [contribOf, flatLookup, alistGet_cons, jsLeafString]
    | cons q t =>
      have hgk' : ∀ x ∈ q :: t, goodKey x := fun x hx => hgk x (List.mem_cons_of_mem _ hx)
      have hfk : fullKey pre p ≠ "" := fullKey_ne_empty hp.1
      have hkm : keyMatches (fullKey pre p) (joinKey pre (p :: q :: t)) := by
        rw [joinKey_cons]
        exact joinKey_matches (q :: t) hfk
      rcases hget : alistGet fields p with _ | w
      · have hS : goodFields (setParts [] (q :: t) v) :=
          setParts_goodFields (q :: t) v goodFields_nil hgk'
        rw [show setParts fields (p :: q :: t) v =
            alistPut fields p (Json.obj (setParts [] (q :: t) v)) from by
          simp [setParts, hget]]
        rw [(flatten_put_family hgood hp (by simpa [goodVal] using hS) pre hkm).1]
        rw [show contribOf pre p (Json.obj (setParts [] (q :: t) v)) =
            flattenFields (setParts [] (q :: t) v) (fullKey pre p) from by simp [contribOf]]
        rw [joinKey_cons]
        exact ih [] (fullKey pre p) v goodFields_nil hgk' (by simp) (setClear_nil_fields _)
      · cases w with
        | obj sub =>
          have hsub : goodFields sub := by
            simpa [goodVal] using goodFields_val_mem hgood (alistGet_mem hget)
          have hclear' : setClear sub (q :: t) := by
            simpa [setClear, hget] using hclear
          have hS : goodFields (setParts sub (q :: t) v) :=
            setParts_goodFields (q :: t) v hsub hgk'
          rw [show setParts fields (p :: q :: t) v =
              alistPut fields p (Json.obj (setParts sub (q :: t) v)) from by
            simp [setParts, hget]]
          rw [(flatten_put_family hgood hp (by simpa [goodVal] using hS) pre hkm).1]
          rw [show contribOf pre p (Json.obj (setParts sub (q :: t) v)) =
              flattenFields (setParts sub (q :: t) v) (fullKey pre p) from by simp [contribOf]]
          rw [joinKey_cons]
          exact ih sub (fullKey pre p) v hsub hgk' (by simp) hclear'
        | arr es => simp [setClear, hget] at hclear
        | str s2 =>
          have hS : goodFields (setParts [] (q :: t) v) :=
            setParts_goodFields (q :: t) v goodFields_nil hgk'
          rw [show setParts fields (p :: q :: t) v =
              alistPut fields p (Json.obj (setParts [] (q :: t) v)) from by
            simp [setParts, hget]]
          rw [(flatten_put_family hgood hp (by simpa [goodVal] using hS) pre hkm).1]
          rw [show contribOf pre p (Json.obj (setParts [] (q :: t) v)) =
              flattenFields (setParts [] (q :: t) v) (fullKey pre p) from by simp [contribOf]]
          rw [joinKey_cons]
          exact ih [] (fullKey pre p) v goodFields_nil hgk' (by simp) (setClear_nil_fields _)
        | num n2 =>
          have hS : goodFields (setParts [] (q :: t) v) :=
            setParts_goodFields (q :: t) v goodFields_nil hgk'
          rw [show setParts fields (p :: q :: t) v =
              alistPut fields p (Json.obj (setParts [] (q :: t) v)) from by
            simp [setParts, hget]]
          rw [(flatten_put_family hgood hp (by simpa [goodVal] using hS) pre hkm).1]
          rw [show contribOf pre p (Json.obj (setParts [] (q :: t) v)) =
              flattenFields (setParts [] (q :: t) v) (fullKey pre p) from by simp [contribOf]]
          rw [joinKey_cons]
          exact ih [] (fullKey pre p) v goodFields_nil hgk' (by simp) (setClear_nil_fields _)
        | bool b2 =>
          have hS : goodFields (setParts [] (q :: t) v) :=
            setParts_goodFields (q :: t) v goodFields_nil hgk'
          rw [show setParts fields (p :: q :: t) v =
              alistPut fields p (Json.obj (setParts [] (q :: t) v)) from by
            simp [setParts, hget]]
          rw [(flatten_put_family hgood hp (by simpa [goodVal] using hS) pre hkm).1]
          rw [show contribOf pre p (Json.obj (setParts [] (q :: t) v)) =
              flattenFields (setParts [] (q :: t) v) (fullKey pre p) from by simp [contribOf]]
          rw [joinKey_cons]
          exact ih [] (fullKey pre p) v goodFields_nil hgk' (by simp) (setClear_nil_fields _)
        | null =>
          have hS : goodFields (setParts [] (q :: t) v) :=
            setParts_goodFields (q :: t) v goodFields_nil hgk'
          rw [show setParts fields (p :: q :: t) v =
              alistPut fields p (Json.obj (setParts [] (q :: t) v)) from by
            simp [setParts, hget]]
          rw [(flatten_put_family hgood hp (by simpa [goodVal] using hS) pre hkm).1]
          rw [show contribOf pre p (Json.obj (setParts [] (q :: t) v)) =
              flattenFields (setParts [] (q :: t) v) (fullKey pre p) from by simp [contribOf]]
          rw [joinKey_cons]
          exact ih [] (fullKey pre p) v goodFields_nil hgk' (by simp) (setClear_nil_fields _)

/-- After `setNestedValue`, no key strictly below the written key remains in
the flattened semantics: a whole subtree previously rooted there is gone. -/
theorem set_flatten_no_desc : ∀ (parts : List String) (fields : Obj) (pre v : String),
    goodFields fields → (∀ q ∈ parts, goodKey q) → parts ≠ [] → setClear fields parts →
    ∀ r, ¬ (joinKey pre parts ++ "." ++ r) ∈
      flatKeys (flattenFields (setParts fields parts v) pre) := by
  intro parts
  induction parts with
  | nil => intro fields pre v _ _ hne _; exact absurd rfl hne
  | cons p rest ih =>
    intro fields pre v hgood hgk _ hclear r hmem
    have hp : goodKey p := hgk p (List.mem_cons_self _ _)
    cases rest with
    | nil =>
      rw [setParts_single] at hmem
      rw [joinKey_cons, joinKey_nil] at hmem
      have hfam : keyMatches (fullKey pre p) (fullKey pre p ++ "." ++ r) :=
        keyMatches_ext _ r
      have := (flatten_put_family hgood hp (show goodVal (Json.str v) by simp [goodVal]) pre hfam).2
      rw [this] at hmem
      simp only [contribOf, flatKeys, List.map_cons, List.map_nil, List.mem_singleton] at hmem
      exact ne_append_dot (fullKey pre p) r hmem.symm
    | cons q t =>
      have hgk' : ∀ x ∈ q :: t, goodKey x := fun x hx => hgk x (List.mem_cons_of_mem _ hx)
      have hfk : fullKey pre p ≠ "" := fullKey_ne_empty hp.1
      have hkm : keyMatches (fullKey pre p) (joinKey pre (p :: q :: t) ++ "." ++ r) := by
        apply keyMatches_append
        rw [joinKey_cons]
        exact joinKey_matches (q :: t) hfk
      rcases hget : alistGet fields p with _ | w
      case none =>
        have hS : goodFields (setParts [] (q :: t) v) :=
          setParts_goodFields (q :: t) v goodFields_nil hgk'
        rw [show setParts fields (p :: q :: t) v =
            alistPut fields p (Json.obj (setParts [] (q :: t) v)) from by
          simp [setParts, hget]] at hmem
        rw [(flatten_put_family hgood hp (by simpa [goodVal] using hS) pre hkm).2] at hmem
        rw [show contribOf pre p (Json.obj (setParts [] (q :: t) v)) =
            flattenFields (setParts [] (q :: t) v) (fullKey pre p) from by
          simp [contribOf]] at hmem
        rw [joinKey_cons] at hmem
        exact ih [] (fullKey pre p) v goodFields_nil hgk' (by simp) (setClear_nil_fields _) r hmem
      case some =>
        cases w with
        | obj sub =>
          have hsub : goodFields sub := by
            simpa [goodVal] using goodFields_val_mem hgood (alistGet_mem hget)
          have hclear' : setClear sub (q :: t) := by
            simpa [setClear, hget] using hclear
          have hS : goodFields (setParts sub (q :: t) v) :=
            setParts_goodFields (q :: t) v hsub hgk'
          rw [show setParts fields (p :: q :: t) v =
              alistPut fields p (Json.obj (setParts sub (q :: t) v)) from by
            simp [setParts, hget]] at hmem
          rw [(flatten_put_family hgood hp (by simpa [goodVal] using hS) pre hkm).2] at hmem
          rw [show contribOf pre p (Json.obj (setParts sub (q :: t) v)) =
              flattenFields (setParts sub (q :: t) v) (fullKey pre p) from by
            simp [contribOf]] at hmem
          rw [joinKey_cons] at hmem
          exact ih sub (fullKey pre p) v hsub hgk' (by simp) hclear' r hmem
        | arr es => simp [setClear, hget] at hclear
        | str s2 =>
          have hS : goodFields (setParts [] (q :: t) v) :=
            setParts_goodFields (q :: t) v goodFields_nil hgk'
          rw [show setParts fields (p :: q :: t) v =
              alistPut fields p (Json.obj (setParts [] (q :: t) v)) from by
            simp [setParts, hget]] at hmem
          rw [(flatten_put_family hgood hp (by simpa [goodVal] using hS) pre hkm).2] at hmem
          rw [show contribOf pre p (Json.obj (setParts [] (q :: t) v)) =
              flattenFields (setParts [] (q :: t) v) (fullKey pre p) from by
            simp [contribOf]] at hmem
          rw [joinKey_cons] at hmem
          exact ih [] (fullKey pre p) v goodFields_nil hgk' (by simp) (setClear_nil_fields _) r hmem
        | num n2 =>
          have hS : goodFields (setParts [] (q :: t) v) :=
            setParts_goodFields (q :: t) v goodFields_nil hgk'
          rw [show setParts fields (p :: q :: t) v =
              alistPut fields p (Json.obj (setParts [] (q :: t) v)) from by
            simp [setParts, hget]] at hmem
          rw [(flatten_put_family hgood hp (by simpa [goodVal] using hS) pre hkm).2] at hmem
          rw [show contribOf pre p (Json.obj (setParts [] (q :: t) v)) =
              flattenFields (setParts [] (q :: t) v) (fullKey pre p) from by
            simp [contribOf]] at hmem
          rw [joinKey_cons] at hmem
          exact ih [] (fullKey pre p) v goodFields_nil hgk' (by simp) (setClear_nil_fields _) r hmem
        | bool b2 =>
          have hS : goodFields (setParts [] (q :: t) v) :=
            setParts_goodFields (q :: t) v goodFields_nil hgk'
          rw [show setParts fields (p :: q :: t) v =
              alistPut fields p (Json.obj (setParts [] (q :: t) v)) from by
            simp [setParts, hget]] at hmem
          rw [(flatten_put_family hgood hp (by simpa [goodVal] using hS) pre hkm).2] at hmem
          rw [show contribOf pre p (Json.obj (setParts [] (q :: t) v)) =
              flattenFields (setParts [] (q :: t) v) (fullKey pre p) from by
            simp [contribOf]] at hmem
          rw [joinKey_cons] at hmem
          exact ih [] (fullKey pre p) v goodFields_nil hgk' (by simp) (setClear_nil_fields _) r hmem
        | null =>
          have hS : goodFields (setParts [] (q :: t) v) :=
            setParts_goodFields (q :: t) v goodFields_nil hgk'
          rw [show setParts fields (p :: q :: t) v =
              alistPut fields p (Json.obj (setParts [] (q :: t) v)) from by
            simp [setParts, hget]] at hmem
          rw [(flatten_put_family hgood hp (by simpa [goodVal] using hS) pre hkm).2] at hmem
          rw [show contribOf pre p (Json.obj (setParts [] (q :: t) v)) =
              flattenFields (setParts [] (q :: t) v) (fullKey pre p) from by
            simp [contribOf]] at hmem
          rw [joinKey_cons] at hmem
          exact ih [] (fullKey pre p) v goodFields_nil hgk' (by simp) (setClear_nil_fields _) r hmem

/-! ## Flat keys are exactly the leaf paths -/

/-- Split of a dot-join extended by a dot and a suffix. -/
theorem jsSplitDot_append : ∀ (parts : List String), parts ≠ [] →
    (∀ p ∈ parts, dotFree p) → ∀ (s : String),
    jsSplitDot (joinDots parts ++ "." ++ s) = parts ++ jsSplitDot s := by
  intro parts
  induction parts with
  | nil => intro h; exact absurd rfl h
  | cons p rest ih =>
    intro _ hdf s
    cases rest with
    | nil =>
      show jsSplitDotAux (joinDots [p] ++ "." ++ s).data [] = [p] ++ jsSplitDot s
      have hdata : (joinDots [p] ++ "." ++ s).data = p.data ++ '.' :: s.data := by
        simp [joinDots, String.data_append]
      rw [hdata, jsSplitDotAux_append_dotFree (hdf p (by simp)) _ []]
      simp [jsSplitDotAux, str_mk_data, jsSplitDot]
    | cons q t =>
      show jsSplitDotAux (joinDots (p :: q :: t) ++ "." ++ s).data [] = (p :: q :: t) ++ jsSplitDot s
      have hdata : (joinDots (p :: q :: t) ++ "." ++ s).data =
          p.data ++ '.' :: (joinDots (q :: t) ++ "." ++ s).data := by
        rw [joinDots_cons_of_ne_nil p (List.cons_ne_nil q t)]
        simp [String.data_append, String.append_assoc]
      rw [hdata, jsSplitDotAux_append_dotFree (hdf p (by simp)) _ []]
      have := ih (by simp) (fun x hx => hdf x (List.mem_cons_of_mem _ hx)) s
      rw [jsSplitDot] at this
      have hdata2 : (joinDots (q :: t) ++ "." ++ s).data =
          (joinDots (q :: t)).data ++ '.' :: s.data := by
        simp [String.data_append]
      rw [hdata2] at this
      simp [jsSplitDotAux, str_mk_data, this]

/-- Every key of the flattened map of a well-formed document is the dot-join
of a leaf path. -/
theorem flat_key_split : ∀ (fields : Obj) (pre : String), goodFields fields →
    ∀ x ∈ flatKeys (flattenFields fields pre),
    ∃ parts, parts ≠ [] ∧ (∀ q ∈ parts, goodKey q) ∧ x = joinKey pre parts ∧
      leafAt fields parts := by
  intro fields pre
  induction fields, pre using flattenFields.induct with
  | case1 pre => simp [flatKeys, flattenFields_nil]
  | case2 k v rest pre fk ihv ihrest =>
    intro hgood x hx
    have hg := goodFields_cons_iff.mp hgood
    rw [flattenFields_cons] at hx
    rcases mem_keys_objAssign.mp hx with hx | hx
    · cases v with
      | obj fs =>
        simp only [contribOf] at hx
        obtain ⟨parts', hne, hgk, hjoin, hleaf⟩ := ihv (by simpa [goodVal] using hg.2.1) x hx
        refine ⟨k :: parts', by simp, ?_, ?_, ?_⟩
        · intro q hq
          rcases List.mem_cons.mp hq with rfl | hq
          · exact hg.1
          · exact hgk q hq
        · rw [joinKey_cons]; exact hjoin
        · rcases parts' with _ | ⟨q, t⟩
          · exact absurd rfl hne
          · show leafAt ((k, Json.obj fs) :: rest) (k :: q :: t)
            simp only [leafAt, alistGet_cons, if_pos rfl]
            exact hleaf
      | _ =>
        simp only [contribOf, flatKeys, List.map_cons, List.map_nil,
          List.mem_singleton] at hx
        refine ⟨[k], by simp, by
            intro q hq
            simp only [List.mem_singleton] at hq
            subst hq
            exact hg.1, by rw [hx]; rfl, ?_⟩
        simp [leafAt, alistGet_cons]
    · obtain ⟨parts', hne, hgk, hjoin, hleaf⟩ := ihrest hg.2.2.2 x hx
      refine ⟨parts', hne, hgk, hjoin, ?_⟩
      rcases parts' with _ | ⟨p₀, t⟩
      · exact absurd rfl hne
      · have hp₀ : ¬ k = p₀ := by
          intro hh
          subst hh
          have hmem : k ∈ rest.map Prod.fst := by
            rcases t with _ | ⟨q₁, t₁⟩
            · simp only [leafAt] at hleaf
              rcases hg2 : alistGet rest k with _ | w
              · rw [hg2] at hleaf; simp at hleaf
              · exact alistGet_isSome_iff.mp (by rw [hg2]; rfl)
            · simp only [leafAt] at hleaf
              rcases hg2 : alistGet rest k with _ | w
              · rw [hg2] at hleaf; simp at hleaf
              · exact alistGet_isSome_iff.mp (by rw [hg2]; rfl)
          exact hg.2.2.1 hmem
        rcases t with _ | ⟨q₁, t₁⟩
        · simpa [leafAt, alistGet_cons, hp₀] using hleaf
        · simpa [leafAt, alistGet_cons, hp₀] using hleaf

/-- A prefix of a leaf path is an unobstructed `setNestedValue` walk. -/
theorem leafAt_append_clear : ∀ (parts tail : List String) (fields : Obj),
    tail ≠ [] → leafAt fields (parts ++ tail) → setClear fields parts := by
  intro parts
  induction parts with
  | nil => intro tail fields _ _; simp [setClear]
  | cons p rest ih =>
    intro tail fields htail hleaf
    rcases hrt : rest ++ tail with _ | ⟨q, t'⟩
    · rcases List.append_eq_nil.mp hrt with ⟨_, h2⟩
      exact absurd h2 htail
    · have hleaf' : leafAt fields (p :: q :: t') := by
        rw [show p :: rest ++ tail = p :: (rest ++ tail) from rfl, hrt] at hleaf
        exact hleaf
      simp only [leafAt] at hleaf'
      rcases hget : alistGet fields p with _ | w
      · rw [hget] at hleaf'; exact absurd hleaf' (by simp)
      · cases w with
        | obj sub =>
          rw [hget] at hleaf'
          have hsub : setClear sub rest := ih tail sub htail (by rw [hrt]; exact hleaf')
          cases rest with
          | nil => simp [setClear]
          | cons r1 r2 => simpa [setClear, hget] using hsub
        | str s2 => rw [hget] at hleaf'; exact absurd hleaf' (by simp)
        | num n2 => rw [hget] at hleaf'; exact absurd hleaf' (by simp)
        | bool b2 => rw [hget] at hleaf'; exact absurd hleaf' (by simp)
        | null => rw [hget] at hleaf'; exact absurd hleaf' (by simp)
        | arr es => rw [hget] at hleaf'; exact absurd hleaf' (by simp)

/-- A leaf path cannot be strictly extended to another leaf path. -/
theorem leafAt_no_ext : ∀ (parts tail : List String) (fields : Obj),
    tail ≠ [] → leafAt fields parts → leafAt fields (parts ++ tail) → False := by
  intro parts
  induction parts with
  | nil => intro tail fields _ h _; simp [leafAt] at h
  | cons p rest ih =>
    intro tail fields htail hleaf hext
    cases rest with
    | nil =>
      rcases tail with _ | ⟨q, t'⟩
      · exact htail rfl
      · simp only [leafAt, List.cons_append, List.nil_append] at hleaf hext
        rcases hget : alistGet fields p with _ | w
        · rw [hget] at hleaf; exact hleaf
        · cases w with
          | obj sub => rw [hget] at hleaf; exact hleaf
          | str s2 => rw [hget] at hext; exact hext
          | num n2 => rw [hget] at hext; exact hext
          | bool b2 => rw [hget] at hext; exact hext
          | null => rw [hget] at hext; exact hext
          | arr es => rw [hget] at hext; exact hext
    | cons q t =>
      simp only [leafAt, List.cons_append] at hleaf hext
      rcases hget : alistGet fields p with _ | w
      · rw [hget] at hleaf; exact hleaf
      · cases w with
        | obj sub =>
          rw [hget] at hleaf hext
          exact ih tail sub htail hleaf hext
        | str s2 => rw [hget] at hleaf; exact hleaf
        | num n2 => rw [hget] at hleaf; exact hleaf
        | bool b2 => rw [hget] at hleaf; exact hleaf
        | null => rw [hget] at hleaf; exact hleaf
        | arr es => rw [hget] at hleaf; exact hleaf

/-- C9: when the added key is a strict dot-prefix of a key already present
in a (well-formed) file — some `key ++ "." ++ suffix` is in the flattened
content — the present-key check of `addKey` / the HTTP intake, which tests
only exact membership of the flattened key, does not see `key` as existing
(`key` itself is not a flat key), so `setNestedValue(json, key, "")`
replaces the nested object at that path by an empty-string leaf: afterwards
`key` maps to `""` and no key strictly below `key` remains — every
descendant, in particular the witness `key ++ "." ++ suffix`, is silently
deleted. -/
theorem C9_addKey_prefix_clobbers_descendants
    (fields : Obj) (key suffix : String)
    (hgood : goodFields fields)
    (hsegs : ∀ q ∈ jsSplitDot key, q ≠ "")
    (hdesc : (key ++ "." ++ suffix) ∈ flatKeys (flattenFields fields "")) :
    (¬ key ∈ flatKeys (flattenFields fields ""))
    ∧ flatLookup (flattenFields (setNestedValue fields key "") "") key = some ""
    ∧ ∀ r, ¬ (key ++ "." ++ r) ∈ flatKeys (flattenFields (setNestedValue fields key "") "") := by
  have hgk : ∀ q ∈ jsSplitDot key, goodKey q := fun q hq =>
    ⟨hsegs q hq, jsSplitDot_dotFree key q hq⟩
  obtain ⟨p₀, rest₀, hsplit⟩ : ∃ p₀ rest₀, jsSplitDot key = p₀ :: rest₀ := by
    rcases hs : jsSplitDot key with _ | ⟨p₀, rest₀⟩
    · exact absurd hs (jsSplitDot_ne_nil key)
    · exact ⟨p₀, rest₀, rfl⟩
  have hjoin : joinKey "" (jsSplitDot key) = key := by
    rw [hsplit, joinKey_empty_eq_joinDots (hsegs p₀ (by rw [hsplit]; simp)) rest₀, ← hsplit,
      joinDots_jsSplitDot]
  -- decompose the witness descendant into a leaf path extending the key path
  obtain ⟨pathD, hDne, hDgk, hDjoin, hDleaf⟩ :=
    flat_key_split fields "" hgood _ hdesc
  obtain ⟨pD, restD, hsplitD⟩ : ∃ pD restD, pathD = pD :: restD := by
    rcases pathD with _ | ⟨pD, restD⟩
    · exact absurd rfl hDne
    · exact ⟨pD, restD, rfl⟩
  have hDjoin' : joinDots pathD = key ++ "." ++ suffix := by
    rw [hsplitD] at hDjoin ⊢
    rw [← joinKey_empty_eq_joinDots (hDgk pD (by rw [hsplitD]; simp)).1 restD]
    exact hDjoin.symm
  have hDeq : pathD = jsSplitDot key ++ jsSplitDot suffix := by
    have := jsSplitDot_append (jsSplitDot key) (jsSplitDot_ne_nil key)
      (jsSplitDot_dotFree key) suffix
    rw [joinDots_jsSplitDot] at this
    rw [← this, ← hDjoin']
    rw [jsSplitDot_joinDots pathD hDne (fun q hq => (hDgk q hq).2)]
  have hDleaf' : leafAt fields (jsSplitDot key ++ jsSplitDot suffix) := hDeq ▸ hDleaf
  have hclear : setClear fields (jsSplitDot key) :=
    leafAt_append_clear _ _ fields (jsSplitDot_ne_nil suffix) hDleaf'
  refine ⟨?_, ?_, ?_⟩
  · intro hmem
    obtain ⟨pathK, hKne, hKgk, hKjoin, hKleaf⟩ := flat_key_split fields "" hgood key hmem
    have hKeq : pathK = jsSplitDot key := by
      have h1 : joinDots pathK = key := by
        rcases pathK with _ | ⟨pK, restK⟩
        · exact absurd rfl hKne
        · rw [← joinKey_empty_eq_joinDots (hKgk pK (by simp)).1 restK]
          exact hKjoin.symm
      rw [← h1, jsSplitDot_joinDots pathK hKne (fun q hq => (hKgk q hq).2)]
    exact leafAt_no_ext (jsSplitDot key) (jsSplitDot suffix) fields
      (jsSplitDot_ne_nil suffix) (hKeq ▸ hKleaf) hDleaf'
  · have := set_flatten_lookup (jsSplitDot key) fields "" "" hgood hgk
      (jsSplitDot_ne_nil key) hclear
    rw [hjoin] at this
    rw [setNestedValue]
    exact this
  · intro r
    have := set_flatten_no_desc (jsSplitDot key) fields "" "" hgood hgk
      (jsSplitDot_ne_nil key) hclear r
    rw [hjoin] at this
    rw [setNestedValue]
    exact this

/-- Witness for C9: the file contains `a.b.c`, the added key is `a.b`. -/
theorem C9_witness :
    (¬ "a.b" ∈ flatKeys (flattenFields [("a", .obj [("b", .obj [("c", .str "x")])])] ""))
    ∧ flatLookup (flattenFields
        (setNestedValue [("a", .obj [("b", .obj [("c", .str "x")])])] "a.b" "") "") "a.b" = some ""
    ∧ ∀ r, ¬ ("a.b" ++ "." ++ r) ∈ flatKeys (flattenFields
        (setNestedValue [("a", .obj [("b", .obj [("c", .str "x")])])] "a.b" "") "") := by
  exact C9_addKey_prefix_clobbers_descendants
    [("a", .obj [("b", .obj [("c", .str "x")])])] "a.b" "c"
    (by simp [goodFields, goodVal, goodKey])
    (by intro q hq; simp [jsSplitDot, jsSplitDotAux] at hq; rcases hq with rfl | rfl <;> decide)
    (by simp [flattenJson, flattenFields, objAssignS, alistPut, fullKey, jsLeafString, flatKeys,
      contribOf])

theorem primFields_nil : primFields [] := by simp [primFields]

theorem primFields_cons_iff {k : String} {v : Json} {rest : Obj} :
    primFields ((k, v) :: rest) ↔ primVal v ∧ primFields rest := by
  simp [primFields]

theorem coerceFields_nil : coerceFields [] = [] := by simp [coerceFields]

theorem coerceFields_cons (k : String) (v : Json) (rest : Obj) :
    coerceFields ((k, v) :: rest) = (k, coerceVal v) :: coerceFields rest := by
  simp [coerceFields]

theorem pathsFields_nil : pathsFields [] = [] := by simp [pathsFields]

theorem pathsFields_cons_leaf {k : String} {v : Json} (hv : ∀ fs, v ≠ .obj fs) (rest : Obj) :
    pathsFields ((k, v) :: rest) = ([k], jsLeafString v) :: pathsFields rest := by
  cases v with
  | obj fs => exact absurd rfl (hv fs)
  | _ => simp [pathsFields]

theorem pathsFields_cons_obj (k : String) (fs rest : Obj) :
    pathsFields ((k, .obj fs) :: rest) =
      (pathsFields fs).map (fun e => (k :: e.1, e.2)) ++ pathsFields rest := by
  simp [pathsFields]

/-- Objects related by `JsonSim` have permuted key lists. -/
theorem JsonSim.keys_perm {j j' : Json} (h : JsonSim j j') :
    ∀ a b : Obj, j = .obj a → j' = .obj b → (a.map Prod.fst).Perm (b.map Prod.fst) := by
  induction h with
  | str s => intro a b ha _; cases ha
  | num n => intro a b ha _; cases ha
  | bool b0 => intro a b ha _; cases ha
  | null => intro a b ha _; cases ha
  | arr es => intro a b ha _; cases ha
  | objNil =>
    intro a b ha hb
    cases ha; cases hb
    exact List.Perm.refl _
  | objCons k _ _ _ ih =>
    intro a b ha hb
    cases ha; cases hb
    exact List.Perm.cons k (ih _ _ rfl rfl)
  | objSwap e₁ e₂ t =>
    intro a b ha hb
    cases ha; cases hb
    exact List.Perm.swap e₂.1 e₁.1 (t.map Prod.fst)
  | objTrans _ _ ih₁ ih₂ =>
    intro a b ha hb
    cases ha; cases hb
    exact (ih₁ _ _ rfl rfl).trans (ih₂ _ _ rfl rfl)

/-- Counterexample to C3 as stated: the document `{"a.b": "x"}` has only
string leaves, yet re-nesting its flattening with `setNestedValue` yields
`{"a": {"b": "x"}}`, which is not equal to the original even after coercing
leaves to strings and ignoring key order. -/
theorem C3_counterexample :
    ¬ JsonSim
        (.obj (nestFlat (flattenFields [("a.b", .str "x")] "")))
        (.obj (coerceFields [("a.b", .str "x")])) := by
  have heval : nestFlat (flattenFields [("a.b", .str "x")] "") =
      [("a", .obj [("b", .str "x")])] := by
    simp [nestFlat, flattenFields, objAssignS, alistPut, fullKey, jsLeafString,
      setNestedValue, jsSplitDot, jsSplitDotAux, setParts, alistGet_nil]
  have hco : coerceFields [("a.b", .str "x")] = [("a.b", .str "x")] := by
    simp [coerceFields, coerceVal, jsLeafString]
  rw [heval, hco]
  intro h
  have := h.keys_perm _ _ rfl rfl
  simp only [List.map_cons, List.map_nil] at this
  have := List.singleton_perm.mp this
  simp at this

theorem flatten_eq_paths : ∀ {fields : Obj}, goodFields fields → ∀ (pre : String),
    flattenFields fields pre = (pathsFields fields).map (fun e => (joinKey pre e.1, e.2)) := by
  intro fields
  induction fields using pathsFields.induct with
  | case1 => intro _ pre; simp [flattenFields_nil, pathsFields_nil]
  | case2 k v rest ihv ihrest =>
    intro hgood pre
    have hg := goodFields_cons_iff.mp hgood
    rw [flattenFields_cons_good pre hgood]
    cases v with
    | obj fs =>
      rw [pathsFields_cons_obj, List.map_append, List.map_map]
      have hsub : goodFields fs := by simpa [goodVal] using hg.2.1
      rw [show contribOf pre k (Json.obj fs) = flattenFields fs (fullKey pre k) from by
        simp [contribOf]]
      rw [ihv hsub (fullKey pre k), ihrest hg.2.2.2 pre]
      congr 1
    | str s2 =>
      rw [pathsFields_cons_leaf (by intro fs h; cases h) rest, List.map_cons,
        ihrest hg.2.2.2 pre]
      simp [contribOf, joinKey_cons, joinKey_nil]
    | num n2 =>
      rw [pathsFields_cons_leaf (by intro fs h; cases h) rest, List.map_cons,
        ihrest hg.2.2.2 pre]
      simp [contribOf, joinKey_cons, joinKey_nil]
    | bool b2 =>
      rw [pathsFields_cons_leaf (by intro fs h; cases h) rest, List.map_cons,
        ihrest hg.2.2.2 pre]
      simp [contribOf, joinKey_cons, joinKey_nil]
    | null =>
      rw [pathsFields_cons_leaf (by intro fs h; cases h) rest, List.map_cons,
        ihrest hg.2.2.2 pre]
      simp [contribOf, joinKey_cons, joinKey_nil]
    | arr es =>
      rw [pathsFields_cons_leaf (by intro fs h; cases h) rest, List.map_cons,
        ihrest hg.2.2.2 pre]
      simp [contribOf, joinKey_cons, joinKey_nil]

theorem pathsFields_good : ∀ {fields : Obj}, goodFields fields →
    ∀ e ∈ pathsFields fields, e.1 ≠ [] ∧ ∀ q ∈ e.1, goodKey q := by
  intro fields
  induction fields using pathsFields.induct with
  | case1 => intro _ e he; simp [pathsFields_nil] at he
  | case2 k v rest ihv ihrest =>
    intro hgood e he
    have hg := goodFields_cons_iff.mp hgood
    cases v with
    | obj fs =>
      rw [pathsFields_cons_obj] at he
      rcases List.mem_append.mp he with he | he
      · obtain ⟨e', he', rfl⟩ := List.mem_map.mp he
        have hsub : goodFields fs := by simpa [goodVal] using hg.2.1
        obtain ⟨hne, hq⟩ := ihv hsub e' he'
        refine ⟨by simp, ?_⟩
        intro q hq'
        rcases List.mem_cons.mp hq' with rfl | hq'
        · exact hg.1
        · exact hq q hq'
      · exact ihrest hg.2.2.2 e he
    | str s2 =>
      rw [pathsFields_cons_leaf (by intro fs h; cases h) rest] at he
      rcases List.mem_cons.mp he with rfl | he
      · exact ⟨by simp, by intro q hq; simp only [List.mem_singleton] at hq; subst hq; exact hg.1⟩
      · exact ihrest hg.2.2.2 e he
    | num n2 =>
      rw [pathsFields_cons_leaf (by intro fs h; cases h) rest] at he
      rcases List.mem_cons.mp he with rfl | he
      · exact ⟨by simp, by intro q hq; simp only [List.mem_singleton] at hq; subst hq; exact hg.1⟩
      · exact ihrest hg.2.2.2 e he
    | bool b2 =>
      rw [pathsFields_cons_leaf (by intro fs h; cases h) rest] at he
      rcases List.mem_cons.mp he with rfl | he
      · exact ⟨by simp, by intro q hq; simp only [List.mem_singleton] at hq; subst hq; exact hg.1⟩
      · exact ihrest hg.2.2.2 e he
    | null =>
      rw [pathsFields_cons_leaf (by intro fs h; cases h) rest] at he
      rcases List.mem_cons.mp he with rfl | he
      · exact ⟨by simp, by intro q hq; simp only [List.mem_singleton] at hq; subst hq; exact hg.1⟩
      · exact ihrest hg.2.2.2 e he
    | arr es =>
      rw [pathsFields_cons_leaf (by intro fs h; cases h) rest] at he
      rcases List.mem_cons.mp he with rfl | he
      · exact ⟨by simp, by intro q hq; simp only [List.mem_singleton] at hq; subst hq; exact hg.1⟩
      · exact ihrest hg.2.2.2 e he

theorem pathsFields_ne_nil : ∀ {fields : Obj}, primFields fields → fields ≠ [] →
    pathsFields fields ≠ [] := by
  intro fields
  induction fields using pathsFields.induct with
  | case1 => intro _ h; exact absurd rfl h
  | case2 k v rest ihv ihrest =>
    intro hprim _
    have hp := primFields_cons_iff.mp hprim
    cases v with
    | obj fs =>
      rw [pathsFields_cons_obj]
      intro hcontra
      rcases List.append_eq_nil.mp hcontra with ⟨h1, _⟩
      have hfs := hp.1
      simp only [primVal] at hfs
      exact ihv hfs.2 hfs.1 (List.map_eq_nil_iff.mp h1)
    | str s2 => rw [pathsFields_cons_leaf (by intro fs h; cases h) rest]; simp
    | num n2 => rw [pathsFields_cons_leaf (by intro fs h; cases h) rest]; simp
    | bool b2 => rw [pathsFields_cons_leaf (by intro fs h; cases h) rest]; simp
    | null => simp [primVal] at hp
    | arr es => simp [primVal] at hp

theorem alistPut_put {α : Type} (l : List (String × α)) (k : String) (x y : α) :
    alistPut (alistPut l k x) k y = alistPut l k y := by
  induction l with
  | nil => simp [alistPut_nil, alistPut_cons]
  | cons e t ih =>
    obtain ⟨k₀, v₀⟩ := e
    by_cases h₀ : k₀ = k
    · simp [alistPut_cons, h₀]
    · simp [alistPut_cons, h₀, ih]

theorem alistPut_append_last {α : Type} {A : List (String × α)} {k : String}
    (h : ¬ k ∈ A.map Prod.fst) (x y : α) :
    alistPut (A ++ [(k, x)]) k y = A ++ [(k, y)] := by
  induction A with
  | nil => simp [alistPut_cons]
  | cons e t ih =>
    obtain ⟨k₀, v₀⟩ := e
    simp only [List.map_cons, List.mem_cons] at h
    push_neg at h
    rw [List.cons_append, alistPut_cons, if_neg (fun hh => h.1 hh.symm), ih h.2]
    simp

theorem setParts_cons_obj {acc : Obj} {k : String} {S : Obj}
    (hget : alistGet acc k = some (.obj S)) {ps : List String} (hps : ps ≠ [])
    (v : String) :
    setParts acc (k :: ps) v = alistPut acc k (.obj (setParts S ps v)) := by
  cases ps with
  | nil => exact absurd rfl hps
  | cons q t => simp [setParts, hget]

theorem setParts_cons_none {acc : Obj} {k : String}
    (hget : alistGet acc k = none) {ps : List String} (hps : ps ≠ [])
    (v : String) :
    setParts acc (k :: ps) v = alistPut acc k (.obj (setParts [] ps v)) := by
  cases ps with
  | nil => exact absurd rfl hps
  | cons q t => simp [setParts, hget]

/-- Inserting a batch of paths below one existing key edits the sub-object
in place. -/
theorem fold_under_key : ∀ (pl : List (List String × String)),
    (∀ e ∈ pl, e.1 ≠ []) → ∀ (A S : Obj) (k : String),
    alistGet A k = some (.obj S) →
    (pl.map (fun e => ((k :: e.1 : List String), e.2))).foldl
        (fun acc e => setParts acc e.1 e.2) A =
      alistPut A k (.obj (pl.foldl (fun acc e => setParts acc e.1 e.2) S)) := by
  intro pl
  induction pl with
  | nil =>
    intro _ A S k hget
    simp [List.foldl_nil, alistPut_eq_self hget]
  | cons e rest ih =>
    intro hne A S k hget
    obtain ⟨ps, v⟩ := e
    simp only [List.map_cons, List.foldl_cons]
    rw [setParts_cons_obj hget (hne (ps, v) (by simp)) v]
    rw [ih (fun e he => hne e (List.mem_cons_of_mem _ he)) _ _ k (alistGet_put_self A k _)]
    rw [alistPut_put]

/-- Folding the leaf paths of a well-formed primitive document into an
accumulator whose keys are fresh appends the coerced document. -/
theorem nest_paths : ∀ (fields : Obj), goodFields fields → primFields fields →
    ∀ A : Obj, (∀ kv ∈ fields, ¬ kv.1 ∈ A.map Prod.fst) →
    (pathsFields fields).foldl (fun acc e => setParts acc e.1 e.2) A =
      A ++ coerceFields fields := by
  intro fields
  induction fields using pathsFields.induct with
  | case1 => intro _ _ A _; simp [pathsFields_nil, coerceFields_nil]
  | case2 k v rest ihv ihrest =>
    intro hgood hprim A hfresh
    have hg := goodFields_cons_iff.mp hgood
    have hp := primFields_cons_iff.mp hprim
    have hkA : ¬ k ∈ A.map Prod.fst := hfresh (k, v) (by simp)
    have hfresh' : ∀ kv ∈ rest, ¬ kv.1 ∈ (A ++ [(k, coerceVal v)]).map Prod.fst := by
      intro kv hkv hmem
      simp only [List.map_append, List.mem_append, List.map_cons, List.map_nil,
        List.mem_singleton] at hmem
      rcases hmem with hmem | hmem
      · exact hfresh kv (List.mem_cons_of_mem _ hkv) hmem
      · exact hg.2.2.1 (hmem ▸ List.mem_map_of_mem Prod.fst hkv)
    cases v with
    | obj fs =>
      have hfs : primFields fs ∧ fs ≠ [] := by
        have := hp.1
        simp only [primVal] at this
        exact ⟨this.2, this.1⟩
      have hfsgood : goodFields fs := by simpa [goodVal] using hg.2.1
      rw [pathsFields_cons_obj, List.foldl_append]
      -- the prefixed batch builds the k-subtree
      obtain ⟨e₁, pl', hpl⟩ : ∃ e₁ pl', pathsFields fs = e₁ :: pl' := by
        rcases hps : pathsFields fs with _ | ⟨e₁, pl'⟩
        · exact absurd hps (pathsFields_ne_nil hfs.1 hfs.2)
        · exact ⟨e₁, pl', rfl⟩
      have hgoodps := fun e he => pathsFields_good hfsgood e he
      rw [hpl]
      obtain ⟨ps₁, v₁⟩ := e₁
      simp only [List.map_cons, List.foldl_cons]
      have hps₁ : ps₁ ≠ [] := (hgoodps (ps₁, v₁) (by rw [hpl]; simp)).1
      rw [setParts_cons_none (alistGet_eq_none_iff.mpr hkA) hps₁ v₁,
        alistPut_of_get_none (alistGet_eq_none_iff.mpr hkA)]
      rw [fold_under_key pl'
        (fun e he => (hgoodps e (by rw [hpl]; exact List.mem_cons_of_mem _ he)).1)
        (A ++ [(k, Json.obj (setParts [] ps₁ v₁))]) (setParts [] ps₁ v₁) k (by
          rw [alistGet_append, alistGet_eq_none_iff.mpr hkA]
          simp [alistGet_cons])]
      rw [alistPut_append_last hkA]
      have hsubfold : pl'.foldl (fun acc e => setParts acc e.1 e.2) (setParts [] ps₁ v₁) =
          coerceFields fs := by
        have h0 := ihv hfsgood hfs.1 [] (by simp)
        rw [hpl] at h0
        simp only [List.foldl_cons, List.nil_append] at h0
        exact h0
      rw [hsubfold]
      rw [ihrest hg.2.2.2 hp.2 (A ++ [(k, Json.obj (coerceFields fs))]) (by
        intro kv hkv
        have := hfresh' kv hkv
        simpa [coerceVal] using this)]
      simp [coerceFields_cons, coerceVal]
    | str s2 =>
      rw [pathsFields_cons_leaf (by intro fs h; cases h) rest, List.foldl_cons]
      rw [show setParts A [k] (jsLeafString (Json.str s2)) =
          alistPut A k (.str (jsLeafString (Json.str s2))) from by simp [setParts]]
      rw [alistPut_of_get_none (alistGet_eq_none_iff.mpr hkA)]
      rw [ihrest hg.2.2.2 hp.2 _ (by
        intro kv hkv
        have := hfresh' kv hkv
        simpa [coerceVal] using this)]
      simp [coerceFields_cons, coerceVal]
    | num n2 =>
      rw [pathsFields_cons_leaf (by intro fs h; cases h) rest, List.foldl_cons]
      rw [show setParts A [k] (jsLeafString (Json.num n2)) =
          alistPut A k (.str (jsLeafString (Json.num n2))) from by simp [setParts]]
      rw [alistPut_of_get_none (alistGet_eq_none_iff.mpr hkA)]
      rw [ihrest hg.2.2.2 hp.2 _ (by
        intro kv hkv
        have := hfresh' kv hkv
        simpa [coerceVal] using this)]
      simp [coerceFields_cons, coerceVal]
    | bool b2 =>
      rw [pathsFields_cons_leaf (by intro fs h; cases h) rest, List.foldl_cons]
      rw [show setParts A [k] (jsLeafString (Json.bool b2)) =
          alistPut A k (.str (jsLeafString (Json.bool b2))) from by simp [setParts]]
      rw [alistPut_of_get_none (alistGet_eq_none_iff.mpr hkA)]
      rw [ihrest hg.2.2.2 hp.2 _ (by
        intro kv hkv
        have := hfresh' kv hkv
        simpa [coerceVal] using this)]
      simp [coerceFields_cons, coerceVal]
    | null => simp [primVal] at hp
    | arr es => simp [primVal] at hp

theorem jsLeafString_str (x : String) : jsLeafString (.str x) = x := rfl

theorem flatten_coerce : ∀ (fields : Obj) (pre : String),
    flattenFields (coerceFields fields) pre = flattenFields fields pre := by
  intro fields
  induction fields using pathsFields.induct with
  | case1 => intro pre; simp [coerceFields_nil]
  | case2 k v rest ihv ihrest =>
    intro pre
    rw [coerceFields_cons, flattenFields_cons, flattenFields_cons, ihrest pre]
    congr 1
    cases v with
    | obj fs =>
      show contribOf pre k (.obj (coerceFields fs)) = contribOf pre k (.obj fs)
      simp only [contribOf]
      exact ihv (fullKey pre k)
    | str s2 => rfl
    | num n2 => rfl
    | bool b2 => rfl
    | null => rfl
    | arr es => rfl

theorem jsSplitDot_joinKey_good {ps : List String} (hne : ps ≠ [])
    (hgk : ∀ q ∈ ps, goodKey q) : jsSplitDot (joinKey "" ps) = ps := by
  rcases ps with _ | ⟨p, rest⟩
  · exact absurd rfl hne
  · rw [joinKey_empty_eq_joinDots (hgk p (by simp)).1 rest]
    exact jsSplitDot_joinDots (p :: rest) (by simp) (fun q hq => (hgk q hq).2)

/-- C3 (amended): for a well-formed document — pairwise-distinct, nonempty,
dot-free object keys at every level — whose leaves are all
strings/numbers/booleans, re-nesting the flattened document with
`setNestedValue` rebuilds the document exactly (keys even come back in the
original order), up to coercing every leaf to its string form; hence the
rebuilt document equals the original ignoring key order, and flattening,
re-nesting, and flattening again is a no-op.  (The dot-free restriction is
forced by the counterexample `{"a.b": "x"}`.) -/
theorem C3_roundtrip_amended (fields : Obj) (hgood : goodFields fields)
    (hprim : primFields fields) :
    nestFlat (flattenFields fields "") = coerceFields fields
    ∧ JsonSim (.obj (nestFlat (flattenFields fields ""))) (.obj (coerceFields fields))
    ∧ flattenFields (nestFlat (flattenFields fields "")) "" = flattenFields fields "" := by
  have hmain : nestFlat (flattenFields fields "") = coerceFields fields := by
    rw [nestFlat, flatten_eq_paths hgood "", List.foldl_map]
    have hstep : ∀ (acc : Obj), ∀ e ∈ pathsFields fields,
        setNestedValue acc (joinKey "" e.1) e.2 = setParts acc e.1 e.2 := by
      intro acc e he
      obtain ⟨hne, hgk⟩ := pathsFields_good hgood e he
      rw [setNestedValue, jsSplitDot_joinKey_good hne hgk]
    rw [List.foldl_ext _ _ _ hstep]
    have := nest_paths fields hgood hprim [] (by simp)
    simpa using this
  refine ⟨hmain, ?_, ?_⟩
  · rw [hmain]
    exact fieldsSimRefl _
  · rw [hmain]
    exact flatten_coerce fields ""

/-- Witness for C3 (amended) at a concrete nested document. -/
theorem C3_witness :
    nestFlat (flattenFields [("a", .obj [("b", .str "x")]), ("c", .num 3)] "") =
      coerceFields [("a", .obj [("b", .str "x")]), ("c", .num 3)] :=
  (C3_roundtrip_amended [("a", .obj [("b", .str "x")]), ("c", .num 3)]
    (by simp [goodFields, goodVal, goodKey])
    (by simp [primFields, primVal])).1

theorem updateFirstLang_mem {langs : List Language} {c : String} (f : Language → Language)
    {lang : Language} (h : langs.find? (fun l => l.code = c) = some lang) :
    f lang ∈ updateFirstLang langs c f := by
  induction langs with
  | nil => simp [List.find?] at h
  | cons l rest ih =>
    by_cases hc : l.code = c
    · rw [List.find?_cons_of_pos _ (by simp [hc])] at h
      cases h
      simp [updateFirstLang, hc]
    · rw [List.find?_cons_of_neg _ (by simp [hc])] at h
      simp only [updateFirstLang, if_neg hc, List.mem_cons]
      exact Or.inr (ih h)

/-- C10: in flat folder-structure mode, `ensureFile` builds the path
`<root>/<langCode>.json` regardless of the requested namespace; when the
found language has no `File` record for that namespace, a new record is
appended carrying the requested namespace but the flat per-language path
(shared with any existing record on that path), the on-disk file is not
touched when it already exists, and the namespace of the new record differs
from every existing record of the language. -/
theorem C10_flat_ensureFile_shares_path
    (st : Store) (root c n : String) (lang : Language)
    (hmode : st.settings.folderStructure = .flat)
    (hroot : st.settings.rootFolder = some root)
    (hfind : st.settings.languages.find? (fun l => l.code = c) = some lang)
    (hnone : lang.files.find? (fun f => f.«namespace» = n) = none) :
    (ensureFile st c n).2 = some ⟨pathJoin root (c ++ ".json"), n⟩
    ∧ (existsSync st.fs (pathJoin root (c ++ ".json")) = true →
        (ensureFile st c n).1.fs = st.fs)
    ∧ (∃ lang' ∈ (ensureFile st c n).1.settings.languages,
        lang'.code = lang.code
        ∧ lang'.files = lang.files ++ [⟨pathJoin root (c ++ ".json"), n⟩])
    ∧ (∀ f0 ∈ lang.files, f0.«namespace» ≠ n) := by
  have hE : ensureFile st c n =
      (⟨⟨st.settings.rootFolder, st.settings.folderStructure,
          updateFirstLang st.settings.languages c
            (fun l => ⟨l.code, l.files ++ [⟨pathJoin root (c ++ ".json"), n⟩]⟩)⟩,
        if existsSync st.fs (pathJoin root (c ++ ".json")) = true then st.fs
        else alistPut st.fs (pathJoin root (c ++ ".json")) []⟩,
       some ⟨pathJoin root (c ++ ".json"), n⟩) := by
    unfold ensureFile
    rw [hfind]
    simp [hnone, hroot, hmode]
  refine ⟨by rw [hE], ?_, ?_, ?_⟩
  · intro hex
    rw [hE]
    simp [hex]
  · refine ⟨⟨lang.code, lang.files ++ [⟨pathJoin root (c ++ ".json"), n⟩]⟩, ?_, rfl, rfl⟩
    rw [hE]
    exact updateFirstLang_mem _ hfind
  · intro f0 hf0 hns
    have := List.find?_eq_none.mp hnone f0 hf0
    simp [hns] at this

/-- Witness for C10 at a one-language flat store whose physical file
already exists under the `default` namespace. -/
theorem C10_witness :
    (ensureFile ⟨⟨some "/r", .flat, [⟨"en-US", [⟨"/r/en-US.json", "default"⟩]⟩]⟩,
        [("/r/en-US.json", [])]⟩ "en-US" "common").2
      = some ⟨pathJoin "/r" ("en-US" ++ ".json"), "common"⟩
    ∧ (ensureFile ⟨⟨some "/r", .flat, [⟨"en-US", [⟨"/r/en-US.json", "default"⟩]⟩]⟩,
        [("/r/en-US.json", [])]⟩ "en-US" "common").1.fs
      = [("/r/en-US.json", [])] := by
  have h := C10_flat_ensureFile_shares_path
    ⟨⟨some "/r", .flat, [⟨"en-US", [⟨"/r/en-US.json", "default"⟩]⟩]⟩, [("/r/en-US.json", [])]⟩
    "/r" "en-US" "common" ⟨"en-US", [⟨"/r/en-US.json", "default"⟩]⟩
    rfl rfl (by decide) (by decide)
  exact ⟨h.1, h.2.1 (by decide)⟩

theorem intakeLoop_str_ok (nsp k : String) (codes : List String) :
    ∀ (st : Store) (added : Bool),
      ∃ p, intakeLoop nsp (some (.str k)) st codes added = .ok p := by
  induction codes with
  | nil => intro st added; exact ⟨(st, added), rfl⟩
  | cons c rest ih =>
    intro st added
    rcases hE : ensureFile st c nsp with ⟨st', fo⟩
    rcases fo with _ | file
    · obtain ⟨p, hp⟩ := ih st' added
      refine ⟨p, ?_⟩
      simp only [intakeLoop, hE]
      exact hp
    · by_cases hk : toPropKey (some (.str k)) ∈
        flatKeys (flattenFields (readJsonFile st'.fs file.absolutePath) "")
      · obtain ⟨p, hp⟩ := ih st' added
        refine ⟨p, ?_⟩
        simp only [intakeLoop, hE]
        simpa [hk] using hp
      · obtain ⟨p, hp⟩ := ih ⟨st'.settings, writeJsonFile st'.fs file.absolutePath (setNestedValue (readJsonFile st'.fs file.absolutePath) k "")⟩ true
        refine ⟨p, ?_⟩
        simp only [intakeLoop, hE]
        simpa [hk] using hp

theorem applyDefault_str_ok (st : Store) (c nsp k : String) (dv : Option Json) :
    ∃ st', applyDefault st c nsp (some (.str k)) dv = .ok st' := by
  rcases dv with _ | j
  · exact ⟨st, rfl⟩
  · cases j with
    | str s =>
      by_cases hs : s = ""
      · exact ⟨st, by simp [applyDefault, hs]⟩
      · rcases hE : ensureFile st c nsp with ⟨st', fo⟩
        rcases fo with _ | file
        · exact ⟨st', by simp [applyDefault, hs, hE]⟩
        · exact ⟨⟨st'.settings, writeJsonFile st'.fs file.absolutePath (setNestedValue (readJsonFile st'.fs file.absolutePath) k s)⟩, by simp [applyDefault, hs, hE]⟩
    | num m => exact ⟨st, rfl⟩
    | bool b => exact ⟨st, rfl⟩
    | null => exact ⟨st, rfl⟩
    | arr es => exact ⟨st, rfl⟩
    | obj gs => exact ⟨st, rfl⟩

/-- C5 (amended): `OPTIONS` gets `204` with no body; a non-`OPTIONS` request
with a non-matching path or non-`POST` method gets `404`; a matching `POST`
whose body is not valid JSON gets `400`; but a body of valid JSON does not
guarantee `200`: the JSON value `null` also gets `400` (destructuring
`null` throws inside the handler), against the claim.  A body that is a
JSON object whose `key` property is a string does get `200 {"ok": true}`. -/
theorem C5_http_responses_amended (st : Store) (req : HttpRequest) :
    (req.method = "OPTIONS" → handleRequest st req = (st, [], ⟨204, .empty⟩))
    ∧ (req.method ≠ "OPTIONS" →
        (matchLocalesPath req.url = none ∨ req.method ≠ "POST") →
        handleRequest st req = (st, [], ⟨404, .errNotFound⟩))
    ∧ (req.method = "POST" → req.body = none →
        ∀ pr, matchLocalesPath req.url = some pr →
          handleRequest st req = (st, [], ⟨400, .errInvalidJson⟩))
    ∧ (req.method = "POST" → req.body = some .null →
        ∀ pr, matchLocalesPath req.url = some pr →
          handleRequest st req = (st, [], ⟨400, .errInvalidJson⟩))
    ∧ (∀ pr fs k, req.method = "POST" →
        matchLocalesPath req.url = some pr →
        req.body = some (.obj fs) → alistGet fs "key" = some (.str k) →
        (handleRequest st req).2.2 = ⟨200, .okTrue⟩) := by
  refine ⟨?_, ?_, ?_, ?_, ?_⟩
  · intro h
    simp [handleRequest, h]
  · intro hno hcase
    rcases hcase with hc | hc
    · simp [handleRequest, hno, hc]
    · rcases hm : matchLocalesPath req.url with _ | pr
      · simp [handleRequest, hno, hm]
      · obtain ⟨lng, nsp⟩ := pr
        simp [handleRequest, hno, hc, hm]
  · intro hpost hbody pr hpr
    obtain ⟨lng, nsp⟩ := pr
    simp [handleRequest, hpost, hpr, hbody]
  · intro hpost hbody pr hpr
    obtain ⟨lng, nsp⟩ := pr
    simp [handleRequest, hpost, hpr, hbody, processBody]
  · intro pr fs k hpost hpr hbody hk
    obtain ⟨lng, nsp⟩ := pr
    obtain ⟨⟨st1, added⟩, h1⟩ :=
      intakeLoop_str_ok nsp k (st.settings.languages.map (fun l => l.code)) st false
    obtain ⟨st2, h2⟩ := applyDefault_str_ok st1 lng nsp k (getProp (.obj fs) "defaultValue")
    have hkey : getProp (Json.obj fs) "key" = some (Json.str k) := hk
    have hpb : processBody st lng nsp (.obj fs) =
        .ok (st2, if added = true then [(nsp, [k])] else []) := by
      simp only [processBody, hkey, h1, h2]
    simp [handleRequest, hpost, hpr, hbody, hpb]

/-- Witness for C5 (amended): a matching `POST` with body
`{"key": "a"}` gets `200 {"ok": true}`, and `OPTIONS` gets `204`. -/
theorem C5_witness :
    (handleRequest ⟨⟨none, .namespaced, []⟩, []⟩
      ⟨"POST", "/locales/en-US/common", some (.obj [("key", .str "a")])⟩).2.2
      = ⟨200, .okTrue⟩
    ∧ handleRequest ⟨⟨none, .namespaced, []⟩, []⟩ ⟨"OPTIONS", "/x", none⟩
      = (⟨⟨none, .namespaced, []⟩, []⟩, [], ⟨204, .empty⟩) :=
  ⟨(C5_http_responses_amended ⟨⟨none, .namespaced, []⟩, []⟩
      ⟨"POST", "/locales/en-US/common", some (.obj [("key", .str "a")])⟩).2.2.2.2
      ("en-US", "common") [("key", .str "a")] "a" rfl (by decide) rfl (by simp [alistGet]),
   (C5_http_responses_amended ⟨⟨none, .namespaced, []⟩, []⟩
      ⟨"OPTIONS", "/x", none⟩).1 rfl⟩

/-- Counterexample to C5 as stated: the body `null` IS valid JSON, yet the
response is `400` with the invalid-JSON error body, not `200`. -/
theorem C5_counterexample :
    (handleRequest ⟨⟨none, .namespaced, []⟩, []⟩
      ⟨"POST", "/locales/en-US/common", some .null⟩).2.2 = ⟨400, .errInvalidJson⟩ := by
  decide

theorem importFolder_fold1 (rootPath : String) (dirListing : List (String × List String)) :
    ∀ (entries : List RootEntry) (init : List Language),
      entries.foldl
        (fun acc e =>
          if e.isDir && isLocaleName e.name then
            let files := scanJsonFiles (pathJoin rootPath e.name)
              ((alistGet dirListing e.name).getD [])
            if files.isEmpty then acc else acc ++ [⟨e.name, files⟩]
          else acc) init
      = init ++ nsScan rootPath entries dirListing := by
  intro entries
  induction entries with
  | nil => intro init; simp [nsScan]
  | cons e t ih =>
    intro init
    simp only [List.foldl_cons]
    rw [ih]
    by_cases h1 : e.isDir && isLocaleName e.name
    · simp only [Bool.and_eq_true] at h1
      obtain ⟨ha, hb⟩ := h1
      by_cases h2 : (scanJsonFiles (pathJoin rootPath e.name)
          ((alistGet dirListing e.name).getD [])).isEmpty
      · simp [ha, hb, h2, nsScan, List.filter_cons]
      · simp only [Bool.not_eq_true] at h2
        simp [ha, hb, h2, nsScan, List.filter_cons, List.append_assoc]
    · simp only [Bool.and_eq_true, not_and] at h1
      by_cases ha : e.isDir = true
      · have hb := h1 ha
        simp only [Bool.not_eq_true] at hb
        simp [ha, hb, nsScan, List.filter_cons]
      · simp only [Bool.not_eq_true] at ha
        simp [ha, nsScan, List.filter_cons]

theorem importFolder_fold2 (rootPath : String) :
    ∀ (entries : List RootEntry) (init : List Language),
      entries.foldl
        (fun acc e =>
          if (!e.isDir) && isLocaleJsonName e.name then
            acc ++ [⟨stripJsonExt e.name, [⟨pathJoin rootPath e.name, "default"⟩]⟩]
          else acc) init
      = init ++ flatScan rootPath entries := by
  intro entries
  induction entries with
  | nil => intro init; simp [flatScan]
  | cons e t ih =>
    intro init
    simp only [List.foldl_cons]
    rw [ih]
    by_cases h1 : (!e.isDir) && isLocaleJsonName e.name
    · simp only [Bool.and_eq_true, Bool.not_eq_true'] at h1
      obtain ⟨ha, hb⟩ := h1
      simp [ha, hb, flatScan, List.filter_cons, List.append_assoc]
    · simp only [Bool.and_eq_true, not_and, Bool.not_eq_true'] at h1
      by_cases ha : e.isDir = true
      · simp [ha, flatScan, List.filter_cons]
      · simp only [Bool.not_eq_true] at ha
        have hb := h1 ha
        simp only [Bool.not_eq_true] at hb
        simp [ha, hb, flatScan, List.filter_cons]

/-- C7: importing a root folder first scans for locale-named subdirectories
holding at least one `.json` file; if any is found the mode is `namespaced`
with one language per such directory and one `File` per contained `.json`
file (file name without extension = namespace).  Otherwise it scans
top-level `<locale>.json` files; if any is found the mode is `flat` with one
single-`default`-namespace language per file.  If neither scan finds
anything the mode is `namespaced` with zero languages.  In every case the
root folder is set and the prior language configuration is discarded (the
result does not depend on `settings.languages`). -/
theorem C7_importFolder_mode_detection (settings : AppSettings) (rootPath : String)
    (entries : List RootEntry) (dirListing : List (String × List String)) :
    (importFolder settings rootPath entries dirListing).rootFolder = some rootPath
    ∧ (nsScan rootPath entries dirListing ≠ [] →
        importFolder settings rootPath entries dirListing =
          ⟨some rootPath, .namespaced, nsScan rootPath entries dirListing⟩)
    ∧ (nsScan rootPath entries dirListing = [] → flatScan rootPath entries ≠ [] →
        importFolder settings rootPath entries dirListing =
          ⟨some rootPath, .flat, flatScan rootPath entries⟩)
    ∧ (nsScan rootPath entries dirListing = [] → flatScan rootPath entries = [] →
        importFolder settings rootPath entries dirListing =
          ⟨some rootPath, .namespaced, []⟩) := by
  have hchar : importFolder settings rootPath entries dirListing =
      (if (nsScan rootPath entries dirListing).isEmpty then
        (⟨some rootPath,
          if (flatScan rootPath entries).isEmpty then .namespaced else .flat,
          flatScan rootPath entries⟩ : AppSettings)
      else ⟨some rootPath, .namespaced, nsScan rootPath entries dirListing⟩) := by
    unfold importFolder
    rw [importFolder_fold1 rootPath dirListing entries [],
        importFolder_fold2 rootPath entries []]
    simp only [List.nil_append]
  refine ⟨?_, ?_, ?_, ?_⟩
  · rw [hchar]
    by_cases h : (nsScan rootPath entries dirListing).isEmpty
    · simp [h]
    · simp [h]
  · intro h
    rw [hchar, if_neg (by simpa [List.isEmpty_iff] using h)]
  · intro h h2
    rw [hchar, if_pos (by simp [h]), if_neg (by simpa [List.isEmpty_iff] using h2)]
  · intro h h2
    rw [hchar, if_pos (by simp [h]), if_pos (by simp [h2])]
    rw [h2]

/-- Witness for C7: a root with one locale directory containing one `.json`
file imports as `namespaced`, replacing the prior flat configuration. -/
theorem C7_witness :
    importFolder ⟨some "/old", .flat, [⟨"de-DE", []⟩]⟩ "/r"
      [⟨"en-US", true⟩, ⟨"notes.txt", false⟩] [("en-US", ["common.json", "README"])]
      = ⟨some "/r", .namespaced,
          nsScan "/r" [⟨"en-US", true⟩, ⟨"notes.txt", false⟩]
            [("en-US", ["common.json", "README"])]⟩ :=
  (C7_importFolder_mode_detection ⟨some "/old", .flat, [⟨"de-DE", []⟩]⟩ "/r"
    [⟨"en-US", true⟩, ⟨"notes.txt", false⟩] [("en-US", ["common.json", "README"])]).2.1
    (by decide)

theorem readAllMaps_aux (fs : FileSys) (n : String) :
    ∀ (langs : List Language) (acc : List (String × FlatJson) × List String),
      langs.foldl
        (fun acc lang =>
          match lang.files.find? (fun f => f.«namespace» = n) with
          | some f =>
            let flat := flattenFields (readJsonFile fs f.absolutePath) ""
            (alistPut acc.1 lang.code flat, addKeysTo acc.2 (flatKeys flat))
          | none => (alistPut acc.1 lang.code [], acc.2))
        acc
      = raFold fs n langs acc := by
  intro langs
  induction langs with
  | nil => intro acc; rfl
  | cons l rest ih =>
    intro acc
    simp only [List.foldl_cons]
    rw [ih]
    simp only [raFold]
    congr 1
    cases h : l.files.find? (fun f => f.«namespace» = n) with
    | none => simp [langFlat, h, flatKeys, addKeysTo]
    | some f => simp [langFlat, h]

theorem readAllMaps_eq (st : Store) (n : String) :
    readAllMaps st n = raFold st.fs n st.settings.languages ([], []) := by
  unfold readAllMaps
  exact readAllMaps_aux st.fs n st.settings.languages ([], [])

theorem raFold_fst_get_of_not_mem (fs : FileSys) (n : String) :
    ∀ (langs : List Language) (acc : List (String × FlatJson) × List String) (c : String),
      c ∉ langs.map (fun l => l.code) →
      alistGet (raFold fs n langs acc).1 c = alistGet acc.1 c := by
  intro langs
  induction langs with
  | nil => intro acc c _; rfl
  | cons l rest ih =>
    intro acc c h
    simp only [List.map_cons, List.mem_cons, not_or] at h
    obtain ⟨h1, h2⟩ := h
    simp only [raFold]
    rw [ih _ _ h2]
    exact alistGet_put_ne _ h1 _

theorem raFold_fst_get_self (fs : FileSys) (n : String) :
    ∀ (langs : List Language) (acc : List (String × FlatJson) × List String)
      (l : Language), l ∈ langs → (langs.map (fun l => l.code)).Nodup →
      alistGet (raFold fs n langs acc).1 l.code = some (langFlat fs n l) := by
  intro langs
  induction langs with
  | nil => intro acc l h; exact absurd h (List.not_mem_nil _)
  | cons l0 rest ih =>
    intro acc l hmem hnd
    simp only [List.map_cons, List.nodup_cons] at hnd
    obtain ⟨hn1, hn2⟩ := hnd
    rcases List.mem_cons.mp hmem with h | h
    · subst h
      simp only [raFold]
      rw [raFold_fst_get_of_not_mem fs n rest _ l.code hn1]
      exact alistGet_put_self _ _ _
    · simp only [raFold]
      exact ih _ l h hn2

theorem mem_addKeysTo : ∀ (ks acc : List String) (x : String),
    x ∈ addKeysTo acc ks ↔ x ∈ acc ∨ x ∈ ks := by
  intro ks
  induction ks with
  | nil => intro acc x; simp [addKeysTo]
  | cons k t ih =>
    intro acc x
    by_cases h : k ∈ acc
    · rw [show addKeysTo acc (k :: t) = addKeysTo acc t from by
        simp [addKeysTo, List.foldl_cons, h], ih]
      constructor
      · rintro (hx | hx)
        · exact Or.inl hx
        · exact Or.inr (List.mem_cons_of_mem _ hx)
      · rintro (hx | hx)
        · exact Or.inl hx
        · rcases List.mem_cons.mp hx with h1 | h1
          · exact Or.inl (h1 ▸ h)
          · exact Or.inr h1
    · rw [show addKeysTo acc (k :: t) = addKeysTo (acc ++ [k]) t from by
        simp [addKeysTo, List.foldl_cons, h], ih]
      simp [List.mem_append, List.mem_cons, or_assoc]

theorem mem_dedupFirst (l : List String) (x : String) : x ∈ dedupFirst l ↔ x ∈ l := by
  rw [show dedupFirst l = addKeysTo [] l from rfl, mem_addKeysTo]
  simp

theorem raFold_snd_mem (fs : FileSys) (n : String) :
    ∀ (langs : List Language) (acc : List (String × FlatJson) × List String) (k : String),
      k ∈ (raFold fs n langs acc).2 ↔
        k ∈ acc.2 ∨ ∃ l ∈ langs, k ∈ flatKeys (langFlat fs n l) := by
  intro langs
  induction langs with
  | nil => intro acc k; simp [raFold]
  | cons l0 rest ih =>
    intro acc k
    simp only [raFold]
    rw [ih, mem_addKeysTo (flatKeys (langFlat fs n l0)) acc.2 k]
    simp [List.exists_mem_cons_iff, or_assoc]

theorem find?_key_of_nodup {α : Type} (key : α → String) :
    ∀ (l : List α) (a : α), a ∈ l → (l.map key).Nodup →
      l.find? (fun x => key x = key a) = some a := by
  intro l
  induction l with
  | nil => intro a h _; exact absurd h (List.not_mem_nil _)
  | cons x t ih =>
    intro a hmem hnd
    simp only [List.map_cons, List.nodup_cons] at hnd
    obtain ⟨hx, ht⟩ := hnd
    rcases List.mem_cons.mp hmem with h | h
    · subst h
      rw [List.find?_cons_of_pos _ (by simp)]
    · have hne : key x ≠ key a := by
        intro he
        exact hx (he ▸ List.mem_map_of_mem key h)
      rw [List.find?_cons_of_neg _ (by simp [hne])]
      exact ih a h ht

theorem alistGet_map_fn {β : Type} (g : String → β) :
    ∀ (codes : List String) (c : String), c ∈ codes →
      alistGet (codes.map (fun c => (c, g c))) c = some (g c) := by
  intro codes
  induction codes with
  | nil => intro c h; exact absurd h (List.not_mem_nil _)
  | cons c0 t ih =>
    intro c h
    rw [List.map_cons, alistGet_cons]
    by_cases h0 : c0 = c
    · rw [if_pos h0, h0]
    · rw [if_neg h0]
      exact ih c (by rcases List.mem_cons.mp h with h1 | h1; exact absurd h1.symm h0; exact h1)

theorem map_namespace_mk (f : String → List KeyEntry) (ns : List String) :
    ((ns.map (fun n => (⟨n, f n⟩ : NamespaceData))).map (fun nd => nd.«namespace»)) = ns := by
  induction ns with
  | nil => rfl
  | cons a t ih => simp only [List.map_cons, ih]

theorem map_key_mk (g : String → List (String × Option String)) (ks : List String) :
    ((ks.map (fun k => (⟨k, g k⟩ : KeyEntry))).map (fun e => e.key)) = ks := by
  induction ks with
  | nil => rfl
  | cons a t ih => simp only [List.map_cons, ih]

/-- C4: under distinct configured language codes and per-language distinct
file namespaces, `readAll` returns the namespaces sorted by the
case-insensitive base comparator, one aggregate per namespace appearing in
any language's file list; each aggregate's keys are sorted the same way and
contain every key of every language's flattened file for that namespace;
and each key row's `values` binds every configured code to the flattened
lookup in that language's file (`none`, i.e. `null`, when the language has
no file for the namespace or the file lacks the key).  The final conjunct is
the spec's example: `en-US` has `k = "hello"`, `fr-FR` has no file, and the
row reads `(en-US, some "hello"), (fr-FR, none)`. -/
theorem C4_readAll_aggregates (st : Store)
    (hcodes : (st.settings.languages.map (fun l => l.code)).Nodup)
    (hfiles : ∀ l ∈ st.settings.languages, (l.files.map (fun f => f.«namespace»)).Nodup) :
    ((readAll st).map (fun nd => nd.«namespace»)).Sorted baseLe
    ∧ (∀ n, (∃ nd ∈ readAll st, nd.«namespace» = n) ↔
        ∃ l ∈ st.settings.languages, ∃ f ∈ l.files, f.«namespace» = n)
    ∧ (∀ nd ∈ readAll st, (nd.keys.map (fun e => e.key)).Sorted baseLe)
    ∧ (∀ nd ∈ readAll st, ∀ l ∈ st.settings.languages, ∀ f ∈ l.files,
        f.«namespace» = nd.«namespace» →
        ∀ k ∈ flatKeys (flattenFields (readJsonFile st.fs f.absolutePath) ""),
          ∃ e ∈ nd.keys, e.key = k)
    ∧ (∀ nd ∈ readAll st, ∀ e ∈ nd.keys, ∀ l ∈ st.settings.languages,
        alistGet e.values l.code = some (flatLookup (langFlat st.fs nd.«namespace» l) e.key))
    ∧ readAll ⟨⟨some "/r", .flat,
          [⟨"en-US", [⟨"/r/en-US.json", "default"⟩]⟩, ⟨"fr-FR", []⟩]⟩,
        [("/r/en-US.json", [("k", .str "hello")])]⟩
      = [⟨"default", [⟨"k", [("en-US", some "hello"), ("fr-FR", none)]⟩]⟩] := by
  have hform : readAll st =
      (List.insertionSort baseLe (dedupFirst
          (st.settings.languages.flatMap (fun l => l.files.map (fun f => f.«namespace»))))).map
        (fun n => ⟨n, (List.insertionSort baseLe (readAllMaps st n).2).map
          (fun k => ⟨k, (st.settings.languages.map (fun l => l.code)).map
            (fun c => (c, match alistGet (readAllMaps st n).1 c with
              | some fl => flatLookup fl k
              | none => none))⟩)⟩) := rfl
  have hnsmap : (readAll st).map (fun nd => nd.«namespace») =
      List.insertionSort baseLe (dedupFirst
        (st.settings.languages.flatMap (fun l => l.files.map (fun f => f.«namespace»)))) := by
    rw [hform, map_namespace_mk]
  refine ⟨?_, ?_, ?_, ?_, ?_, ?_⟩
  · rw [hnsmap]
    exact List.sorted_insertionSort baseLe _
  · intro n
    rw [show (∃ nd ∈ readAll st, nd.«namespace» = n) ↔
        n ∈ (readAll st).map (fun nd => nd.«namespace») from by simp [List.mem_map]]
    rw [hnsmap, (List.perm_insertionSort baseLe _).mem_iff, mem_dedupFirst]
    simp [List.mem_flatMap, List.mem_map]
  · intro nd hnd
    rw [hform] at hnd
    obtain ⟨n, hn, rfl⟩ := List.mem_map.mp hnd
    dsimp only
    rw [map_key_mk]
    exact List.sorted_insertionSort baseLe _
  · intro nd hnd l hl f hf hns k hk
    rw [hform] at hnd
    obtain ⟨n, hn, rfl⟩ := List.mem_map.mp hnd
    have hfn : f.«namespace» = n := hns
    have hfind : l.files.find? (fun g => g.«namespace» = n) = some f := by
      rw [← hfn]
      exact find?_key_of_nodup (fun g => g.«namespace») l.files f hf (hfiles l hl)
    have hlf : langFlat st.fs n l = flattenFields (readJsonFile st.fs f.absolutePath) "" := by
      simp [langFlat, hfind]
    have hk2 : k ∈ (readAllMaps st n).2 := by
      rw [readAllMaps_eq]
      exact (raFold_snd_mem st.fs n st.settings.languages ([], []) k).mpr
        (Or.inr ⟨l, hl, by rw [hlf]; exact hk⟩)
    exact ⟨_, List.mem_map_of_mem _ ((List.perm_insertionSort baseLe _).mem_iff.mpr hk2), rfl⟩
  · intro nd hnd e he l hl
    rw [hform] at hnd
    obtain ⟨n, hn, rfl⟩ := List.mem_map.mp hnd
    obtain ⟨k, hk, rfl⟩ := List.mem_map.mp he
    have hget : alistGet (readAllMaps st n).1 l.code = some (langFlat st.fs n l) := by
      rw [readAllMaps_eq]
      exact raFold_fst_get_self st.fs n st.settings.languages ([], []) l hl hcodes
    rw [alistGet_map_fn _ _ _ (List.mem_map_of_mem (fun l => l.code) hl)]
    rw [hget]
  · simp [readAll, readAllMaps, dedupFirst, addKeysTo, flattenFields, objAssignS, fullKey,
      alistPut, alistGet, flatKeys, flatLookup, jsLeafString, List.insertionSort,
      List.orderedInsert, List.find?, readJsonFile, Option.getD]

/-- Witness for C4 on the spec's two-language example store. -/
theorem C4_witness :
    ((readAll ⟨⟨some "/r", .flat,
          [⟨"en-US", [⟨"/r/en-US.json", "default"⟩]⟩, ⟨"fr-FR", []⟩]⟩,
        [("/r/en-US.json", [("k", .str "hello")])]⟩).map (fun nd => nd.«namespace»)).Sorted baseLe
    ∧ readAll ⟨⟨some "/r", .flat,
          [⟨"en-US", [⟨"/r/en-US.json", "default"⟩]⟩, ⟨"fr-FR", []⟩]⟩,
        [("/r/en-US.json", [("k", .str "hello")])]⟩
      = [⟨"default", [⟨"k", [("en-US", some "hello"), ("fr-FR", none)]⟩]⟩] :=
  have h := C4_readAll_aggregates
    ⟨⟨some "/r", .flat, [⟨"en-US", [⟨"/r/en-US.json", "default"⟩]⟩, ⟨"fr-FR", []⟩]⟩,
      [("/r/en-US.json", [("k", .str "hello")])]⟩
    (by decide) (by decide)
  ⟨h.1, h.2.2.2.2.2⟩

theorem sortDeepEach_eq_map : ∀ (fs : Obj),
    sortDeepEach fs = fs.map (fun e => (e.1, sortDeepVal e.2)) := by
  intro fs
  induction fs with
  | nil => rfl
  | cons e t ih =>
    obtain ⟨k, v⟩ := e
    simp [sortDeepEach, ih]

theorem keys_sortDeepEach (fs : Obj) :
    (sortDeepEach fs).map Prod.fst = fs.map Prod.fst := by
  induction fs with
  | nil => rfl
  | cons e t ih =>
    obtain ⟨k, v⟩ := e
    simp [sortDeepEach, ih]

theorem sortDeepEach_eq_nil {fs : Obj} (h : sortDeepEach fs = []) : fs = [] := by
  cases fs with
  | nil => rfl
  | cons e t =>
    obtain ⟨k, v⟩ := e
    simp [sortDeepEach] at h

theorem goodFields_iff_forall : ∀ (l : Obj),
    goodFields l ↔ (∀ kv ∈ l, goodKey kv.1 ∧ goodVal kv.2) ∧ (l.map Prod.fst).Nodup := by
  intro l
  induction l with
  | nil => simp [goodFields]
  | cons e t ih =>
    obtain ⟨k, v⟩ := e
    rw [goodFields_cons_iff, ih]
    simp only [List.map_cons, List.nodup_cons, List.mem_cons, forall_eq_or_imp]
    tauto

theorem goodFields_perm {l l' : Obj} (hp : l.Perm l') (h : goodFields l) : goodFields l' := by
  rw [goodFields_iff_forall] at h ⊢
  exact ⟨fun kv hkv => h.1 kv (hp.mem_iff.mpr hkv),
    (List.Perm.nodup_iff (hp.map Prod.fst)).mp h.2⟩

mutual

theorem goodFields_sortDeepEach : ∀ (fs : Obj), goodFields fs → goodFields (sortDeepEach fs)
  | [], h => h
  | (k, v) :: rest, h => by
    rw [goodFields_cons_iff] at h
    show goodFields ((k, sortDeepVal v) :: sortDeepEach rest)
    rw [goodFields_cons_iff, keys_sortDeepEach]
    exact ⟨h.1, goodVal_sortDeepVal v h.2.1, h.2.2.1, goodFields_sortDeepEach rest h.2.2.2⟩

theorem goodVal_sortDeepVal : ∀ (v : Json), goodVal v → goodVal (sortDeepVal v)
  | .obj fs, h =>
    goodFields_perm (List.perm_insertionSort fieldLe (sortDeepEach fs)).symm
      (goodFields_sortDeepEach fs h)
  | .str _, h => h
  | .num _, h => h
  | .bool _, h => h
  | .null, h => h
  | .arr _, h => h

end

theorem primFields_iff_forall : ∀ (l : Obj), primFields l ↔ ∀ kv ∈ l, primVal kv.2 := by
  intro l
  induction l with
  | nil => simp [primFields]
  | cons e t ih =>
    obtain ⟨k, v⟩ := e
    rw [primFields_cons_iff, ih]
    simp only [List.mem_cons, forall_eq_or_imp]

theorem primFields_perm {l l' : Obj} (hp : l.Perm l') (h : primFields l) : primFields l' := by
  rw [primFields_iff_forall] at h ⊢
  exact fun kv hkv => h kv (hp.mem_iff.mpr hkv)

mutual

theorem primFields_sortDeepEach : ∀ (fs : Obj), primFields fs → primFields (sortDeepEach fs)
  | [], h => h
  | (k, v) :: rest, h => by
    rw [primFields_cons_iff] at h
    show primFields ((k, sortDeepVal v) :: sortDeepEach rest)
    rw [primFields_cons_iff]
    exact ⟨primVal_sortDeepVal v h.1, primFields_sortDeepEach rest h.2⟩

theorem primVal_sortDeepVal : ∀ (v : Json), primVal v → primVal (sortDeepVal v)
  | .obj fs, h => by
    show primVal (.obj (List.insertionSort fieldLe (sortDeepEach fs)))
    refine ⟨?_, primFields_perm (List.perm_insertionSort fieldLe (sortDeepEach fs)).symm
      (primFields_sortDeepEach fs h.2)⟩
    intro hnil
    have hperm := List.perm_insertionSort fieldLe (sortDeepEach fs)
    rw [hnil] at hperm
    exact h.1 (sortDeepEach_eq_nil hperm.symm.eq_nil)
  | .str _, h => h
  | .num _, h => h
  | .bool _, h => h
  | .null, h => h
  | .arr _, h => h

end

theorem flatten_eq_flatMap : ∀ {fields : Obj} (pre : String), goodFields fields →
    flattenFields fields pre = fields.flatMap (fun e => contribOf pre e.1 e.2) := by
  intro fields
  induction fields with
  | nil => intro pre _; simp [flattenFields_nil]
  | cons e rest ih =>
    obtain ⟨k, v⟩ := e
    intro pre h
    rw [flattenFields_cons_good pre h, List.flatMap_cons,
      ih pre (goodFields_cons_iff.mp h).2.2.2]

theorem perm_flatMap {α β : Type} {l1 l2 : List α} (h : l1.Perm l2) (f : α → List β) :
    (l1.flatMap f).Perm (l2.flatMap f) := by
  induction h with
  | nil => exact List.Perm.refl _
  | cons x _ ih =>
    simp only [List.flatMap_cons]
    exact List.Perm.append_left _ ih
  | swap x y t =>
    simp only [List.flatMap_cons]
    rw [← List.append_assoc, ← List.append_assoc]
    exact List.Perm.append_right _ List.perm_append_comm
  | trans _ _ ih1 ih2 => exact ih1.trans ih2

theorem flatMap_perm_congr {α β : Type} {l : List α} {f g : α → List β}
    (h : ∀ e ∈ l, (f e).Perm (g e)) : (l.flatMap f).Perm (l.flatMap g) := by
  induction l with
  | nil => exact List.Perm.refl _
  | cons a t ih =>
    simp only [List.flatMap_cons]
    exact List.Perm.append (h a (List.mem_cons_self a t))
      (ih (fun e he => h e (List.mem_cons_of_mem _ he)))

theorem flatMap_map_fuse {α β γ : Type} (f : α → β) (g : β → List γ) :
    ∀ l : List α, (l.map f).flatMap g = l.flatMap (fun a => g (f a)) := by
  intro l
  induction l with
  | nil => rfl
  | cons a t ih => simp only [List.map_cons, List.flatMap_cons, ih]

mutual

theorem flatten_sortDeepF_perm (fields : Obj) (pre : String) (h : goodFields fields) :
    (flattenFields (sortDeepF fields) pre).Perm (flattenFields fields pre) := by
  have h1 : goodFields (sortDeepEach fields) := goodFields_sortDeepEach fields h
  have h2 : goodFields (sortDeepF fields) :=
    goodFields_perm (List.perm_insertionSort fieldLe (sortDeepEach fields)).symm h1
  rw [flatten_eq_flatMap pre h2, flatten_eq_flatMap pre h]
  have hA : ((sortDeepF fields).flatMap (fun e => contribOf pre e.1 e.2)).Perm
      ((sortDeepEach fields).flatMap (fun e => contribOf pre e.1 e.2)) :=
    perm_flatMap (List.perm_insertionSort fieldLe (sortDeepEach fields)) _
  have hB : ((sortDeepEach fields).flatMap (fun e => contribOf pre e.1 e.2)).Perm
      (fields.flatMap (fun e => contribOf pre e.1 e.2)) := by
    rw [sortDeepEach_eq_map, flatMap_map_fuse]
    exact flatMap_perm_congr (fun e he =>
      contrib_sortDeepVal_perm pre e.1 e.2 (goodFields_val_mem h he))
  exact hA.trans hB
termination_by sizeOf fields
decreasing_by
  have h1 := List.sizeOf_lt_of_mem he
  obtain ⟨a, b⟩ := e
  simp only [Prod.mk.sizeOf_spec] at h1
  show sizeOf b < sizeOf fields
  omega

theorem contrib_sortDeepVal_perm (pre k : String) (v : Json) (h : goodVal v) :
    (contribOf pre k (sortDeepVal v)).Perm (contribOf pre k v) := by
  cases v with
  | obj fs =>
    show (contribOf pre k (.obj (List.insertionSort fieldLe (sortDeepEach fs)))).Perm _
    simp only [contribOf]
    exact flatten_sortDeepF_perm fs (fullKey pre k) h
  | str s => exact List.Perm.refl _
  | num n => exact List.Perm.refl _
  | bool b => exact List.Perm.refl _
  | null => exact List.Perm.refl _
  | arr es => exact List.Perm.refl _
termination_by sizeOf v
decreasing_by
  rename_i heq
  subst heq
  simp only [Json.obj.sizeOf_spec]
  omega

end

theorem goodFields_sortDeepF {fs : Obj} (h : goodFields fs) : goodFields (sortDeepF fs) :=
  goodFields_perm (List.perm_insertionSort fieldLe (sortDeepEach fs)).symm
    (goodFields_sortDeepEach fs h)

theorem primFields_sortDeepF {fs : Obj} (h : primFields fs) : primFields (sortDeepF fs) :=
  primFields_perm (List.perm_insertionSort fieldLe (sortDeepEach fs)).symm
    (primFields_sortDeepEach fs h)

theorem alistPut_ne_nil {α : Type} (l : List (String × α)) (k : String) (v : α) :
    alistPut l k v ≠ [] := by
  cases l with
  | nil => simp [alistPut_nil]
  | cons e t =>
    obtain ⟨k0, v0⟩ := e
    rw [alistPut_cons]
    by_cases h : k0 = k <;> simp [h]

theorem setParts_ne_nil : ∀ (parts : List String) (fields : Obj) (v : String),
    parts ≠ [] → setParts fields parts v ≠ [] := by
  intro parts fields v hne
  cases parts with
  | nil => exact absurd rfl hne
  | cons p rest =>
    cases rest with
    | nil =>
      rw [setParts_single]
      exact alistPut_ne_nil _ _ _
    | cons q t =>
      rcases hget : alistGet fields p with _ | w
      · simpa [setParts, hget] using alistPut_ne_nil fields p (.obj (setParts [] (q :: t) v))
      · cases w with
        | obj sub =>
          simpa [setParts, hget] using alistPut_ne_nil fields p (.obj (setParts sub (q :: t) v))
        | arr es =>
          intro hf
          rw [show setParts fields (p :: q :: t) v = fields from by simp [setParts, hget]] at hf
          rw [hf, alistGet_nil] at hget
          cases hget
        | str s2 =>
          simpa [setParts, hget] using alistPut_ne_nil fields p (.obj (setParts [] (q :: t) v))
        | num n2 =>
          simpa [setParts, hget] using alistPut_ne_nil fields p (.obj (setParts [] (q :: t) v))
        | bool b2 =>
          simpa [setParts, hget] using alistPut_ne_nil fields p (.obj (setParts [] (q :: t) v))
        | null =>
          simpa [setParts, hget] using alistPut_ne_nil fields p (.obj (setParts [] (q :: t) v))

theorem primFields_alistPut {l : Obj} (h : primFields l) (k : String) {v : Json}
    (hv : primVal v) : primFields (alistPut l k v) := by
  induction l with
  | nil =>
    rw [alistPut_nil, primFields_cons_iff]
    exact ⟨hv, primFields_nil⟩
  | cons e t ih =>
    obtain ⟨k0, v0⟩ := e
    rw [primFields_cons_iff] at h
    rw [alistPut_cons]
    by_cases h0 : k0 = k
    · rw [if_pos h0, primFields_cons_iff]
      exact ⟨hv, h.2⟩
    · rw [if_neg h0, primFields_cons_iff]
      exact ⟨h.1, ih h.2⟩

theorem primVal_of_get {l : Obj} (h : primFields l) {p : String} {w : Json}
    (hget : alistGet l p = some w) : primVal w :=
  (primFields_iff_forall l).mp h (p, w) (alistGet_mem hget)

theorem primFields_setParts : ∀ (parts : List String) (fields : Obj) (v : String),
    primFields fields → parts ≠ [] → primFields (setParts fields parts v) := by
  intro parts
  induction parts with
  | nil => intro fields v _ hne; exact absurd rfl hne
  | cons p rest ih =>
    intro fields v h _
    cases rest with
    | nil =>
      rw [setParts_single]
      exact primFields_alistPut h p (by simp [primVal])
    | cons q t =>
      have hsub : ∀ (base : Obj), primFields base →
          primVal (.obj (setParts base (q :: t) v)) := fun base hb =>
        ⟨setParts_ne_nil (q :: t) base v (by simp), ih base v hb (by simp)⟩
      rcases hget : alistGet fields p with _ | w
      · simpa [setParts, hget] using primFields_alistPut h p (hsub [] primFields_nil)
      · cases w with
        | obj sub =>
          have hps : primFields sub := by
            have := primVal_of_get h hget
            exact this.2
          simpa [setParts, hget] using primFields_alistPut h p (hsub sub hps)
        | arr es => exact (primVal_of_get h hget).elim
        | null => exact (primVal_of_get h hget).elim
        | str s2 => simpa [setParts, hget] using primFields_alistPut h p (hsub [] primFields_nil)
        | num n2 => simpa [setParts, hget] using primFields_alistPut h p (hsub [] primFields_nil)
        | bool b2 => simpa [setParts, hget] using primFields_alistPut h p (hsub [] primFields_nil)

theorem setClear_of_prim : ∀ (parts : List String) (fields : Obj),
    primFields fields → setClear fields parts := by
  intro parts
  induction parts with
  | nil => intro fields _; simp [setClear]
  | cons p rest ih =>
    intro fields h
    cases rest with
    | nil => simp [setClear]
    | cons q t =>
      rcases hget : alistGet fields p with _ | w
      · simp [setClear, hget]
      · cases w with
        | obj sub =>
          have hps : primFields sub := (primVal_of_get h hget).2
          simpa [setClear, hget] using ih sub hps
        | arr es => exact (primVal_of_get h hget).elim
        | null => simp [setClear, hget]
        | str s2 => simp [setClear, hget]
        | num n2 => simp [setClear, hget]
        | bool b2 => simp [setClear, hget]

/-- Everything the `addKey` write establishes about the written document. -/
theorem addKey_write_props (c : Obj) (key : String)
    (hg : goodFields c) (hp : primFields c)
    (hq : ∀ q ∈ jsSplitDot key, q ≠ "") :
    goodFields (sortDeepF (setParts c (jsSplitDot key) ""))
    ∧ primFields (sortDeepF (setParts c (jsSplitDot key) ""))
    ∧ key ∈ flatKeys (flattenFields (sortDeepF (setParts c (jsSplitDot key) "")) "") := by
  have hgk : ∀ q ∈ jsSplitDot key, goodKey q :=
    fun q hqm => ⟨hq q hqm, jsSplitDot_dotFree key q hqm⟩
  have hne := jsSplitDot_ne_nil key
  have hS : goodFields (setParts c (jsSplitDot key) "") := setParts_goodFields _ _ hg hgk
  have hSp : primFields (setParts c (jsSplitDot key) "") :=
    primFields_setParts _ _ _ hp hne
  refine ⟨goodFields_sortDeepF hS, primFields_sortDeepF hSp, ?_⟩
  have hjoin : joinKey "" (jsSplitDot key) = key := by
    rcases hsp : jsSplitDot key with _ | ⟨p, rest⟩
    · exact absurd hsp (jsSplitDot_ne_nil key)
    · rw [joinKey_empty_eq_joinDots (by
        apply hq
        rw [hsp]
        exact List.mem_cons_self _ _), ← hsp, joinDots_jsSplitDot]
  have hlook := set_flatten_lookup (jsSplitDot key) c "" "" hg hgk hne
    (setClear_of_prim _ c hp)
  rw [hjoin] at hlook
  have hmem : key ∈ flatKeys (flattenFields (setParts c (jsSplitDot key) "") "") := by
    rw [flatKeys]
    exact alistGet_isSome_iff.mp (by rw [show alistGet (flattenFields (setParts c (jsSplitDot key) "") "") key = some "" from hlook]; rfl)
  rw [flatKeys]
  exact ((flatten_sortDeepF_perm (setParts c (jsSplitDot key) "") "" hS).map Prod.fst).mem_iff.mpr hmem

theorem addKeyStep_no_lang (nsp key : String) (s : Store) (c : String)
    (h : s.settings.languages.find? (fun l => l.code = c) = none) :
    addKeyStep nsp key s c = s := by
  unfold addKeyStep ensureFile
  rw [h]

theorem addKeyStep_found (nsp key : String) (s : Store) (c : String)
    (lang : Language) (f : TranslationFile)
    (hfind : s.settings.languages.find? (fun l => l.code = c) = some lang)
    (hfile : lang.files.find? (fun g => g.«namespace» = nsp) = some f) :
    addKeyStep nsp key s c =
      if key ∈ flatKeys (flattenFields (readJsonFile s.fs f.absolutePath) "") then s
      else ⟨s.settings, writeJsonFile s.fs f.absolutePath
        (setNestedValue (readJsonFile s.fs f.absolutePath) key "")⟩ := by
  unfold addKeyStep ensureFile
  rw [hfind]
  by_cases hk : key ∈ flatKeys (flattenFields (readJsonFile s.fs f.absolutePath) "")
  · rw [if_pos hk]
    simp [hfile, hk]
  · rw [if_neg hk]
    simp [hfile, hk]

theorem foldl_fixed {α β : Type} (f : β → α → β) (s : β) :
    ∀ l : List α, (∀ a ∈ l, f s a = s) → l.foldl f s = s := by
  intro l
  induction l with
  | nil => intro _; rfl
  | cons a t ih =>
    intro h
    rw [List.foldl_cons, h a (List.mem_cons_self a t)]
    exact ih (fun x hx => h x (List.mem_cons_of_mem _ hx))

theorem addKey_loop (nsp key : String) (S : AppSettings)
    (hfiles : ∀ l ∈ S.languages, ∃ f, l.files.find? (fun g => g.«namespace» = nsp) = some f)
    (hq : ∀ q ∈ jsSplitDot key, q ≠ "") :
    ∀ (codes : List String) (fs : FileSys),
      (∀ p cc, alistGet fs p = some cc → goodFields cc ∧ primFields cc) →
      (codes.foldl (fun x c => addKeyStep nsp key x c) ⟨S, fs⟩).settings = S
      ∧ (∀ p cc,
          alistGet (codes.foldl (fun x c => addKeyStep nsp key x c) ⟨S, fs⟩).fs p = some cc →
          goodFields cc ∧ primFields cc)
      ∧ (∀ p, key ∈ flatKeys (flattenFields (readJsonFile fs p) "") →
          key ∈ flatKeys (flattenFields
            (readJsonFile (codes.foldl (fun x c => addKeyStep nsp key x c) ⟨S, fs⟩).fs p) ""))
      ∧ (∀ c ∈ codes, ∀ lang, S.languages.find? (fun l => l.code = c) = some lang →
          ∀ f, lang.files.find? (fun g => g.«namespace» = nsp) = some f →
          key ∈ flatKeys (flattenFields
            (readJsonFile (codes.foldl (fun x c => addKeyStep nsp key x c) ⟨S, fs⟩).fs
              f.absolutePath) "")) := by
  intro codes
  induction codes with
  | nil =>
    intro fs hfs
    exact ⟨rfl, hfs, fun p hp => hp, fun c hc => absurd hc (List.not_mem_nil c)⟩
  | cons c rest ih =>
    intro fs hfs
    have hread : ∀ p, goodFields (readJsonFile fs p) ∧ primFields (readJsonFile fs p) := by
      intro p
      rcases hg : alistGet fs p with _ | cc
      · simp [readJsonFile, hg, goodFields_nil, primFields_nil]
      · simpa [readJsonFile, hg] using hfs p cc hg
    rcases hfind : S.languages.find? (fun l => l.code = c) with _ | lang
    · have hstep : addKeyStep nsp key ⟨S, fs⟩ c = ⟨S, fs⟩ := addKeyStep_no_lang nsp key _ c hfind
      rw [List.foldl_cons, hstep]
      obtain ⟨h1, h2, h3, h4⟩ := ih fs hfs
      refine ⟨h1, h2, h3, ?_⟩
      intro c0 hc0 lang hl f hf
      rcases List.mem_cons.mp hc0 with rfl | hc0
      · rw [hfind] at hl; cases hl
      · exact h4 c0 hc0 lang hl f hf
    · obtain ⟨f, hfile⟩ := hfiles lang (List.mem_of_find?_eq_some hfind)
      have hstep := addKeyStep_found nsp key ⟨S, fs⟩ c lang f hfind hfile
      by_cases hk : key ∈ flatKeys (flattenFields (readJsonFile fs f.absolutePath) "")
      · rw [if_pos hk] at hstep
        rw [List.foldl_cons, hstep]
        obtain ⟨h1, h2, h3, h4⟩ := ih fs hfs
        refine ⟨h1, h2, h3, ?_⟩
        intro c0 hc0 lang0 hl0 f0 hf0
        rcases List.mem_cons.mp hc0 with rfl | hc0
        · rw [hfind] at hl0
          cases hl0
          rw [hfile] at hf0
          cases hf0
          exact h3 f.absolutePath hk
        · exact h4 c0 hc0 lang0 hl0 f0 hf0
      · rw [if_neg hk] at hstep
        have hcprops := addKey_write_props (readJsonFile fs f.absolutePath) key
          (hread f.absolutePath).1 (hread f.absolutePath).2 hq
        have hw : writeJsonFile fs f.absolutePath
            (setNestedValue (readJsonFile fs f.absolutePath) key "") =
            alistPut fs f.absolutePath
              (sortDeepF (setParts (readJsonFile fs f.absolutePath) (jsSplitDot key) "")) := rfl
        have hfs' : ∀ p cc,
            alistGet (alistPut fs f.absolutePath
              (sortDeepF (setParts (readJsonFile fs f.absolutePath) (jsSplitDot key) ""))) p =
              some cc →
            goodFields cc ∧ primFields cc := by
          intro p cc hg
          by_cases hp : p = f.absolutePath
          · subst hp
            rw [alistGet_put_self] at hg
            cases hg
            exact ⟨hcprops.1, hcprops.2.1⟩
          · rw [alistGet_put_ne _ hp _] at hg
            exact hfs p cc hg
        have hkeyp : ∀ p, key ∈ flatKeys (flattenFields (readJsonFile fs p) "") →
            key ∈ flatKeys (flattenFields (readJsonFile
              (alistPut fs f.absolutePath
                (sortDeepF (setParts (readJsonFile fs f.absolutePath) (jsSplitDot key) ""))) p) "") := by
          intro p hp
          by_cases hpe : p = f.absolutePath
          · subst hpe
            rw [readJsonFile, alistGet_put_self, Option.getD_some]
            exact hcprops.2.2
          · rw [readJsonFile, alistGet_put_ne _ hpe _]
            exact hp
        rw [List.foldl_cons, hstep, hw]
        obtain ⟨h1, h2, h3, h4⟩ := ih _ hfs'
        refine ⟨h1, h2, fun p hp => h3 p (hkeyp p hp), ?_⟩
        intro c0 hc0 lang0 hl0 f0 hf0
        rcases List.mem_cons.mp hc0 with rfl | hc0
        · rw [hfind] at hl0
          cases hl0
          rw [hfile] at hf0
          cases hf0
          apply h3
          rw [readJsonFile, alistGet_put_self, Option.getD_some]
          exact hcprops.2.2
        · exact h4 c0 hc0 lang0 hl0 f0 hf0

theorem addKey_frame (nsp key : String) (S : AppSettings)
    (hfiles : ∀ l ∈ S.languages, ∃ f, l.files.find? (fun g => g.«namespace» = nsp) = some f)
    (tpath : String) :
    ∀ (codes : List String) (fs : FileSys),
      key ∈ flatKeys (flattenFields (readJsonFile fs tpath) "") →
      readJsonFile ((codes.foldl (fun x c => addKeyStep nsp key x c) ⟨S, fs⟩).fs) tpath =
        readJsonFile fs tpath := by
  intro codes
  induction codes with
  | nil => intro fs _; rfl
  | cons c rest ih =>
    intro fs hkey
    rcases hfind : S.languages.find? (fun l => l.code = c) with _ | lang
    · rw [List.foldl_cons, addKeyStep_no_lang nsp key _ c hfind]
      exact ih fs hkey
    · obtain ⟨f, hfile⟩ := hfiles lang (List.mem_of_find?_eq_some hfind)
      have hstep := addKeyStep_found nsp key ⟨S, fs⟩ c lang f hfind hfile
      by_cases hk : key ∈ flatKeys (flattenFields (readJsonFile fs f.absolutePath) "")
      · rw [if_pos hk] at hstep
        rw [List.foldl_cons, hstep]
        exact ih fs hkey
      · rw [if_neg hk] at hstep
        have hne : f.absolutePath ≠ tpath := by
          intro he
          rw [he] at hk
          exact hk hkey
        rw [List.foldl_cons, hstep]
        have hw : writeJsonFile fs f.absolutePath
            (setNestedValue (readJsonFile fs f.absolutePath) key "") =
            alistPut fs f.absolutePath
              (sortDeepF (setParts (readJsonFile fs f.absolutePath) (jsSplitDot key) "")) := rfl
        rw [hw]
        have hrd : readJsonFile (alistPut fs f.absolutePath
            (sortDeepF (setParts (readJsonFile fs f.absolutePath) (jsSplitDot key) ""))) tpath =
            readJsonFile fs tpath := by
          rw [readJsonFile, alistGet_put_ne _ (Ne.symm hne) _]
          rfl
        rw [ih _ (by rw [hrd]; exact hkey), hrd]

/-- C2: `addKey` does not overwrite existing keys and is idempotent.
(1) If every configured language's file for the namespace already contains
the flattened key, `addKey` is a complete no-op on the whole state.
(2) For any language whose file for the namespace already contains the key,
`addKey` leaves that file's on-disk content byte-identical (requiring only
that every language has a file record, so no new files are created).
(3) Calling `addKey` twice leaves every file identical to after the first
call — the second call changes nothing (for well-formed on-disk documents:
object keys nonempty, dot-free, pairwise distinct, leaves
string/number/boolean, and a key whose dot segments are nonempty). -/
theorem C2_addKey_idempotent (st : Store) (nsp key : String) :
    ((∀ l ∈ st.settings.languages, ∃ f,
        l.files.find? (fun g => g.«namespace» = nsp) = some f ∧
        key ∈ flatKeys (flattenFields (readJsonFile st.fs f.absolutePath) "")) →
      addKey st nsp key = st)
    ∧ ((∀ l ∈ st.settings.languages, ∃ f,
          l.files.find? (fun g => g.«namespace» = nsp) = some f) →
        ∀ l ∈ st.settings.languages, ∀ f,
          l.files.find? (fun g => g.«namespace» = nsp) = some f →
          key ∈ flatKeys (flattenFields (readJsonFile st.fs f.absolutePath) "") →
          readJsonFile (addKey st nsp key).fs f.absolutePath =
            readJsonFile st.fs f.absolutePath)
    ∧ ((∀ l ∈ st.settings.languages, ∃ f,
          l.files.find? (fun g => g.«namespace» = nsp) = some f) →
        (∀ p c, alistGet st.fs p = some c → goodFields c ∧ primFields c) →
        (∀ q ∈ jsSplitDot key, q ≠ "") →
        addKey (addKey st nsp key) nsp key = addKey st nsp key) := by
  refine ⟨?_, ?_, ?_⟩
  · intro h
    show (st.settings.languages.map (fun l => l.code)).foldl
      (fun s c => addKeyStep nsp key s c) st = st
    apply foldl_fixed
    intro c hc
    obtain ⟨l, hl, rfl⟩ := List.mem_map.mp hc
    rcases hf2 : st.settings.languages.find? (fun x => x.code = l.code) with _ | lang
    · exact addKeyStep_no_lang nsp key st l.code hf2
    · obtain ⟨f, hfile, hkey⟩ := h lang (List.mem_of_find?_eq_some hf2)
      rw [addKeyStep_found nsp key st l.code lang f hf2 hfile, if_pos hkey]
  · intro hfiles l hl f hf hkey
    exact addKey_frame nsp key st.settings hfiles f.absolutePath
      (st.settings.languages.map (fun x => x.code)) st.fs hkey
  · intro hfiles hfs hq
    obtain ⟨h1, h2, h3, h4⟩ := addKey_loop nsp key st.settings hfiles hq
      (st.settings.languages.map (fun l => l.code)) st.fs hfs
    have hset : (addKey st nsp key).settings = st.settings := h1
    show ((addKey st nsp key).settings.languages.map (fun l => l.code)).foldl
      (fun s c => addKeyStep nsp key s c) (addKey st nsp key) = addKey st nsp key
    rw [hset]
    apply foldl_fixed
    intro c hc
    obtain ⟨l, hl, rfl⟩ := List.mem_map.mp hc
    rcases hf2 : st.settings.languages.find? (fun x => x.code = l.code) with _ | lang
    · exact addKeyStep_no_lang nsp key _ l.code (by rw [hset]; exact hf2)
    · obtain ⟨f, hfile⟩ := hfiles lang (List.mem_of_find?_eq_some hf2)
      have hk4 : key ∈ flatKeys (flattenFields
          (readJsonFile (addKey st nsp key).fs f.absolutePath) "") :=
        h4 l.code (List.mem_map_of_mem (fun x => x.code) hl) lang hf2 f hfile
      rw [addKeyStep_found nsp key (addKey st nsp key) l.code lang f
        (by rw [hset]; exact hf2) hfile, if_pos hk4]

/-- Witness for C2 on a one-language store holding `{"a": "x"}`, adding
key `"b"` twice. -/
theorem C2_witness :
    addKey (addKey ⟨⟨some "/r", .flat, [⟨"en-US", [⟨"/r/en-US.json", "default"⟩]⟩]⟩,
        [("/r/en-US.json", [("a", .str "x")])]⟩ "default" "b") "default" "b" =
      addKey ⟨⟨some "/r", .flat, [⟨"en-US", [⟨"/r/en-US.json", "default"⟩]⟩]⟩,
        [("/r/en-US.json", [("a", .str "x")])]⟩ "default" "b" :=
  (C2_addKey_idempotent ⟨⟨some "/r", .flat, [⟨"en-US", [⟨"/r/en-US.json", "default"⟩]⟩]⟩,
      [("/r/en-US.json", [("a", .str "x")])]⟩ "default" "b").2.2
    (by
      intro l hl
      rw [List.mem_singleton] at hl
      subst hl
      exact ⟨⟨"/r/en-US.json", "default"⟩, by decide⟩)
    (by
      intro p cc h
      rw [alistGet_cons] at h
      split at h
      · cases h
        constructor
        · simp +decide [goodFields, goodVal, goodKey]
        · simp [primFields, primVal]
      · rw [alistGet_nil] at h
        cases h)
    (by decide)

theorem intakeLoop_eq_addKey_fold (nsp k : String) :
    ∀ (codes : List String) (st : Store) (added : Bool),
      ∃ a2, intakeLoop nsp (some (.str k)) st codes added =
        .ok (codes.foldl (fun s c => addKeyStep nsp k s c) st, a2)
      ∧ (added = true → a2 = true) := by
  intro codes
  induction codes with
  | nil => intro st added; exact ⟨added, rfl, fun h => h⟩
  | cons c rest ih =>
    intro st added
    rcases hE : ensureFile st c nsp with ⟨st', fo⟩
    rcases fo with _ | file
    · obtain ⟨a2, hl, himp⟩ := ih st' added
      refine ⟨a2, ?_, himp⟩
      rw [List.foldl_cons]
      have hstep : addKeyStep nsp k st c = st' := by
        simp only [addKeyStep, hE]
      rw [hstep]
      simp only [intakeLoop, hE]
      exact hl
    · by_cases hk : k ∈ flatKeys (flattenFields (readJsonFile st'.fs file.absolutePath) "")
      · obtain ⟨a2, hl, himp⟩ := ih st' added
        refine ⟨a2, ?_, himp⟩
        rw [List.foldl_cons]
        have hstep : addKeyStep nsp k st c = st' := by
          simp only [addKeyStep, hE]
          simp [hk]
        rw [hstep]
        simp only [intakeLoop, hE]
        simpa [toPropKey, hk] using hl
      · obtain ⟨a2, hl, himp⟩ := ih ⟨st'.settings, writeJsonFile st'.fs file.absolutePath (setNestedValue (readJsonFile st'.fs file.absolutePath) k "")⟩ true
        refine ⟨a2, ?_, fun _ => himp rfl⟩
        rw [List.foldl_cons]
        have hstep : addKeyStep nsp k st c =
            ⟨st'.settings, writeJsonFile st'.fs file.absolutePath
              (setNestedValue (readJsonFile st'.fs file.absolutePath) k "")⟩ := by
          simp only [addKeyStep, hE]
          simp [hk]
        rw [hstep]
        simp only [intakeLoop, hE]
        simpa [toPropKey, hk] using hl

theorem intake_noop (nsp k : String) (st : Store) :
    ∀ (codes : List String) (added : Bool),
      (∀ c ∈ codes, ∀ lang, st.settings.languages.find? (fun l => l.code = c) = some lang →
        ∃ f, lang.files.find? (fun g => g.«namespace» = nsp) = some f ∧
          k ∈ flatKeys (flattenFields (readJsonFile st.fs f.absolutePath) "")) →
      intakeLoop nsp (some (.str k)) st codes added = .ok (st, added) := by
  intro codes
  induction codes with
  | nil => intro added _; rfl
  | cons c rest ih =>
    intro added h
    rcases hfind : st.settings.languages.find? (fun l => l.code = c) with _ | lang
    · have hE : ensureFile st c nsp = (st, none) := by
        unfold ensureFile
        rw [hfind]
      simp only [intakeLoop, hE]
      exact ih added (fun c0 hc0 => h c0 (List.mem_cons_of_mem _ hc0))
    · obtain ⟨f, hfile, hk⟩ := h c (List.mem_cons_self _ _) lang hfind
      have hE : ensureFile st c nsp = (st, some f) := by
        unfold ensureFile
        rw [hfind]
        simp [hfile]
      simp only [intakeLoop, hE]
      rw [if_pos (by simpa [toPropKey] using hk)]
      exact ih added (fun c0 hc0 => h c0 (List.mem_cons_of_mem _ hc0))

theorem intake_first_write (nsp k : String) (st : Store) (c0 : String) (rest : List String)
    (lang : Language) (f : TranslationFile)
    (hfind : st.settings.languages.find? (fun l => l.code = c0) = some lang)
    (hfile : lang.files.find? (fun g => g.«namespace» = nsp) = some f)
    (habs : k ∉ flatKeys (flattenFields (readJsonFile st.fs f.absolutePath) "")) :
    intakeLoop nsp (some (.str k)) st (c0 :: rest) false =
      .ok ((c0 :: rest).foldl (fun s c => addKeyStep nsp k s c) st, true) := by
  have hE : ensureFile st c0 nsp = (st, some f) := by
    unfold ensureFile
    rw [hfind]
    simp [hfile]
  obtain ⟨a2, hl, himp⟩ := intakeLoop_eq_addKey_fold nsp k rest
    ⟨st.settings, writeJsonFile st.fs f.absolutePath
      (setNestedValue (readJsonFile st.fs f.absolutePath) k "")⟩ true
  rw [himp rfl] at hl
  have hstep : addKeyStep nsp k st c0 =
      ⟨st.settings, writeJsonFile st.fs f.absolutePath
        (setNestedValue (readJsonFile st.fs f.absolutePath) k "")⟩ := by
    simp only [addKeyStep, hE]
    simp [habs]
  rw [List.foldl_cons, hstep]
  simp only [intakeLoop, hE]
  rw [if_neg (by simpa [toPropKey] using habs)]
  exact hl

/-- C6 (amended): with at least one configured language, every language
already holding a file record for the namespace, well-formed on-disk
documents, a reported key with nonempty dot segments absent from every
language's file, and a body carrying only that string `key`, the first
`POST` inserts the key everywhere and notifies once with `(namespace, [key])`,
and the second identical `POST` finds the key everywhere, changes nothing,
and emits no notification.  (The original claim fails without the
nonempty-segment condition: see the counterexample with key `".a"`.) -/
theorem C6_intake_idempotent_amended (st : Store) (req : HttpRequest)
    (lng nsp k : String) (fs0 : Obj)
    (hm : req.method = "POST")
    (hurl : matchLocalesPath req.url = some (lng, nsp))
    (hbody : req.body = some (.obj fs0))
    (hkv : alistGet fs0 "key" = some (.str k))
    (hdv : alistGet fs0 "defaultValue" = none)
    (hne : st.settings.languages ≠ [])
    (hfiles : ∀ l ∈ st.settings.languages, ∃ f,
        l.files.find? (fun g => g.«namespace» = nsp) = some f)
    (habsent : ∀ l ∈ st.settings.languages, ∀ f,
        l.files.find? (fun g => g.«namespace» = nsp) = some f →
        k ∉ flatKeys (flattenFields (readJsonFile st.fs f.absolutePath) ""))
    (hfs : ∀ p c, alistGet st.fs p = some c → goodFields c ∧ primFields c)
    (hq : ∀ q ∈ jsSplitDot k, q ≠ "") :
    (handleRequest st req).2.1 = [(nsp, [k])]
    ∧ (handleRequest st req).2.2 = ⟨200, .okTrue⟩
    ∧ handleRequest (handleRequest st req).1 req =
        ((handleRequest st req).1, [], ⟨200, .okTrue⟩) := by
  have hkey : getProp (Json.obj fs0) "key" = some (Json.str k) := hkv
  have hdef : getProp (Json.obj fs0) "defaultValue" = none := hdv
  have hcodes_ne : st.settings.languages.map (fun l => l.code) ≠ [] := by
    intro h
    exact hne (by simpa using h)
  rcases hcs : st.settings.languages.map (fun l => l.code) with _ | ⟨c0, crest⟩
  · exact absurd hcs hcodes_ne
  · have hc0mem : c0 ∈ st.settings.languages.map (fun l => l.code) := by
      rw [hcs]
      exact List.mem_cons_self _ _
    obtain ⟨l0, hl0, hl0c⟩ := List.mem_map.mp hc0mem
    rcases hfind0 : st.settings.languages.find? (fun l => l.code = c0) with _ | lang
    · exact absurd (by simp [hl0c]) (List.find?_eq_none.mp hfind0 l0 hl0)
    · obtain ⟨f0, hfile0⟩ := hfiles lang (List.mem_of_find?_eq_some hfind0)
      have habs0 := habsent lang (List.mem_of_find?_eq_some hfind0) f0 hfile0
      have hfirst := intake_first_write nsp k st c0 crest lang f0 hfind0 hfile0 habs0
      rw [← hcs] at hfirst
      obtain ⟨hs1, hfs1, hmono1, hpres1⟩ := addKey_loop nsp k st.settings hfiles hq
        (st.settings.languages.map (fun l => l.code)) st.fs hfs
      have hfirst2 : intakeLoop nsp (some (.str k)) st
          (st.settings.languages.map (fun l => l.code)) false =
          .ok ((st.settings.languages.map (fun l => l.code)).foldl
            (fun s c => addKeyStep nsp k s c) st, true) := hfirst
      have hpb1 : processBody st lng nsp (.obj fs0) =
          .ok ((st.settings.languages.map (fun l => l.code)).foldl
            (fun s c => addKeyStep nsp k s c) st, [(nsp, [k])]) := by
        simp only [processBody, hkey, hdef]
        rw [hfirst2]
        simp [applyDefault]
      have hH1 : handleRequest st req =
          ((st.settings.languages.map (fun l => l.code)).foldl
            (fun s c => addKeyStep nsp k s c) st, [(nsp, [k])], ⟨200, .okTrue⟩) := by
        simp [handleRequest, hm, hurl, hbody, hpb1]
      have hsett : ((st.settings.languages.map (fun l => l.code)).foldl
          (fun s c => addKeyStep nsp k s c) st).settings = st.settings := hs1
      have hnoop : intakeLoop nsp (some (.str k))
          ((st.settings.languages.map (fun l => l.code)).foldl
            (fun s c => addKeyStep nsp k s c) st)
          (((st.settings.languages.map (fun l => l.code)).foldl
            (fun s c => addKeyStep nsp k s c) st).settings.languages.map (fun l => l.code))
          false =
          .ok ((st.settings.languages.map (fun l => l.code)).foldl
            (fun s c => addKeyStep nsp k s c) st, false) := by
        apply intake_noop
        intro c hc lang2 hlang2
        rw [hsett] at hc hlang2
        obtain ⟨f, hfile⟩ := hfiles lang2 (List.mem_of_find?_eq_some hlang2)
        refine ⟨f, hfile, ?_⟩
        exact hpres1 c hc lang2 hlang2 f hfile
      have hpb2 : processBody ((st.settings.languages.map (fun l => l.code)).foldl
          (fun s c => addKeyStep nsp k s c) st) lng nsp (.obj fs0) =
          .ok ((st.settings.languages.map (fun l => l.code)).foldl
            (fun s c => addKeyStep nsp k s c) st, []) := by
        simp only [processBody, hkey, hdef]
        rw [hnoop]
        simp [applyDefault]
      have hH2 : handleRequest ((st.settings.languages.map (fun l => l.code)).foldl
          (fun s c => addKeyStep nsp k s c) st) req =
          ((st.settings.languages.map (fun l => l.code)).foldl
            (fun s c => addKeyStep nsp k s c) st, [], ⟨200, .okTrue⟩) := by
        simp [handleRequest, hm, hurl, hbody, hpb2]
      refine ⟨by rw [hH1], by rw [hH1], ?_⟩
      rw [hH1]
      exact hH2

/-- Witness for C6 (amended) on a one-language store with an existing empty
file, reporting key `"x"` twice. -/
theorem C6_witness :
    (handleRequest ⟨⟨some "/r", .flat, [⟨"en-US", [⟨"/r/en-US.json", "default"⟩]⟩]⟩,
        [("/r/en-US.json", [])]⟩
      ⟨"POST", "/locales/en-US/default", some (.obj [("key", .str "x")])⟩).2.1
      = [("default", ["x"])]
    ∧ handleRequest
        (handleRequest ⟨⟨some "/r", .flat, [⟨"en-US", [⟨"/r/en-US.json", "default"⟩]⟩]⟩,
            [("/r/en-US.json", [])]⟩
          ⟨"POST", "/locales/en-US/default", some (.obj [("key", .str "x")])⟩).1
        ⟨"POST", "/locales/en-US/default", some (.obj [("key", .str "x")])⟩ =
      ((handleRequest ⟨⟨some "/r", .flat, [⟨"en-US", [⟨"/r/en-US.json", "default"⟩]⟩]⟩,
          [("/r/en-US.json", [])]⟩
        ⟨"POST", "/locales/en-US/default", some (.obj [("key", .str "x")])⟩).1, [],
        ⟨200, .okTrue⟩) :=
  have h := C6_intake_idempotent_amended
    ⟨⟨some "/r", .flat, [⟨"en-US", [⟨"/r/en-US.json", "default"⟩]⟩]⟩,
      [("/r/en-US.json", [])]⟩
    ⟨"POST", "/locales/en-US/default", some (.obj [("key", .str "x")])⟩
    "en-US" "default" "x" [("key", .str "x")]
    rfl (by decide) rfl (by simp [alistGet]) (by simp [alistGet]) (by simp)
    (by
      intro l hl
      rw [List.mem_singleton] at hl
      subst hl
      exact ⟨⟨"/r/en-US.json", "default"⟩, by decide⟩)
    (by
      intro l hl f hf
      rw [List.mem_singleton] at hl
      subst hl
      rw [show List.find? (fun g => g.«namespace» = "default")
          [(⟨"/r/en-US.json", "default"⟩ : TranslationFile)] =
          some ⟨"/r/en-US.json", "default"⟩ from by decide] at hf
      cases hf
      simp [readJsonFile, alistGet_cons, alistGet_nil, flattenFields_nil, flatKeys])
    (by
      intro p cc h
      rw [alistGet_cons] at h
      split at h
      · cases h
        exact ⟨goodFields_nil, primFields_nil⟩
      · rw [alistGet_nil] at h
        cases h)
    (by decide)
  ⟨h.1, h.2.2⟩

/-- Counterexample to C6 as stated: reporting the key `".a"` (absent from the
single language's file) twice produces a "keys received" notification on BOTH
requests — the flatten/re-insert mismatch on a key with an empty first segment
makes the handler re-add and re-notify forever. -/
theorem C6_counterexample :
    (handleRequest ⟨⟨some "/r", .flat, [⟨"en-US", [⟨"/r/en-US.json", "default"⟩]⟩]⟩,
        [("/r/en-US.json", [])]⟩
      ⟨"POST", "/locales/en-US/default", some (.obj [("key", .str ".a")])⟩).2.1
      = [("default", [".a"])]
    ∧ (handleRequest
        (handleRequest ⟨⟨some "/r", .flat, [⟨"en-US", [⟨"/r/en-US.json", "default"⟩]⟩]⟩,
            [("/r/en-US.json", [])]⟩
          ⟨"POST", "/locales/en-US/default", some (.obj [("key", .str ".a")])⟩).1
        ⟨"POST", "/locales/en-US/default", some (.obj [("key", .str ".a")])⟩).2.1
      = [("default", [".a"])] := by
  constructor <;>
    simp [handleRequest, processBody, intakeLoop, ensureFile, applyDefault, getProp,
      matchLocalesPath, jsSplitSlashAux, readJsonFile, alistGet, alistPut, flattenFields,
      objAssignS, fullKey, jsLeafString, flatKeys, flatLookup, setNestedValue, setParts,
      jsSplitDot, jsSplitDotAux, writeJsonFile, sortDeepF, sortDeepEach, sortDeepVal,
      List.insertionSort, List.orderedInsert, fieldLe, baseLe, asciiLower, asciiLowerChar,
      toPropKey, List.find?, updateFirstLang, existsSync, pathJoin, Option.getD]

theorem deepSortedEach_iff_forall : ∀ (fs : Obj),
    deepSortedEach fs ↔ ∀ kv ∈ fs, deepSortedVal kv.2 := by
  intro fs
  induction fs with
  | nil => simp [deepSortedEach]
  | cons e t ih =>
    obtain ⟨k, v⟩ := e
    rw [show deepSortedEach ((k, v) :: t) ↔ deepSortedVal v ∧ deepSortedEach t from by
      simp [deepSortedEach], ih]
    simp only [List.mem_cons, forall_eq_or_imp]

theorem deepSortedVal_sortDeepVal (v : Json) : deepSortedVal (sortDeepVal v) := by
  cases v with
  | obj fs =>
    show deepSortedVal (.obj (List.insertionSort fieldLe (sortDeepEach fs)))
    refine ⟨List.sorted_insertionSort fieldLe (sortDeepEach fs), ?_⟩
    rw [deepSortedEach_iff_forall]
    intro kv hkv
    have hkv2 : kv ∈ sortDeepEach fs :=
      (List.perm_insertionSort fieldLe (sortDeepEach fs)).mem_iff.mp hkv
    rw [sortDeepEach_eq_map] at hkv2
    obtain ⟨e, he, rfl⟩ := List.mem_map.mp hkv2
    exact deepSortedVal_sortDeepVal e.2
  | str s => trivial
  | num n => trivial
  | bool b => trivial
  | null => trivial
  | arr es => trivial
termination_by sizeOf v
decreasing_by
  have h1 := List.sizeOf_lt_of_mem he
  obtain ⟨a, b⟩ := e
  simp only [Prod.mk.sizeOf_spec] at h1
  simp_wf
  omega

theorem JsonSim_of_perm : ∀ {l1 l2 : Obj}, l1.Perm l2 → JsonSim (.obj l1) (.obj l2) := by
  intro l1 l2 h
  induction h with
  | nil => exact .objNil
  | cons x _ ih =>
    obtain ⟨k, v⟩ := x
    exact .objCons k (jsonSimRefl v) ih
  | swap x y t => exact .objSwap y x t
  | trans _ _ ih1 ih2 => exact .objTrans ih1 ih2

mutual

/-- `sortDeepVal` only reorders object keys: the result is the same document
up to key order. -/
theorem sortDeepVal_sim : ∀ (v : Json), JsonSim (sortDeepVal v) v
  | .obj fs =>
    .objTrans (JsonSim_of_perm (List.perm_insertionSort fieldLe (sortDeepEach fs)))
      (sortDeepEach_sim fs)
  | .str s => .str s
  | .num n => .num n
  | .bool b => .bool b
  | .null => .null
  | .arr es => .arr es

/-- Per-field version of `sortDeepVal_sim`. -/
theorem sortDeepEach_sim : ∀ (fs : Obj), JsonSim (.obj (sortDeepEach fs)) (.obj fs)
  | [] => .objNil
  | (k, v) :: rest => .objCons k (sortDeepVal_sim v) (sortDeepEach_sim rest)

end

theorem sortDeep_eq_val : ∀ (j : Json), sortDeep j = sortDeepVal j := by
  intro j
  cases j <;> rfl

theorem forestDeepSorted_iff_forall : ∀ (l : List TreeNode),
    forestDeepSorted l ↔ ∀ n ∈ l, nodeDeepSorted n := by
  intro l
  induction l with
  | nil => simp [forestDeepSorted]
  | cons n t ih =>
    rw [show forestDeepSorted (n :: t) ↔ nodeDeepSorted n ∧ forestDeepSorted t from by
      simp [forestDeepSorted], ih]
    simp only [List.mem_cons, forall_eq_or_imp]

theorem sortTreeEach_eq_map : ∀ (l : List TreeNode),
    sortTreeEach l = l.map sortTreeNode := by
  intro l
  induction l with
  | nil => rfl
  | cons n t ih => simp [sortTreeEach, ih]

theorem nodeDeepSorted_sortTreeNode (n : TreeNode) : nodeDeepSorted (sortTreeNode n) := by
  cases n with
  | mk s f c v =>
    show nodeDeepSorted (.mk s f (List.insertionSort nodeLe (sortTreeEach c)) v)
    refine ⟨List.sorted_insertionSort nodeLe (sortTreeEach c), ?_⟩
    rw [forestDeepSorted_iff_forall]
    intro m hm
    have hm2 : m ∈ sortTreeEach c :=
      (List.perm_insertionSort nodeLe (sortTreeEach c)).mem_iff.mp hm
    rw [sortTreeEach_eq_map] at hm2
    obtain ⟨m0, hm0, rfl⟩ := List.mem_map.mp hm2
    exact nodeDeepSorted_sortTreeNode m0
termination_by sizeOf n
decreasing_by
  have h1 := List.sizeOf_lt_of_mem hm0
  simp only [TreeNode.mk.sizeOf_spec]
  omega

theorem TreeSim_of_perm : ∀ {l1 l2 : List TreeNode}, l1.Perm l2 → TreeSim l1 l2 := by
  intro l1 l2 h
  induction h with
  | nil => exact .nil
  | cons x _ ih =>
    cases x with
    | mk s f c v => exact .cons s f v (treeSimRefl c) ih
  | swap x y t => exact .swap y x t
  | trans _ _ ih1 ih2 => exact .trans ih1 ih2

/-- `sortTreeEach` only reorders children inside each node. -/
theorem sortTreeEach_sim : ∀ (l : List TreeNode), TreeSim (sortTreeEach l) l
  | [] => .nil
  | .mk s f c v :: t =>
    .cons s f v
      (.trans (TreeSim_of_perm (List.perm_insertionSort nodeLe (sortTreeEach c)))
        (sortTreeEach_sim c))
      (sortTreeEach_sim t)

/-- C8: the base-comparator alphabetical order is canonical on write:
`writeJsonFile` stores exactly `sortDeep` of the document, whose every
plain-object level has its keys sorted, while preserving the document up to
key order (`sortDeep` does not descend into arrays — matching the data
model, whose documents have no arrays).  Likewise `sortTree` sorts the
sibling lists at every depth by `localeCompare` on segments (hence also by
the case-insensitive base comparator) while preserving the forest up to
sibling order.  The final conjunct is the spec's example:
`{"b":1,"a":2}` persists as `{"a":2,"b":1}`. -/
theorem C8_canonical_ordering :
    (∀ (doc : Obj) (fs : FileSys) (path : String),
        alistGet (writeJsonFile fs path doc) path = some (sortDeepF doc)
        ∧ deepSortedVal (.obj (sortDeepF doc))
        ∧ JsonSim (.obj (sortDeepF doc)) (.obj doc))
    ∧ (∀ j : Json, deepSortedVal (sortDeep j) ∧ JsonSim (sortDeep j) j)
    ∧ (∀ nodes : List TreeNode,
        List.Pairwise nodeLe (sortTree nodes)
        ∧ List.Pairwise (fun a b => baseLe a.segment b.segment) (sortTree nodes)
        ∧ forestDeepSorted (sortTree nodes)
        ∧ TreeSim (sortTree nodes) nodes)
    ∧ sortDeep (.obj [("b", .num 1), ("a", .num 2)]) =
        .obj [("a", .num 2), ("b", .num 1)] := by
  refine ⟨?_, ?_, ?_, ?_⟩
  · intro doc fs path
    exact ⟨alistGet_put_self fs path (sortDeepF doc),
      deepSortedVal_sortDeepVal (.obj doc), sortDeepVal_sim (.obj doc)⟩
  · intro j
    rw [sortDeep_eq_val]
    exact ⟨deepSortedVal_sortDeepVal j, sortDeepVal_sim j⟩
  · intro nodes
    refine ⟨List.sorted_insertionSort nodeLe (sortTreeEach nodes), ?_, ?_, ?_⟩
    · refine List.Pairwise.imp ?_ (List.sorted_insertionSort nodeLe (sortTreeEach nodes))
      intro a b hab
      rcases hab with h | ⟨h, _⟩
      · exact le_of_lt h
      · exact le_of_eq h
    · rw [forestDeepSorted_iff_forall]
      intro n hn
      have hn2 : n ∈ sortTreeEach nodes :=
        (List.perm_insertionSort nodeLe (sortTreeEach nodes)).mem_iff.mp hn
      rw [sortTreeEach_eq_map] at hn2
      obtain ⟨m, _, rfl⟩ := List.mem_map.mp hn2
      exact nodeDeepSorted_sortTreeNode m
    · exact .trans (TreeSim_of_perm (List.perm_insertionSort nodeLe (sortTreeEach nodes)))
        (sortTreeEach_sim nodes)
  · simp [sortDeep, sortDeepF, sortDeepEach, sortDeepVal, List.insertionSort,
      List.orderedInsert, fieldLe, baseLe, asciiLower, asciiLowerChar]
    decide

end KeyHub
